import Mathlib

/-!
# Verification of the JSON path expander

A shallow embedding of the path-addressed structural editor of this
repository (`src/extension.ts`):

* `parsePath` — the path-expression parser (keys and bracket accessors),
  a direct transliteration of the source function of the same name;
* `coerceValue` — the value coercer built on a strict JSON parser
  (the source delegates the parse to the host runtime's JSON parser,
  which is embedded here following the JSON grammar);
* the structural editor (`modify` / `applyEdits`), which the source
  obtains from an external library; it is modelled from the spec
  (a concrete-syntax-tree walk producing minimal text edits);
* `findJsonVariables` — the embedded-object locator, a transliteration
  of the source's regex scan including its backtracking order.

Strings are modelled as lists of Unicode scalar values (`List Char`);
the host language's UTF-16 code-unit indexing and its floating-point
number type are abstracted to exact sequences and exact rationals,
which agree on every input exercised here.
-/

set_option maxHeartbeats 4000000
set_option maxRecDepth 8000

namespace JPE

abbrev Chars := List Char

/-- The scripting language's whitespace class (`\s`): ASCII whitespace
plus the byte-order mark and no-break space (the members relevant here). -/
def jsWs (c : Char) : Bool :=
  c == ' ' || c == '\t' || c == '\n' || c == '\r' || c == '\x0b' ||
  c == '\x0c' || c == '\u00A0' || c == '\uFEFF'

/-- `String.trim` of the host language: strip `\s` from both ends. -/
def trimChars (s : Chars) : Chars :=
  ((s.dropWhile (fun c => jsWs c)).reverse.dropWhile (fun c => jsWs c)).reverse

/-- A path accessor: an object key or an array index. -/
inductive Seg : Type where
  | key : String → Seg
  | idx : Nat → Seg
deriving DecidableEq, Repr

/-- Numeric value of an all-digit character run (`Number(inside)` on a
string matching `/^\d+$/`). -/
def digitsVal (cs : Chars) : Nat :=
  cs.foldl (fun n c => 10 * n + (c.toNat - 48)) 0

/-- `inside.startsWith(q) && inside.endsWith(q)` for a one-character quote. -/
def isQuoteWrapped (cs : Chars) (q : Char) : Bool :=
  match cs with
  | [] => false
  | c :: _ => c == q && cs.getLast? == some q

/-- The bracket-accessor case split of `parsePath` (lines 139–148 of the
source): digits → index; quote-wrapped → key without the outer quotes
(`slice(1, -1)`); otherwise → key equal to the raw trimmed content. -/
def bracketSeg (insideRaw : Chars) : Seg :=
  let t := trimChars insideRaw
  if !t.isEmpty && t.all Char.isDigit then
    .idx (digitsVal t)
  else if isQuoteWrapped t '"' || isQuoteWrapped t '\'' then
    .key ((t.drop 1).dropLast.asString)
  else
    .key t.asString

/-- Index of the first `]` of the input (`indexOf("]", i + 1)` of the
source, relative to the position after the `[`). -/
def closeIdx : Chars → Option Nat
  | [] => none
  | c :: r => if c = ']' then some 0 else (closeIdx r).map (· + 1)

/-- One pass of the `parsePath` scan loop, fuelled so that every equation
reduces in the kernel; `ppGo (l.length + 1) l []` performs the whole scan
(proved sufficient by the strict-advance property, claim 9). -/
def ppGo : Nat → Chars → List Seg → List Seg
  | 0, _, _ => []
  | _ + 1, [], parts => parts
  | n + 1, c :: rest, parts =>
    if c = '.' then
      ppGo n rest parts
    else if c = '[' then
      match closeIdx rest with
      | none => []
      | some k =>
        let inside := rest.take k
        let after := rest.drop (k + 1)
        let after' := if after.head? = some '.' then after.tail else after
        ppGo n after' (parts ++ [bracketSeg inside])
    else
      let run := (c :: rest).takeWhile (fun c => c ≠ '.' && c ≠ '[')
      let rest' := (c :: rest).drop run.length
      let token := trimChars run
      ppGo n rest' (if token.isEmpty then parts else parts ++ [.key token.asString])

/-- Transliteration of the source's `parsePath`: a single left-to-right
scan; an unmatched `[` aborts the whole parse with the empty (sentinel)
path. -/
def parsePath (input : String) : List Seg :=
  ppGo (input.data.length + 1) input.data []

/-- Some `[` of the input has no `]` anywhere after it (the condition
under which the scan's bracket branch must eventually abort). -/
def hasUB : Chars → Bool
  | [] => false
  | c :: r => (c = '[' && !r.contains ']') || hasUB r

/-! ## JSON values

The dynamically-typed value produced by coercion: a tagged sum.  Numbers
are modelled as exact rationals (every number appearing in the claims is
a small integer, on which the host's binary floating point is exact). -/

mutual
inductive JsonValue : Type where
  | null : JsonValue
  | bool : Bool → JsonValue
  | num : Rat → JsonValue
  | str : String → JsonValue
  | arr : JsonList → JsonValue
  | obj : JsonPairs → JsonValue

inductive JsonList : Type where
  | nil : JsonList
  | cons : JsonValue → JsonList → JsonList

inductive JsonPairs : Type where
  | nil : JsonPairs
  | cons : String → JsonValue → JsonPairs → JsonPairs
end

/-! ## Strict JSON parsing (the host runtime's JSON parser)

`coerceValue` in the source calls the host runtime's strict JSON parser
inside a try/catch.  The parser is embedded here directly from the JSON
grammar: whitespace, `null`/`true`/`false`, numbers, strings with
escapes, arrays and objects; no comments, no trailing commas. -/

/-- Strict JSON whitespace. -/
def jWs (c : Char) : Bool :=
  c == ' ' || c == '\t' || c == '\n' || c == '\r'

def skipJWs (l : Chars) : Chars := l.dropWhile jWs

def hexVal? (c : Char) : Option Nat :=
  if c.isDigit then some (c.toNat - 48)
  else if 'a' ≤ c && c ≤ 'f' then some (c.toNat - 87)
  else if 'A' ≤ c && c ≤ 'F' then some (c.toNat - 55)
  else none

/-- Decode one escape sequence (the characters after the backslash);
returns the decoded character and the number of characters consumed. -/
def escDecode : Chars → Option (Char × Nat)
  | [] => none
  | e :: r =>
    if e = '"' then some ('"', 1)
    else if e = '\\' then some ('\\', 1)
    else if e = '/' then some ('/', 1)
    else if e = 'b' then some ('\x08', 1)
    else if e = 'f' then some ('\x0c', 1)
    else if e = 'n' then some ('\n', 1)
    else if e = 'r' then some ('\x0d', 1)
    else if e = 't' then some ('\t', 1)
    else if e = 'u' then
      match r with
      | a :: b :: c :: d :: _ =>
        match hexVal? a, hexVal? b, hexVal? c, hexVal? d with
        | some x, some y, some z, some w =>
          some (Char.ofNat (((x * 16 + y) * 16 + z) * 16 + w), 5)
        | _, _, _, _ => none
      | _ => none
    else none

/-- Scan a string body (the input starts just after the opening quote).
Returns the raw token text (including the closing quote), the decoded
character sequence, and the rest of the input.  Unescaped control
characters and malformed escapes are rejected. -/
def strBody : Nat → Chars → Option (Chars × Chars × Chars)
  | 0, _ => none
  | n + 1, l =>
    match l with
    | [] => none
    | c :: r =>
      if c = '"' then some (['"'], [], r)
      else if c = '\\' then
        match escDecode r with
        | none => none
        | some (v, k) =>
          (strBody n (r.drop k)).map fun (tok, val, rest) =>
            ('\\' :: (r.take k ++ tok), v :: val, rest)
      else if c.toNat < 32 then none
      else (strBody n r).map fun (tok, val, rest) => (c :: tok, c :: val, rest)

def digitsTake (l : Chars) : Chars × Chars :=
  (l.takeWhile Char.isDigit, l.dropWhile Char.isDigit)

/-- The fraction part of a JSON number scan (`.digits`, or empty). -/
def numFrac (l2 : Chars) : Option (Chars × Chars) :=
  if l2.head? = some '.' then
    let (d, r2) := digitsTake l2.tail
    if d.isEmpty then none else some (d, r2)
  else some ([], l2)

/-- The exponent part of a JSON number scan (`[eE][+-]?digits`, or empty).
Returns the raw exponent text, its signed value, and the rest. -/
def numExp (l3 : Chars) : Option (Chars × Int × Chars) :=
  match l3 with
  | e :: r =>
    if e == 'e' || e == 'E' then
      let (es, r1) : Int × Chars :=
        if r.head? = some '+' then (1, r.tail)
        else if r.head? = some '-' then (-1, r.tail)
        else (1, r)
      let (ed, r2) := digitsTake r1
      if ed.isEmpty then none
      else some (e :: (r.take (r.length - r1.length) ++ ed), es * digitsVal ed, r2)
    else some ([], 0, l3)
  | [] => some ([], 0, l3)

/-- Scan a JSON number (`-? int frac? exp?`, leading zeros rejected).
Returns the raw token text, its exact rational value, and the rest. -/
def lexNumber (l : Chars) : Option (Chars × Rat × Chars) :=
  let sgn : Int := if l.head? = some '-' then -1 else 1
  let l1 := if l.head? = some '-' then l.drop 1 else l
  let (ip, l2) := digitsTake l1
  if ip.isEmpty then none
  else if ip.head? = some '0' && ip.length > 1 then none
  else
    match numFrac l2 with
    | none => none
    | some (fd, l3) =>
      match numExp l3 with
      | none => none
      | some (etok, ev, l4) =>
        let mant : Int := sgn * (digitsVal ip * 10 ^ fd.length + digitsVal fd : Nat)
        let q : Rat :=
          if 0 ≤ ev then mkRat (mant * (10 ^ ev.toNat : Nat)) (10 ^ fd.length)
          else mkRat mant (10 ^ fd.length * 10 ^ (-ev).toNat)
        let tok := (if sgn = -1 then ['-'] else []) ++ ip ++
          (if fd.isEmpty then [] else '.' :: fd) ++ etok
        some (tok, q, l4)

/-- Scan a `null` / `true` / `false` keyword: the maximal letter run must
be exactly one of the keywords. -/
def lexKeyword (l : Chars) : Option (Chars × JsonValue × Chars) :=
  let w := l.takeWhile Char.isAlpha
  if w = "null".data then some (w, .null, l.drop 4)
  else if w = "true".data then some (w, .bool true, l.drop 4)
  else if w = "false".data then some (w, .bool false, l.drop 5)
  else none

mutual
/-- Strict JSON value parser (fuelled; `jsonParse` supplies ample fuel). -/
def pjv : Nat → Chars → Option (JsonValue × Chars)
  | 0, _ => none
  | n + 1, l =>
    match l with
    | '{' :: r =>
      match skipJWs r with
      | '}' :: r2 => some (.obj .nil, r2)
      | r1 => (pjMembers n r1).map fun (ms, rest) => (.obj ms, rest)
    | '[' :: r =>
      match skipJWs r with
      | ']' :: r2 => some (.arr .nil, r2)
      | r1 => (pjItems n r1).map fun (its, rest) => (.arr its, rest)
    | '"' :: r =>
      (strBody n r).map fun (_, val, rest) => (.str val.asString, rest)
    | c :: _ =>
      if c.isDigit || c == '-' then
        (lexNumber l).map fun (_, q, rest) => (.num q, rest)
      else
        (lexKeyword l).map fun (_, v, rest) => (v, rest)
    | [] => none

/-- Object members, positioned at the first character of a key. -/
def pjMembers : Nat → Chars → Option (JsonPairs × Chars)
  | 0, _ => none
  | n + 1, l =>
    match l with
    | '"' :: r =>
      match strBody n r with
      | none => none
      | some (_, kval, r2) =>
        match skipJWs r2 with
        | ':' :: r3 =>
          match pjv n (skipJWs r3) with
          | none => none
          | some (v, r4) =>
            match skipJWs r4 with
            | ',' :: r5 =>
              (pjMembers n (skipJWs r5)).map fun (ms, rest) =>
                (.cons kval.asString v ms, rest)
            | '}' :: r5 => some (.cons kval.asString v .nil, r5)
            | _ => none
        | _ => none
    | _ => none

/-- Array items, positioned at the first character of an item. -/
def pjItems : Nat → Chars → Option (JsonList × Chars)
  | 0, _ => none
  | n + 1, l =>
    match pjv n l with
    | none => none
    | some (v, r) =>
      match skipJWs r with
      | ',' :: r2 =>
        (pjItems n (skipJWs r2)).map fun (its, rest) => (.cons v its, rest)
      | ']' :: r2 => some (.cons v .nil, r2)
      | _ => none
end

/-- The host runtime's strict JSON parse of a whole string: optional
whitespace around a single value, nothing else. -/
def jsonParse (raw : String) : Option JsonValue :=
  match pjv (raw.data.length * 4 + 16) (skipJWs raw.data) with
  | some (v, rest) => if (skipJWs rest).isEmpty then some v else none
  | none => none

/-- Transliteration of the source's `coerceValue`: strict JSON parse
inside a try/catch; on failure the raw input itself becomes the value. -/
def coerceValue (raw : String) : JsonValue :=
  match jsonParse raw with
  | some v => v
  | none => .str raw

/-! ## The structural editor

Modelled from the spec: the source delegates `modify`, `applyEdits` and
`parseTree` to an external JSON-with-comments library; the spec (§4.4–§4.6)
specifies them "as if built from scratch".  The document is parsed into a
lossless concrete syntax tree that retains every byte of trivia
(whitespace, comments, trailing commas), so that rendering the tree
reproduces the text exactly and an edit touches only the bytes of the
addressed node. -/

/-- Formatting options (`insertSpaces`/`tabSize` in the source). -/
structure FormattingOptions : Type where
  insertSpaces : Bool
  tabSize : Nat
deriving DecidableEq, Repr

/-- The default formatting: spaces, width 2 (`detectFormattingOptions`
with no active editor). -/
def defaultFmt : FormattingOptions := ⟨true, 2⟩

def indentChars (fmt : FormattingOptions) (level : Nat) : Chars :=
  if fmt.insertSpaces then List.replicate (fmt.tabSize * level) ' '
  else List.replicate level '\t'

/-- Newline followed by indentation at the given level. -/
def nlInd (fmt : FormattingOptions) (level : Nat) : Chars :=
  '\n' :: indentChars fmt level

/-! ### The lossless concrete syntax tree -/

mutual
/-- A JSON-with-comments value: a scalar token kept as its exact source
text, or a braced/bracketed composite. -/
inductive CV : Type where
  | lit : Chars → CV
  | obj : ObjI → CV
  | arr : ArrI → CV

/-- Object interior (between the braces): either pure trivia, or a
member list. -/
inductive ObjI : Type where
  | nil : Chars → ObjI
  | mems : Mems → ObjI

/-- Non-empty member list.  `last m post tc` renders as the member, its
trailing trivia, and an optional trailing comma followed by padding;
`cons m post tl` renders as the member, trivia, a comma, then the rest. -/
inductive Mems : Type where
  | last : Mem → Chars → Option Chars → Mems
  | cons : Mem → Chars → Mems → Mems

/-- One object member: trivia, key token, trivia, `:`, trivia, value. -/
inductive Mem : Type where
  | mk : Chars → Chars → Chars → Chars → CV → Mem

/-- Array interior. -/
inductive ArrI : Type where
  | nil : Chars → ArrI
  | items : Items → ArrI

/-- Non-empty item list (same shape as `Mems`). -/
inductive Items : Type where
  | last : Item → Chars → Option Chars → Items
  | cons : Item → Chars → Items → Items

/-- One array item: trivia then value. -/
inductive Item : Type where
  | mk : Chars → CV → Item
end

mutual
def renderCV : CV → Chars
  | .lit t => t
  | .obj i => '{' :: (renderObjI i ++ ['}'])
  | .arr i => '[' :: (renderArrI i ++ [']'])

def renderObjI : ObjI → Chars
  | .nil pad => pad
  | .mems ms => renderMems ms

def renderMems : Mems → Chars
  | .last m post tc =>
    renderMem m ++ post ++ (match tc with | none => [] | some pad => ',' :: pad)
  | .cons m post tl => renderMem m ++ post ++ ',' :: renderMems tl

def renderMem : Mem → Chars
  | .mk pre ktok pk pv v => pre ++ ktok ++ pk ++ ':' :: (pv ++ renderCV v)

def renderArrI : ArrI → Chars
  | .nil pad => pad
  | .items its => renderItems its

def renderItems : Items → Chars
  | .last it post tc =>
    renderItem it ++ post ++ (match tc with | none => [] | some pad => ',' :: pad)
  | .cons it post tl => renderItem it ++ post ++ ',' :: renderItems tl

def renderItem : Item → Chars
  | .mk pre v => pre ++ renderCV v
end

/-- A parsed document: leading trivia, root value, trailing trivia. -/
structure CDoc : Type where
  lead : Chars
  root : CV
  trail : Chars

def renderDoc (d : CDoc) : Chars := d.lead ++ renderCV d.root ++ d.trail

/-! ### Trivia and the JSON-with-comments parser -/

/-- Whitespace accepted between tokens. -/
def cWs (c : Char) : Bool :=
  c == ' ' || c == '\t' || c == '\n' || c == '\r' || c == '\x0b' || c == '\x0c'

/-- Position just past the first `*/` of the input, if any. -/
def starSlash : Chars → Option Nat
  | [] => none
  | c :: r =>
    if c = '*' && r.head? == some '/' then some 2 else (starSlash r).map (· + 1)

/-- Number of trivia characters (whitespace, `//` line comments, closed
`/* */` block comments) at the front of the input. -/
def skipTrivia : Nat → Chars → Nat
  | 0, _ => 0
  | n + 1, l =>
    match l with
    | [] => 0
    | c :: rest =>
      if cWs c then 1 + skipTrivia n rest
      else if c = '/' then
        if rest.head? = some '/' then
          2 + (rest.tail.takeWhile (· ≠ '\n')).length +
            skipTrivia n (rest.tail.drop (rest.tail.takeWhile (· ≠ '\n')).length)
        else if rest.head? = some '*' then
          match starSlash rest.tail with
          | some j => 2 + j + skipTrivia n (rest.tail.drop j)
          | none => 0
        else 0
      else 0

/-- Split the input into its leading trivia and the rest. -/
def triviaSplit (l : Chars) : Chars × Chars :=
  let k := skipTrivia (l.length + 1) l
  (l.take k, l.drop k)

mutual
/-- Parse one JSON-with-comments value, keeping every source byte. -/
def parseCVal : Nat → Chars → Option (CV × Chars)
  | 0, _ => none
  | n + 1, l =>
    match l with
    | [] => none
    | c :: r =>
      if c = '{' then
        let (pad, r1) := triviaSplit r
        if r1.head? = some '}' then some (.obj (.nil pad), r1.tail)
        else (parseMems n pad r1).map fun (ms, rest) => (.obj (.mems ms), rest)
      else if c = '[' then
        let (pad, r1) := triviaSplit r
        if r1.head? = some ']' then some (.arr (.nil pad), r1.tail)
        else (parseItems n pad r1).map fun (its, rest) => (.arr (.items its), rest)
      else if c = '"' then
        (strBody (r.length + 1) r).map fun (tok, _, rest) => (.lit ('"' :: tok), rest)
      else if c.isDigit || c == '-' then
        (lexNumber (c :: r)).map fun (tok, _, rest) => (.lit tok, rest)
      else
        (lexKeyword (c :: r)).map fun (tok, _, rest) => (.lit tok, rest)

/-- Parse object members; `pre` is the already-consumed trivia before the
upcoming key. -/
def parseMems : Nat → Chars → Chars → Option (Mems × Chars)
  | 0, _, _ => none
  | n + 1, pre, l =>
    match l with
    | [] => none
    | c :: r =>
      if c = '"' then
        match strBody (r.length + 1) r with
        | none => none
        | some (tok, _, r2) =>
          let (pk, r3) := triviaSplit r2
          if r3.head? = some ':' then
            let (pv, r5) := triviaSplit r3.tail
            match parseCVal n r5 with
            | none => none
            | some (v, r6) =>
              let m := Mem.mk pre ('"' :: tok) pk pv v
              let (post, r7) := triviaSplit r6
              if r7.head? = some '}' then some (.last m post none, r7.tail)
              else if r7.head? = some ',' then
                let (pad, r9) := triviaSplit r7.tail
                if r9.head? = some '}' then some (.last m post (some pad), r9.tail)
                else (parseMems n pad r9).map fun (ms, rest) => (.cons m post ms, rest)
              else none
          else none
      else none

/-- Parse array items; `pre` is the trivia before the upcoming item. -/
def parseItems : Nat → Chars → Chars → Option (Items × Chars)
  | 0, _, _ => none
  | n + 1, pre, l =>
    match parseCVal n l with
    | none => none
    | some (v, r) =>
      let it := Item.mk pre v
      let (post, r2) := triviaSplit r
      if r2.head? = some ']' then some (.last it post none, r2.tail)
      else if r2.head? = some ',' then
        let (pad, r4) := triviaSplit r2.tail
        if r4.head? = some ']' then some (.last it post (some pad), r4.tail)
        else (parseItems n pad r4).map fun (its, rest) => (.cons it post its, rest)
      else none
end

/-- Parse a whole document: trivia, one value, trivia, end of input.
`none` is the malformed-document failure of the spec (§4.4). -/
def parseDoc (l : Chars) : Option CDoc :=
  let (lead, r1) := triviaSplit l
  match parseCVal (l.length * 4 + 16) r1 with
  | none => none
  | some (v, r2) =>
    let (trail, r3) := triviaSplit r2
    if r3.isEmpty then some ⟨lead, v, trail⟩ else none

/-! ### Serialization of values -/

def digitChar (m : Nat) : Char := Char.ofNat (48 + m)

def natTokAux : Nat → Nat → Chars
  | 0, _ => []
  | fuel + 1, n => if n < 10 then [digitChar n] else natTokAux fuel (n / 10) ++ [digitChar (n % 10)]

def natTok (n : Nat) : Chars := natTokAux (n + 1) n

def intTok (i : Int) : Chars :=
  if i < 0 then '-' :: natTok (-i).toNat else natTok i.toNat

/-- Smallest power of ten the denominator divides (rationals produced by
the JSON number grammar always have one). -/
def findScale (den : Nat) : Option Nat :=
  (List.range 100).findSome? fun k => if 10 ^ k % den = 0 then some k else none

/-- Serialize a number as a JSON number token.  For denominators with no
power-of-ten multiple within range, the integer part alone is printed (a
documented loss: such values cannot arise from parsed JSON numbers). -/
def numTok (q : Rat) : Chars :=
  if q.den = 1 then intTok q.num
  else
    match findScale q.den with
    | some k => intTok (q.num * ((10 ^ k / q.den : Nat) : Int)) ++ 'e' :: '-' :: natTok k
    | none => intTok (q.num / (q.den : Int))

def hexDigit (n : Nat) : Char :=
  if n < 10 then Char.ofNat (48 + n) else Char.ofNat (87 + n)

/-- Escape one character for inclusion in a JSON string token. -/
def escChar (c : Char) : Chars :=
  if c = '"' then ['\\', '"']
  else if c = '\\' then ['\\', '\\']
  else if c = '\n' then ['\\', 'n']
  else if c = '\r' then ['\\', 'r']
  else if c = '\t' then ['\\', 't']
  else if c = '\x08' then ['\\', 'b']
  else if c = '\x0c' then ['\\', 'f']
  else if c.toNat < 32 then
    ['\\', 'u', '0', '0', hexDigit (c.toNat / 16), hexDigit (c.toNat % 16)]
  else [c]

/-- A JSON string token (quotes included) for the given text. -/
def strTok (s : String) : Chars :=
  '"' :: (s.data.foldr (fun c acc => escChar c ++ acc) ['"'])

mutual
/-- Serialize a value as a syntax tree: scalars inline, containers over
multiple lines at the given indentation depth (the spec's "uses `fmt`
uniformly" case). -/
def cvOfValue (fmt : FormattingOptions) : JsonValue → Nat → CV
  | .null, _ => .lit "null".data
  | .bool true, _ => .lit "true".data
  | .bool false, _ => .lit "false".data
  | .num q, _ => .lit (numTok q)
  | .str s, _ => .lit (strTok s)
  | .arr l, d =>
    .arr (match cvItems fmt l d with
      | none => .nil []
      | some its => .items its)
  | .obj l, d =>
    .obj (match cvMems fmt l d with
      | none => .nil []
      | some ms => .mems ms)
termination_by structural v _ => v

/-- Items of a serialized array (`none` for the empty list). -/
def cvItems (fmt : FormattingOptions) : JsonList → Nat → Option Items
  | .nil, _ => none
  | .cons v tl, d =>
    some (match cvItems fmt tl d with
      | none => .last (.mk (nlInd fmt (d + 1)) (cvOfValue fmt v (d + 1))) (nlInd fmt d) none
      | some rest => .cons (.mk (nlInd fmt (d + 1)) (cvOfValue fmt v (d + 1))) [] rest)
termination_by structural l _ => l

/-- Members of a serialized object (`none` for the empty list). -/
def cvMems (fmt : FormattingOptions) : JsonPairs → Nat → Option Mems
  | .nil, _ => none
  | .cons k v tl, d =>
    some (match cvMems fmt tl d with
      | none =>
        .last (.mk (nlInd fmt (d + 1)) (strTok k) [] [' '] (cvOfValue fmt v (d + 1)))
          (nlInd fmt d) none
      | some rest =>
        .cons (.mk (nlInd fmt (d + 1)) (strTok k) [] [' '] (cvOfValue fmt v (d + 1))) [] rest)
termination_by structural l _ => l
end

/-- Wrap a value in synthesized containers for the not-yet-existing tail
of the path: a key accessor creates an object, an index accessor an
array (spec §4.4). -/
def wrapJ : List Seg → JsonValue → JsonValue
  | [], v => v
  | .key k :: r, v => .obj (.cons k (wrapJ r v) .nil)
  | .idx _ :: r, v => .arr (.cons (wrapJ r v) .nil)

/-! ### Computing edits -/

/-- A text edit: replace `len` characters at `offset` with `content`. -/
structure Edit : Type where
  offset : Nat
  len : Nat
  content : Chars
deriving DecidableEq, Repr

/-- The decoded name of a key token (used to resolve key accessors, as
the library resolves them against the parsed member name). -/
def keyName (tok : Chars) : String :=
  match tok with
  | '"' :: r =>
    match strBody (r.length + 1) r with
    | some (_, v, _) => v.asString
    | none => ""
  | _ => ""

/-- Find the first member with the given name; returns the offset of its
value node within the rendered member list and the value node. -/
def memFind : Mems → String → Option (Nat × CV)
  | .last m _ _, k =>
    match m with
    | .mk pre ktok pk pv v =>
      if keyName ktok = k then some (pre.length + ktok.length + pk.length + 1 + pv.length, v)
      else none
  | .cons m post tl, k =>
    match m with
    | .mk pre ktok pk pv v =>
      if keyName ktok = k then some (pre.length + ktok.length + pk.length + 1 + pv.length, v)
      else
        (memFind tl k).map fun (o, n) => ((renderMem m).length + post.length + 1 + o, n)

/-- Offset just past the last member's value within the rendered member
list (the insertion point for a new member). -/
def memEndLast : Mems → Nat
  | .last m _ _ => (renderMem m).length
  | .cons m post tl => (renderMem m).length + post.length + 1 + memEndLast tl

/-- Find the item at the given index; returns the offset of its value
node within the rendered item list and the value node. -/
def itemFind : Items → Nat → Option (Nat × CV)
  | .last it _ _, i =>
    match it with
    | .mk pre v => if i = 0 then some (pre.length, v) else none
  | .cons it post tl, i =>
    match it with
    | .mk pre v =>
      match i with
      | 0 => some (pre.length, v)
      | j + 1 =>
        (itemFind tl j).map fun (o, n) => ((renderItem it).length + post.length + 1 + o, n)

/-- Offset just past the last item's value within the rendered item list. -/
def itemEndLast : Items → Nat
  | .last it _ _ => (renderItem it).length
  | .cons it post tl => (renderItem it).length + post.length + 1 + itemEndLast tl

/-- The member text inserted for a new key (and wrapped remainder of the
path), rendered at depth `d1`. -/
def memberText (fmt : FormattingOptions) (v : JsonValue) (d1 : Nat) (k : String)
    (rest : List Seg) : Chars :=
  strTok k ++ ':' :: ' ' :: renderCV (cvOfValue fmt (wrapJ rest v) d1)

/-- Walk a node along the path and produce the single edit, relative to
the start of the node's rendered text: replace the addressed node when
the whole path resolves; insert a synthesized member/item at the deepest
existing ancestor otherwise; fail on a scalar in the way or an
accessor-kind mismatch (spec §4.4). -/
def wmCV (fmt : FormattingOptions) (V : JsonValue) : CV → Nat → List Seg →
    Option (Nat × Nat × Chars)
  | cv, d, [] => some (0, (renderCV cv).length, renderCV (cvOfValue fmt V d))
  | .obj (.nil pad), d, .key k :: rest =>
    some (1 + pad.length, 0,
      nlInd fmt (d + 1) ++ memberText fmt V (d + 1) k rest ++ nlInd fmt d)
  | .obj (.mems ms), d, .key k :: rest =>
    match memFind ms k with
    | some (mo, val) => (wmCV fmt V val (d + 1) rest).map fun (o, ln, c) => (1 + mo + o, ln, c)
    | none =>
      some (1 + memEndLast ms, 0, ',' :: (nlInd fmt (d + 1) ++ memberText fmt V (d + 1) k rest))
  | .arr (.nil pad), d, .idx _ :: rest =>
    some (1 + pad.length, 0,
      nlInd fmt (d + 1) ++ renderCV (cvOfValue fmt (wrapJ rest V) (d + 1)) ++ nlInd fmt d)
  | .arr (.items its), d, .idx i :: rest =>
    match itemFind its i with
    | some (io, val) => (wmCV fmt V val (d + 1) rest).map fun (o, ln, c) => (1 + io + o, ln, c)
    | none =>
      some (1 + itemEndLast its, 0,
        ',' :: (nlInd fmt (d + 1) ++ renderCV (cvOfValue fmt (wrapJ rest V) (d + 1))))
  | .lit _, _, _ :: _ => none
  | .obj _, _, .idx _ :: _ => none
  | .arr _, _, .key _ :: _ => none

/-- The structural editor (`computeEdits` of spec §4.4): parse the text,
walk the path, return the minimal edit list; `none` when the document is
malformed or the path addresses through an incompatible node. -/
def modify (text : Chars) (path : List Seg) (V : JsonValue) (fmt : FormattingOptions) :
    Option (List Edit) :=
  (parseDoc text).bind fun doc =>
    (wmCV fmt V doc.root 0 path).map fun (o, ln, c) => [⟨doc.lead.length + o, ln, c⟩]

/-- Splice one edit into the text (offsets into the text as given). -/
def splice (text : Chars) (e : Edit) : Chars :=
  text.take e.offset ++ e.content ++ text.drop (e.offset + e.len)

def edLE (a b : Edit) : Bool :=
  a.offset < b.offset || (a.offset == b.offset && a.len ≤ b.len)

def insertEd (e : Edit) : List Edit → List Edit
  | [] => [e]
  | x :: xs => if edLE e x then e :: x :: xs else x :: insertEd e xs

def sortEdits : List Edit → List Edit
  | [] => []
  | e :: es => insertEd e (sortEdits es)

/-- The edit applier (spec §4.6): all offsets refer to the original
text; edits are applied back-to-front in ascending offset order. -/
def applyEdits (text : Chars) (edits : List Edit) : Chars :=
  (sortEdits edits).foldr (fun e t => splice t e) text

/-- One full edit operation: compute edits, then apply them. -/
def editOnce (text : Chars) (path : List Seg) (V : JsonValue)
    (fmt : FormattingOptions) : Option Chars :=
  (modify text path V fmt).map (applyEdits text)

/-! ## The embedded-object locator

A transliteration of the source's `findJsonVariables`: a global scan
with the pattern

`(?:export\s+)?(?:const|let|var\s+)?(\w+)?\s*=\s*({[\s\S]*?})(?:;|$)|({[\s\S]*?})(?:;|$)`

embedded as an explicit backtracking matcher (alternatives tried left to
right, greedy and lazy quantifiers expanded in the engine's preference
order), followed by the structural-parse validation gate of spec §4.5:
only matches whose captured object text parses are kept. -/

def hasPre : Chars → Chars → Bool
  | [], _ => true
  | _ :: _, [] => false
  | p :: ps, c :: cs => p == c && hasPre ps cs

/-- Length of the leading `\s` run. -/
def wsRunLen (cs : Chars) : Nat := (cs.takeWhile jsWs).length

/-- `\s*` consumption candidates, greedy order. -/
def wsStarOpts (cs : Chars) : List Nat := (List.range (wsRunLen cs + 1)).reverse

/-- `\s+` consumption candidates, greedy order. -/
def wsPlusOpts (cs : Chars) : List Nat :=
  ((List.range (wsRunLen cs)).map (· + 1)).reverse

/-- `\w` of the host regex engine: letters, digits, underscore. -/
def wordChar (c : Char) : Bool := c.isAlphanum || c == '_'

def wordRunLen (cs : Chars) : Nat := (cs.takeWhile wordChar).length

/-- `(?:export\s+)?` candidates. -/
def p1opts (cs : Chars) : List Nat :=
  (if hasPre "export".data cs then (wsPlusOpts (cs.drop 6)).map (· + 6) else []) ++ [0]

/-- `(?:const|let|var\s+)?` candidates. -/
def p2opts (cs : Chars) : List Nat :=
  (if hasPre "const".data cs then [5] else []) ++
    (if hasPre "let".data cs then [3] else []) ++
    (if hasPre "var".data cs then (wsPlusOpts (cs.drop 3)).map (· + 3) else []) ++ [0]

/-- `(\w+)?` candidates: captured lengths, greedy, then no capture. -/
def p3opts (cs : Chars) : List (Option Nat) :=
  ((List.range (wordRunLen cs)).map (fun k => some (k + 1))).reverse ++ [none]

/-- The lazy scan of `{[\s\S]*?})(?:;|$)` after the opening brace: the
first position whose `}` is followed by `;` or the end of input wins.
Returns the brace-to-brace length and the extra length of the `;`. -/
def braceGo : Chars → Nat → Option (Nat × Nat)
  | [], _ => none
  | '}' :: tl, k =>
    if tl.isEmpty then some (k + 2, 0)
    else if tl.head? == some ';' then some (k + 2, 1)
    else braceGo tl (k + 1)
  | _ :: tl, k => braceGo tl (k + 1)

/-- `({[\s\S]*?})(?:;|$)` at the current position. -/
def braceMatch : Chars → Option (Nat × Nat)
  | '{' :: rest => braceGo rest 0
  | _ => none

/-- First alternative of the pattern at a fixed position.  Returns
(total length, optional `\w+` capture, offset of the object capture,
its length). -/
def matchAAt (cs : Chars) : Option (Nat × Option Chars × Nat × Nat) :=
  (p1opts cs).findSome? fun n1 =>
    let s1 := cs.drop n1
    (p2opts s1).findSome? fun n2 =>
      let s2 := s1.drop n2
      (p3opts s2).findSome? fun c3 =>
        let n3 := c3.getD 0
        let s3 := s2.drop n3
        (wsStarOpts s3).findSome? fun n4 =>
          let s4 := s3.drop n4
          match s4 with
          | '=' :: s5 =>
            (wsStarOpts s5).findSome? fun n6 =>
              let s6 := s5.drop n6
              (braceMatch s6).map fun (ol, ex) =>
                (n1 + n2 + n3 + n4 + 1 + n6 + ol + ex, c3.map fun k => s2.take k,
                  n1 + n2 + n3 + n4 + 1 + n6, ol)
          | _ => none

/-- Second alternative (a bare `{…}` expression) at a fixed position. -/
def matchBAt (cs : Chars) : Option (Nat × Option Chars × Nat × Nat) :=
  (braceMatch cs).map fun (ol, ex) => (ol + ex, none, 0, ol)

/-- `exec` with a global pattern: the leftmost position (from `pos`)
where either alternative matches, alternatives in order. -/
def execFrom (text : Chars) (pos : Nat) : Option (Nat × Nat × Option Chars × Nat × Nat) :=
  ((List.range (text.length + 1 - pos)).map (· + pos)).findSome? fun i =>
    (match matchAAt (text.drop i) with
      | some r => some r
      | none => matchBAt (text.drop i)).map
      fun (len, cap, jo, jl) => (i, len, cap, jo, jl)

/-- First index at which `needle` occurs in the input (`indexOf`). -/
def subIdx (needle : Chars) : Chars → Option Nat
  | [] => if needle.isEmpty then some 0 else none
  | l =>
    if hasPre needle l then some 0
    else
      match l with
      | [] => none
      | _ :: tl => (subIdx needle tl).map (· + 1)

/-- An embedded-object candidate (`name`, literal text, source offsets). -/
structure Cand : Type where
  name : String
  json : Chars
  jsonStart : Nat
  jsonEnd : Nat
deriving DecidableEq, Repr

/-- The scan loop of `findJsonVariables`: repeated `exec`, advancing past
each match; a match is kept only when its object text passes the
structural-parse validation gate, and the placeholder counter counts only
kept candidates (`variables.length + 1`). -/
def fjvGo : Nat → Chars → Nat → Nat → List Cand
  | 0, _, _, _ => []
  | n + 1, text, pos, count =>
    match execFrom text pos with
    | none => []
    | some (mi, ml, cap, jo, jl) =>
      let m0 := (text.drop mi).take ml
      let json := ((text.drop mi).drop jo).take jl
      let name : String :=
        match cap with
        | some c => c.asString
        | none => "Object_" ++ (natTok (count + 1)).asString
      let jsonStart := mi + (subIdx json m0).getD 0
      let newPos := mi + ml
      if (parseDoc json).isSome then
        ⟨name, json, jsonStart, jsonStart + json.length⟩ :: fjvGo n text newPos (count + 1)
      else fjvGo n text newPos count

/-- The embedded-object locator (`findJsonVariables` in the source). -/
def findJsonVariables (text : String) : List Cand :=
  fjvGo (text.data.length + 1) text.data 0 0

/-! ## Vocabulary for the idempotence analysis

The second pass of an edit re-parses the edited text; the definitions
below name the syntactic conditions under which re-parsing recovers the
edited tree: well-behaved trivia chunks, token-boundary characters, the
tree surgery corresponding to an edit, and the in-bounds condition on
array index accessors. -/

/-- Characters that cannot begin trivia (not whitespace, not `/`). -/
def nonTS (c : Char) : Bool := !(cWs c || c == '/')

def headNTS : Chars → Bool
  | [] => true
  | c :: _ => nonTS c

/-- Characters that cannot extend a number or keyword token. -/
def breaker (c : Char) : Bool :=
  !(c.isAlphanum || c == '.' || c == '+' || c == '-' || c == '_')

def headBrk : Chars → Bool
  | [] => true
  | c :: _ => breaker c

/-- The input is entirely trivia with every comment closed: any
continuation starting with a non-trivia character re-lexes it exactly. -/
def validT : Nat → Chars → Bool
  | 0, l => l.isEmpty
  | n + 1, l =>
    match l with
    | [] => true
    | c :: r =>
      if cWs c then validT n r
      else if c = '/' then
        if r.head? = some '/' then
          if (r.tail.takeWhile (· ≠ '\n')).length = r.tail.length then false
          else validT n (r.tail.drop (r.tail.takeWhile (· ≠ '\n')).length)
        else if r.head? = some '*' then
          match starSlash r.tail with
          | some j => validT n (r.tail.drop j)
          | none => false
        else false
      else false

def TriviaOK (t : Chars) : Prop := validT (t.length + 1) t = true

/-- Rendered text of the trailing-comma marker. -/
def tcR : Option Chars → Chars
  | none => []
  | some pad => ',' :: pad

/-- The pre-trivia of the first member. -/
def memPre : Mems → Chars
  | .last (.mk pre _ _ _ _) _ _ => pre
  | .cons (.mk pre _ _ _ _) _ _ => pre

/-- The rendered member list without the first member's pre-trivia. -/
def memRest : Mems → Chars
  | .last (.mk _ kt pk pv v) post tc => kt ++ pk ++ ':' :: (pv ++ renderCV v) ++ post ++ tcR tc
  | .cons (.mk _ kt pk pv v) post tl =>
    kt ++ pk ++ ':' :: (pv ++ renderCV v) ++ post ++ ',' :: renderMems tl

def itemPre : Items → Chars
  | .last (.mk pre _) _ _ => pre
  | .cons (.mk pre _) _ _ => pre

def itemRest : Items → Chars
  | .last (.mk _ v) post tc => renderCV v ++ post ++ tcR tc
  | .cons (.mk _ v) post tl => renderCV v ++ post ++ ',' :: renderItems tl

/-- Number of items. -/
def itemLen : Items → Nat
  | .last _ _ _ => 1
  | .cons _ _ tl => 1 + itemLen tl

/-- Replace the value of the first member with the given name. -/
def memSet : Mems → String → CV → Mems
  | .last (.mk pre kt pk pv v) post tc, k, nv =>
    if keyName kt = k then .last (.mk pre kt pk pv nv) post tc
    else .last (.mk pre kt pk pv v) post tc
  | .cons (.mk pre kt pk pv v) post tl, k, nv =>
    if keyName kt = k then .cons (.mk pre kt pk pv nv) post tl
    else .cons (.mk pre kt pk pv v) post (memSet tl k nv)

/-- Append a member after the last member's value, preserving the last
member's trailing trivia and any trailing comma. -/
def memAppend : Mems → Mem → Mems
  | .last m post tc, nm => .cons m [] (.last nm post tc)
  | .cons m post tl, nm => .cons m post (memAppend tl nm)

/-- Replace the value of the item at the given index. -/
def itemSet : Items → Nat → CV → Items
  | .last (.mk pre v) post tc, i, nv =>
    if i = 0 then .last (.mk pre nv) post tc else .last (.mk pre v) post tc
  | .cons (.mk pre v) post tl, i, nv =>
    match i with
    | 0 => .cons (.mk pre nv) post tl
    | j + 1 => .cons (.mk pre v) post (itemSet tl j nv)

/-- Append an item after the last item's value. -/
def itemAppend : Items → Item → Items
  | .last it post tc, ni => .cons it [] (.last ni post tc)
  | .cons it post tl, ni => .cons it post (itemAppend tl ni)

/-- The tree surgery corresponding to the edit computed by `wmCV`:
replace the addressed node, or graft the synthesized member/item. -/
def surgCV (fmt : FormattingOptions) (V : JsonValue) : CV → Nat → List Seg → Option CV
  | _, d, [] => some (cvOfValue fmt V d)
  | .obj (.nil pad), d, .key k :: rest =>
    some (.obj (.mems (.last (.mk (pad ++ nlInd fmt (d + 1)) (strTok k) [] [' ']
      (cvOfValue fmt (wrapJ rest V) (d + 1))) (nlInd fmt d) none)))
  | .obj (.mems ms), d, .key k :: rest =>
    match memFind ms k with
    | some (_, val) =>
      (surgCV fmt V val (d + 1) rest).map fun nv => .obj (.mems (memSet ms k nv))
    | none =>
      some (.obj (.mems (memAppend ms (.mk (nlInd fmt (d + 1)) (strTok k) [] [' ']
        (cvOfValue fmt (wrapJ rest V) (d + 1))))))
  | .arr (.nil pad), d, .idx _ :: rest =>
    some (.arr (.items (.last (.mk (pad ++ nlInd fmt (d + 1))
      (cvOfValue fmt (wrapJ rest V) (d + 1))) (nlInd fmt d) none)))
  | .arr (.items its), d, .idx i :: rest =>
    match itemFind its i with
    | some (_, val) =>
      (surgCV fmt V val (d + 1) rest).map fun nv => .arr (.items (itemSet its i nv))
    | none =>
      some (.arr (.items (itemAppend its (.mk (nlInd fmt (d + 1))
        (cvOfValue fmt (wrapJ rest V) (d + 1))))))
  | .lit _, _, _ :: _ => none
  | .obj _, _, .idx _ :: _ => none
  | .arr _, _, .key _ :: _ => none

/-- Index accessors absorbed into synthesized containers must be 0 for
the created element to sit at the requested slot. -/
def wrapOK : List Seg → Bool
  | [] => true
  | .key _ :: r => wrapOK r
  | .idx i :: r => i = 0 && wrapOK r

/-- The walk stays within array bounds: every index accessor addresses
an existing element or appends at exactly the current length. -/
def wmOK : CV → List Seg → Bool
  | _, [] => true
  | .obj (.nil _), .key _ :: rest => wrapOK rest
  | .obj (.mems ms), .key k :: rest =>
    match memFind ms k with
    | some (_, val) => wmOK val rest
    | none => wrapOK rest
  | .arr (.nil _), .idx i :: rest => i = 0 && wrapOK rest
  | .arr (.items its), .idx i :: rest =>
    match itemFind its i with
    | some (_, val) => wmOK val rest
    | none => (i = itemLen its) && wrapOK rest
  | _, _ => false

/-- The in-bounds side condition of the amended idempotence claim. -/
def pathInBounds (text : Chars) (P : List Seg) : Bool :=
  match parseDoc text with
  | some d => wmOK d.root P
  | none => false

/-- A scalar token that re-lexes to exactly itself before any
token-breaking continuation. -/
def LitStable (txt : Chars) : Prop :=
  txt ≠ [] ∧ headNTS txt = true ∧
    ∀ (n : Nat) (s : Chars), headBrk s = true → txt.length < n →
      parseCVal n (txt ++ s) = some (.lit txt, s)

/-- A key token: a string token that re-lexes to exactly itself. -/
def KeyOK (kt : Chars) : Prop :=
  ∃ body val, kt = '"' :: body ∧
    ∀ (n : Nat) (s : Chars), body.length < n → strBody n (body ++ s) = some (body, val, s)

mutual
/-- Every token, trivia chunk and subtree of the tree re-parses to
exactly itself (the invariant carried by parser outputs, serialized
values, and surgered trees). -/
def GoodV : CV → Prop
  | .lit txt => LitStable txt
  | .obj (.nil pad) => TriviaOK pad
  | .obj (.mems ms) => GoodM ms
  | .arr (.nil pad) => TriviaOK pad
  | .arr (.items its) => GoodI its

def GoodM : Mems → Prop
  | .last (.mk pre kt pk pv v) post tc =>
    TriviaOK pre ∧ KeyOK kt ∧ TriviaOK pk ∧ TriviaOK pv ∧ GoodV v ∧ TriviaOK post ∧
      (match tc with | none => True | some pad => TriviaOK pad)
  | .cons (.mk pre kt pk pv v) post tl =>
    TriviaOK pre ∧ KeyOK kt ∧ TriviaOK pk ∧ TriviaOK pv ∧ GoodV v ∧ TriviaOK post ∧ GoodM tl

def GoodI : Items → Prop
  | .last (.mk pre v) post tc =>
    TriviaOK pre ∧ GoodV v ∧ TriviaOK post ∧
      (match tc with | none => True | some pad => TriviaOK pad)
  | .cons (.mk pre v) post tl => TriviaOK pre ∧ GoodV v ∧ TriviaOK post ∧ GoodI tl
end


/-- The escaped body of a serialized string token (closing quote included). -/
def escBody : Chars → Chars
  | [] => ['"']
  | c :: r => escChar c ++ escBody r

mutual
/-- Structural size of a JSON value (induction measure). -/
def sizeJV : JsonValue → Nat
  | .null => 1
  | .bool _ => 1
  | .num _ => 1
  | .str _ => 1
  | .arr l => sizeJL l + 1
  | .obj p => sizeJP p + 1
termination_by structural v => v

def sizeJL : JsonList → Nat
  | .nil => 1
  | .cons v tl => sizeJV v + sizeJL tl + 1
termination_by structural l => l

def sizeJP : JsonPairs → Nat
  | .nil => 1
  | .cons _ v tl => sizeJV v + sizeJP tl + 1
termination_by structural p => p
end

mutual
/-- Structural size of a syntax tree (induction measure). -/
def sizeCV : CV → Nat
  | .lit _ => 1
  | .obj i => sizeObjI i + 1
  | .arr i => sizeArrI i + 1
termination_by structural cv => cv

def sizeObjI : ObjI → Nat
  | .nil _ => 1
  | .mems ms => sizeMems ms + 1
termination_by structural i => i

def sizeMems : Mems → Nat
  | .last m _ _ => sizeMem m + 1
  | .cons m _ tl => sizeMem m + sizeMems tl + 1
termination_by structural ms => ms

def sizeMem : Mem → Nat
  | .mk _ _ _ _ v => sizeCV v + 1
termination_by structural m => m

def sizeArrI : ArrI → Nat
  | .nil _ => 1
  | .items its => sizeItems its + 1
termination_by structural i => i

def sizeItems : Items → Nat
  | .last it _ _ => sizeItem it + 1
  | .cons it _ tl => sizeItem it + sizeItems tl + 1
termination_by structural its => its

def sizeItem : Item → Nat
  | .mk _ v => sizeCV v + 1
termination_by structural it => it
end

/-- A well-formed object member (fields all re-parse to themselves). -/
def GoodMem : Mem → Prop
  | .mk pre kt pk pv v => TriviaOK pre ∧ KeyOK kt ∧ TriviaOK pk ∧ TriviaOK pv ∧ GoodV v

/-- A well-formed array item. -/
def GoodItem : Item → Prop
  | .mk pre v => TriviaOK pre ∧ GoodV v

/-! ## Claims -/

/-- Every candidate the scan loop emits passed the validation gate
(helper for C1, by induction on the scan fuel). -/
theorem fjvGo_sound (n : Nat) :
    ∀ (t : Chars) (p k : Nat) (c : Cand), c ∈ fjvGo n t p k →
      (parseDoc c.json).isSome = true := by
  induction n with
  | zero => intro t p k c h; simp [fjvGo] at h
  | succ n ih =>
    intro t p k c h
    rcases hx : execFrom t p with _ | ⟨mi, ml, cap, jo, jl⟩
    · simp [fjvGo, hx] at h
    · by_cases hg : (parseDoc (((t.drop mi).drop jo).take jl)).isSome = true
      · simp only [fjvGo, hx, hg, if_true] at h
        rcases List.mem_cons.mp h with rfl | h'
        · exact hg
        · exact ih t (mi + ml) (k + 1) c h'
      · simp only [fjvGo, hx, hg, if_false] at h
        exact ih t (mi + ml) k c h

/-- **C1.** Every candidate returned by the embedded-object locator has
a `json` text that parses as a JSON-with-comments structure: a regex
match whose captured object text fails the structural-parse gate is
excluded, and the scan itself is a total function of the source text
(it never throws). -/
theorem locator_candidates_parse (text : String) (c : Cand)
    (hc : c ∈ findJsonVariables text) : (parseDoc c.json).isSome = true :=
  fjvGo_sound _ _ _ _ _ hc

/-- Witness for C1: the candidate found in a concrete source line indeed
carries parseable object text. -/
theorem locator_candidates_parse_w :
    (parseDoc "\x7b\"x\":1\x7d".data).isSome = true :=
  locator_candidates_parse "const cfg = \x7b\"x\":1\x7d;\nconsole.log(cfg);"
    ⟨"cfg", "\x7b\"x\":1\x7d".data, 12, 19⟩ (by decide)

/-- **C2.** Frame preservation: editing path `a.b` of
`{"a":{"b":1,"c":2} /* keep */}` with any new value rewrites exactly the
text of `b`'s value; the bytes before it (through `"b":`) and after it
(the `c` member, the comment, all formatting) are byte-identical
segments of the original document. -/
theorem edit_keeps_siblings_and_comments (V : JsonValue) :
    editOnce "\x7b\"a\":\x7b\"b\":1,\"c\":2\x7d /* keep */\x7d".data [.key "a", .key "b"] V defaultFmt
      = some ("\x7b\"a\":\x7b\"b\":".data ++ renderCV (cvOfValue defaultFmt V 2)
          ++ ",\"c\":2\x7d /* keep */\x7d".data) := rfl

/-- **C3.** Missing-path creation: on `{}` with path `a[0].b` and value
`5`, the edited document parses to a value structurally equal to
`{"a":[{"b":5}]}` — the key accessor synthesized an object, the index
accessor an array. -/
theorem missing_path_creates_containers :
    (editOnce "\x7b\x7d".data [.key "a", .idx 0, .key "b"] (.num 5) defaultFmt).map
        (fun t => jsonParse t.asString)
      = some (some (.obj (.cons "a" (.arr (.cons (.obj (.cons "b" (.num 5) .nil)) .nil)) .nil))) :=
  rfl

/-- **C4 counterexample.** Idempotence fails as stated: on
`{"a":[1]}` with path `a[5]` (an index beyond the array's length) the
first pass appends `7`, and the second pass — same path, same value —
appends `7` again, changing the text a second time. -/
theorem second_pass_appends_again :
    editOnce "\x7b\"a\":[1]\x7d".data [.key "a", .idx 5] (.num 7) defaultFmt
        = some "\x7b\"a\":[1,\n    7]\x7d".data ∧
      editOnce "\x7b\"a\":[1,\n    7]\x7d".data [.key "a", .idx 5] (.num 7) defaultFmt
        = some "\x7b\"a\":[1,\n    7,\n    7]\x7d".data ∧
      "\x7b\"a\":[1,\n    7,\n    7]\x7d".data ≠ "\x7b\"a\":[1,\n    7]\x7d".data :=
  ⟨rfl, rfl, by decide⟩

/-- **C5.** Embedded-object round trip: on
`const cfg = {"x":1};\nconsole.log(cfg);` the locator yields exactly one
candidate, named `cfg`, whose offsets `[12, 19)` span exactly the object
literal; editing path `x` to the coerced value `2` and re-wrapping with
the original prefix and suffix yields
`const cfg = {"x":2};\nconsole.log(cfg);`, the trailing
`;\nconsole.log(cfg);` byte-identical. -/
theorem embedded_object_round_trip :
    findJsonVariables "const cfg = \x7b\"x\":1\x7d;\nconsole.log(cfg);"
        = [⟨"cfg", "\x7b\"x\":1\x7d".data, 12, 19⟩] ∧
      "const cfg = \x7b\"x\":1\x7d;\nconsole.log(cfg);".data.take 12 ++ "\x7b\"x\":1\x7d".data
          ++ "const cfg = \x7b\"x\":1\x7d;\nconsole.log(cfg);".data.drop 19
        = "const cfg = \x7b\"x\":1\x7d;\nconsole.log(cfg);".data ∧
      (editOnce "\x7b\"x\":1\x7d".data [.key "x"] (coerceValue "2") defaultFmt).map
          (fun t => ("const cfg = \x7b\"x\":1\x7d;\nconsole.log(cfg);".data.take 12 ++ t
            ++ "const cfg = \x7b\"x\":1\x7d;\nconsole.log(cfg);".data.drop 19).asString)
        = some "const cfg = \x7b\"x\":2\x7d;\nconsole.log(cfg);" ∧
      "const cfg = \x7b\"x\":1\x7d;\nconsole.log(cfg);".data.drop 19 = ";\nconsole.log(cfg);".data :=
  ⟨rfl, rfl, rfl, rfl⟩

/-- **C6.** The value coercer returns the strict-JSON-parsed value when
the parse succeeds and the raw input itself as a string when it fails;
in particular `coerce("123") = 123`, `coerce("true") = true`,
`coerce('"x"') = "x"`, and `coerce("x") = "x"` with no error. -/
theorem coerce_parses_or_returns_raw (raw : String) :
    (∀ v, jsonParse raw = some v → coerceValue raw = v) ∧
      (jsonParse raw = none → coerceValue raw = JsonValue.str raw) ∧
      coerceValue "123" = .num 123 ∧ coerceValue "true" = .bool true ∧
      coerceValue "\"x\"" = .str "x" ∧ coerceValue "x" = .str "x" := by
  refine ⟨fun v h => ?_, fun h => ?_, rfl, rfl, rfl, rfl⟩ <;> simp [coerceValue, h]

/-- Witness for C6 at a concrete input: `"7"` parses, so coercion
returns the parsed number. -/
theorem coerce_parses_or_returns_raw_w : coerceValue "7" = .num 7 :=
  (coerce_parses_or_returns_raw "7").1 (.num 7) rfl

/-- **C10.** A bracket accessor whose trimmed content is a single quote
character is treated as quote-wrapped: `slice(1, -1)` removes the first
and last character without requiring length ≥ 2, so the emitted key is
the empty string. -/
theorem lone_quote_bracket_gives_empty_key :
    parsePath "[']" = [.key ""] ∧ parsePath "[\"]" = [.key ""] ∧
      bracketSeg ['\''] = .key "" ∧ bracketSeg ['"'] = .key "" :=
  ⟨rfl, rfl, rfl, rfl⟩


/-- Helper for C7: the first `]` after the content closes the bracket. -/
theorem closeIdx_append_close (l : Chars) (h : ']' ∉ l) :
    closeIdx (l ++ [']']) = some l.length := by
  induction l with
  | nil => simp [closeIdx]
  | cons c r ih =>
    have hc : c ≠ ']' := fun he => h (he ▸ List.mem_cons_self c r)
    have hr : ']' ∉ r := fun hm => h (List.mem_cons_of_mem c hm)
    simp [closeIdx, hc, ih hr]

/-- **C7.** For a bracket accessor with a matching closing bracket, the
content is trimmed and then: all-digits content yields an index accessor
with that numeric value; quote-wrapped content yields a key accessor
equal to the inner text; anything else yields a key accessor equal to
the raw trimmed content — and `parsePath` emits exactly that accessor
for the bracket. -/
theorem bracket_accessor_cases (inside : Chars) (h : ']' ∉ inside) :
    parsePath ("[" ++ inside.asString ++ "]") = [bracketSeg inside] ∧
    ((!(trimChars inside).isEmpty && (trimChars inside).all Char.isDigit) = true →
      bracketSeg inside = .idx (digitsVal (trimChars inside))) ∧
    ((!(trimChars inside).isEmpty && (trimChars inside).all Char.isDigit) = false →
      (isQuoteWrapped (trimChars inside) '"' || isQuoteWrapped (trimChars inside) '\'') = true →
      bracketSeg inside = .key (((trimChars inside).drop 1).dropLast.asString)) ∧
    ((!(trimChars inside).isEmpty && (trimChars inside).all Char.isDigit) = false →
      (isQuoteWrapped (trimChars inside) '"' || isQuoteWrapped (trimChars inside) '\'') = false →
      bracketSeg inside = .key (trimChars inside).asString) := by
  refine ⟨?_, fun hd => ?_, fun hd hq => ?_, fun hd hq => ?_⟩
  · have hdt : ("[" ++ inside.asString ++ "]").data = '[' :: (inside ++ [']']) := by
      have ha : (List.asString inside).data = inside := rfl
      simp [String.data_append, ha]
    rw [parsePath, hdt]
    simp only [List.length_cons, List.length_append, List.length_nil]
    simp only [ppGo, closeIdx_append_close inside h]
    norm_num
    rw [if_neg (by decide : ¬('[' = '.'))]
    exact rfl
  · simp only [bracketSeg, hd, if_true]
  · simp only [bracketSeg, hd, hq, Bool.false_eq_true, if_false, if_true]
  · simp only [bracketSeg, hd, hq, Bool.false_eq_true, if_false]

/-- Witness for C7 at concrete content `0`: an index accessor. -/
theorem bracket_accessor_cases_w :
    parsePath ("[" ++ List.asString ['0'] ++ "]") = [bracketSeg ['0']] ∧
    bracketSeg ['0'] = Seg.idx 0 :=
  ⟨(bracket_accessor_cases ['0'] (by decide)).1, (bracket_accessor_cases ['0'] (by decide)).2.1 (by decide)⟩



/-- A found closing bracket lies in the scanned region (helper, C8). -/
theorem closeIdx_some_mem {r : Chars} {k : Nat} (h : closeIdx r = some k) : ']' ∈ r := by
  induction r generalizing k with
  | nil => simp [closeIdx] at h
  | cons c r ih =>
    by_cases hc : c = ']'
    · simp [hc]
    · simp only [closeIdx, hc, if_false, Option.map_eq_some'] at h
      obtain ⟨k', hk', _⟩ := h
      exact List.mem_cons_of_mem c (ih hk')

/-- Prefixes without `[` do not affect the unclosed-bracket condition. -/
theorem hasUB_append_of_no_open {a : Chars} (b : Chars) (h : '[' ∉ a) :
    hasUB (a ++ b) = hasUB b := by
  induction a with
  | nil => rfl
  | cons c r ih =>
    have hc : ¬(c = '[') := fun he => h (he ▸ List.mem_cons_self c r)
    have hr : '[' ∉ r := fun hm => h (List.mem_cons_of_mem c hm)
    simp [hasUB, hc, ih hr]

/-- Case split of the unclosed-bracket condition at a cons. -/
theorem hasUB_cons_elim {c : Char} {r : Chars} (hu : hasUB (c :: r) = true) :
    (c = '[' ∧ ']' ∉ r) ∨ hasUB r = true := by
  simpa [hasUB] using hu

/-- The unclosed-bracket condition survives dropping a non-`[` head. -/
theorem hasUB_tail {c : Char} {r : Chars} (hne : c ≠ '[') (hu : hasUB (c :: r) = true) :
    hasUB r = true := by
  rcases hasUB_cons_elim hu with ⟨h1, _⟩ | h1
  · exact absurd h1 hne
  · exact h1

/-- The unclosed-bracket condition survives consuming a bracket group. -/
theorem hasUB_drop_past_close {r : Chars} {k : Nat} (hu : hasUB r = true)
    (hc : closeIdx r = some k) : hasUB (r.drop (k + 1)) = true := by
  induction r generalizing k with
  | nil => simp [closeIdx] at hc
  | cons c r ih =>
    by_cases hcl : c = ']'
    · subst hcl
      have hk : k = 0 := by simpa [closeIdx] using hc.symm
      subst hk
      simpa using hasUB_tail (by decide) hu
    · simp only [closeIdx, hcl, if_false, Option.map_eq_some'] at hc
      obtain ⟨k', hk', rfl⟩ := hc
      have hr : hasUB r = true := by
        rcases hasUB_cons_elim hu with ⟨_, h2⟩ | h1
        · exact absurd (closeIdx_some_mem hk') h2
        · exact h1
      simpa using ih hr hk'

/-- The scan loop returns the empty path whenever some `[` has no
subsequent `]` (helper for C8, by induction on fuel). -/
theorem ppGo_of_hasUB (n : Nat) :
    ∀ (l : Chars) (parts : List Seg), hasUB l = true → ppGo n l parts = [] := by
  induction n with
  | zero => intro l parts _; rfl
  | succ n ih =>
    intro l parts hu
    match l with
    | [] => simp [hasUB] at hu
    | c :: r =>
      by_cases hdot : c = '.'
      · subst hdot
        simpa [ppGo] using ih r parts (hasUB_tail (by decide) hu)
      · by_cases hbr : c = '['
        · subst hbr
          rcases hcl : closeIdx r with _ | k
          · simp [ppGo, hcl]
          · have hr : hasUB r = true := by
              rcases hasUB_cons_elim hu with ⟨_, h2⟩ | h1
              · exact absurd (closeIdx_some_mem hcl) h2
              · exact h1
            have hafter : hasUB (r.drop (k + 1)) = true := hasUB_drop_past_close hr hcl
            simp only [ppGo, hcl, if_neg (by decide : ¬('[' = '.')), if_pos rfl]
            by_cases hhd : (r.drop (k + 1)).head? = some '.'
            · rw [if_pos hhd]
              rcases hd2 : r.drop (k + 1) with _ | ⟨c', x⟩
              · simp [hd2] at hhd
              · rw [hd2] at hhd hafter
                have hc' : c' = '.' := by simpa using hhd
                subst hc'
                exact ih _ _ (hasUB_tail (by decide) hafter)
            · rw [if_neg hhd]
              exact ih _ _ hafter
        · have hsplit : c :: r
              = (c :: r).takeWhile (fun c => c ≠ '.' && c ≠ '[')
                ++ (c :: r).dropWhile (fun c => c ≠ '.' && c ≠ '[') :=
            (List.takeWhile_append_dropWhile _ _).symm
          have hnop : '[' ∉ (c :: r).takeWhile (fun c => c ≠ '.' && c ≠ '[') := by
            intro hm
            have := List.mem_takeWhile_imp hm
            simp at this
          have hrest : hasUB ((c :: r).dropWhile (fun c => c ≠ '.' && c ≠ '[')) = true := by
            have h2 := hasUB_append_of_no_open
              ((c :: r).dropWhile (fun c => c ≠ '.' && c ≠ '[')) hnop
            rw [← h2, ← hsplit]
            exact hu
          have hdropped : (c :: r).drop
              ((c :: r).takeWhile (fun c => c ≠ '.' && c ≠ '[')).length
              = (c :: r).dropWhile (fun c => c ≠ '.' && c ≠ '[') := by
            nth_rewrite 2 [hsplit]
            exact List.drop_left _ _
          simp only [ppGo, if_neg hdot, if_neg hbr]
          rw [hdropped]
          exact ih _ _ hrest

/-- The scan loop skips a dots-only input without emitting accessors. -/
theorem ppGo_dots (n : Nat) :
    ∀ (l : Chars) (parts : List Seg), l.all (· = '.') = true → l.length < n →
      ppGo n l parts = parts := by
  induction n with
  | zero => intro l parts _ h; omega
  | succ n ih =>
    intro l parts hall hlen
    match l with
    | [] => rfl
    | c :: r =>
      have hc : c = '.' := by simpa using (List.all_eq_true.mp hall c (List.mem_cons_self c r))
      subst hc
      have hr : r.all (· = '.') = true :=
        List.all_eq_true.mpr fun x hx =>
          List.all_eq_true.mp hall x (List.mem_cons_of_mem _ hx)
      simpa [ppGo] using ih r parts hr (by simpa using Nat.lt_of_succ_lt_succ hlen)

/-- Dropping as many characters as the matching prefix is `dropWhile`. -/
theorem drop_takeWhile_length (p : Char → Bool) (l : Chars) :
    l.drop (l.takeWhile p).length = l.dropWhile p := by
  induction l with
  | nil => rfl
  | cons c r ih =>
    by_cases hp : p c = true
    · simpa [List.takeWhile_cons, List.dropWhile_cons, hp] using ih
    · simp [List.takeWhile_cons, List.dropWhile_cons, hp]

/-- Without brackets, the scan never emits an empty key accessor. -/
theorem ppGo_no_empty_key (n : Nat) :
    ∀ (l : Chars) (parts : List Seg), '[' ∉ l → Seg.key "" ∉ parts →
      Seg.key "" ∉ ppGo n l parts := by
  induction n with
  | zero => intro l parts _ _; simp [ppGo]
  | succ n ih =>
    intro l parts hnb hp
    match l with
    | [] => exact hp
    | c :: r =>
      have hcb : ¬(c = '[') := fun he => hnb (he ▸ List.mem_cons_self c r)
      have hrb : '[' ∉ r := fun hm => hnb (List.mem_cons_of_mem c hm)
      by_cases hdot : c = '.'
      · subst hdot
        simpa [ppGo] using ih r parts hrb hp
      · simp only [ppGo, if_neg hdot, if_neg hcb]
        rw [drop_takeWhile_length]
        refine ih _ _ ?_ ?_
        · intro hm
          exact hnb ((List.dropWhile_sublist _).subset hm)
        · split
          · exact hp
          · next hne =>
            intro hm
            rcases List.mem_append.mp hm with h1 | h1
            · exact hp h1
            · have h2 : Seg.key ""
                  = Seg.key (trimChars ((c :: r).takeWhile
                      (fun c => c ≠ '.' && c ≠ '['))).asString := by
                simpa using h1
              have h3 := congrArg String.data (Seg.key.inj h2)
              have h4 : trimChars ((c :: r).takeWhile (fun c => c ≠ '.' && c ≠ '[')) = [] :=
                h3.symm
              exact hne (by rw [h4]; rfl)

/-- **C8.** `parsePath` returns the empty sentinel path on the empty
input, on inputs consisting only of `.` separators, and on any input
containing a `[` with no subsequent `]`; and (absent brackets, which can
legitimately produce empty keys) consecutive or leading dots never cause
an empty key accessor to be emitted. -/
theorem parse_failure_sentinels :
    parsePath "" = [] ∧
      (∀ s : String, s.data.all (· = '.') = true → parsePath s = []) ∧
      (∀ s : String, hasUB s.data = true → parsePath s = []) ∧
      (∀ s : String, '[' ∉ s.data → Seg.key "" ∉ parsePath s) := by
  refine ⟨rfl, fun s hs => ?_, fun s hs => ppGo_of_hasUB _ _ _ hs,
    fun s hs => ppGo_no_empty_key _ _ _ hs (by simp)⟩
  exact ppGo_dots _ _ _ hs (Nat.lt_succ_self _)

/-- Witness for C8 at concrete inputs. -/
theorem parse_failure_sentinels_w :
    parsePath ".." = [] ∧ parsePath "a[b" = [] ∧ Seg.key "" ∉ parsePath "a..b" :=
  ⟨parse_failure_sentinels.2.1 ".." (by decide),
    parse_failure_sentinels.2.2.1 "a[b" (by decide),
    parse_failure_sentinels.2.2.2 "a..b" (by decide)⟩


/-- A found closing bracket index is within the scanned region. -/
theorem closeIdx_lt {r : Chars} {k : Nat} (h : closeIdx r = some k) : k < r.length := by
  induction r generalizing k with
  | nil => simp [closeIdx] at h
  | cons c r ih =>
    by_cases hc : c = ']'
    · have : k = 0 := by simpa [closeIdx, hc] using h.symm
      simp [this]
    · simp only [closeIdx, hc, if_false, Option.map_eq_some'] at h
      obtain ⟨k', hk', rfl⟩ := h
      simpa using Nat.succ_lt_succ (ih hk')

/-- One iteration of the scan loop either aborts with the sentinel or
consumes at least one character (helper for C9). -/
theorem ppGo_step (n : Nat) (l : Chars) (parts : List Seg) (hl : l ≠ []) :
    ppGo (n + 1) l parts = [] ∨
      ∃ c segs, 1 ≤ c ∧ c ≤ l.length ∧
        ppGo (n + 1) l parts = ppGo n (l.drop c) (parts ++ segs) := by
  match l with
  | [] => exact absurd rfl hl
  | c :: r =>
    by_cases hdot : c = '.'
    · subst hdot
      exact Or.inr ⟨1, [], le_refl 1, by simp, by simp [ppGo]⟩
    · by_cases hbr : c = '['
      · subst hbr
        rcases hcl : closeIdx r with _ | k
        · exact Or.inl (by simp [ppGo, hcl])
        · have hk := closeIdx_lt hcl
          refine Or.inr ?_
          by_cases hhd : (r.drop (k + 1)).head? = some '.'
          · refine ⟨k + 3, [bracketSeg (r.take k)], by omega, ?_, ?_⟩
            · have : r.drop (k + 1) ≠ [] := by
                intro he
                rw [he] at hhd
                simp at hhd
              have h2 : k + 1 < r.length := by
                by_contra h3
                exact this (List.drop_eq_nil_of_le (by omega))
              simp only [List.length_cons]
              omega
            · have h3 : (r.drop (k + 1)).tail = (('[' :: r).drop (k + 3)) := by
                rw [List.tail_drop]
                rfl
              simp only [ppGo, hcl]
              rw [if_pos trivial, if_pos hhd, h3]
              rw [if_neg hdot]
          · refine ⟨k + 2, [bracketSeg (r.take k)], by omega, by simp; omega, ?_⟩
            simp only [ppGo, hcl]
            rw [if_pos trivial, if_neg hhd, if_neg hdot]
            rfl
      · refine Or.inr ?_
        have hrun : 1 ≤ ((c :: r).takeWhile (fun c => c ≠ '.' && c ≠ '[')).length := by
          rw [List.takeWhile_cons, if_pos (by simp [hdot, hbr])]
          simp
        refine ⟨((c :: r).takeWhile (fun c => c ≠ '.' && c ≠ '[')).length,
          if (trimChars ((c :: r).takeWhile (fun c => c ≠ '.' && c ≠ '['))).isEmpty then []
          else [.key (trimChars ((c :: r).takeWhile (fun c => c ≠ '.' && c ≠ '['))).asString],
          hrun, (List.takeWhile_sublist _).length_le, ?_⟩
        simp only [ppGo, if_neg hdot, if_neg hbr]
        by_cases he : (trimChars ((c :: r).takeWhile (fun c => c ≠ '.' && c ≠ '['))).isEmpty = true
        · rw [if_pos he, if_pos he, List.append_nil]
        · rw [if_neg he, if_neg he]

/-- The scan emits at most one accessor per consumed character. -/
theorem ppGo_length_le (n : Nat) :
    ∀ (l : Chars) (parts : List Seg), (ppGo n l parts).length ≤ parts.length + l.length := by
  induction n with
  | zero => intro l parts; simp [ppGo]
  | succ n ih =>
    intro l parts
    match l with
    | [] => simp [ppGo]
    | c :: r =>
      by_cases hdot : c = '.'
      · subst hdot
        calc (ppGo (n + 1) ('.' :: r) parts).length
            = (ppGo n r parts).length := by rw [ppGo, if_pos rfl]
          _ ≤ parts.length + r.length := ih r parts
          _ ≤ parts.length + ('.' :: r).length := by simp
      · by_cases hbr : c = '['
        · subst hbr
          rcases hcl : closeIdx r with _ | k
          · rw [ppGo, if_neg hdot, if_pos rfl, hcl]
            simp
          · have hk := closeIdx_lt hcl
            rw [ppGo, if_neg hdot, if_pos rfl, hcl]
            have hb := ih (if (r.drop (k + 1)).head? = some '.' then (r.drop (k + 1)).tail
                else r.drop (k + 1)) (parts ++ [bracketSeg (r.take k)])
            refine le_trans hb ?_
            have h1 : (if (r.drop (k + 1)).head? = some '.' then (r.drop (k + 1)).tail
                else r.drop (k + 1)).length ≤ r.length - (k + 1) := by
              split
              · simp [List.length_tail]
                omega
              · simp
            simp only [List.length_append, List.length_cons]
            simp at h1 ⊢
            omega
        · rw [ppGo, if_neg hdot, if_neg hbr]
          have hrun : 1 ≤ ((c :: r).takeWhile (fun c => c ≠ '.' && c ≠ '[')).length := by
            rw [List.takeWhile_cons, if_pos (by simp [hdot, hbr])]
            simp
          have hle : ((c :: r).takeWhile (fun c => c ≠ '.' && c ≠ '[')).length
              ≤ (c :: r).length := (List.takeWhile_sublist _).length_le
          have hb := ih ((c :: r).drop ((c :: r).takeWhile (fun c => c ≠ '.' && c ≠ '[')).length)
            (if (trimChars ((c :: r).takeWhile (fun c => c ≠ '.' && c ≠ '['))).isEmpty then parts
              else parts ++ [.key (trimChars ((c :: r).takeWhile
                (fun c => c ≠ '.' && c ≠ '['))).asString])
          refine le_trans hb ?_
          have h2 : (if (trimChars ((c :: r).takeWhile
              (fun c => c ≠ '.' && c ≠ '['))).isEmpty then parts
              else parts ++ [Seg.key (trimChars ((c :: r).takeWhile
                (fun c => c ≠ '.' && c ≠ '['))).asString]).length ≤ parts.length + 1 := by
            split
            · omega
            · simp
          simp only [List.length_drop] at *
          omega

/-- **C9.** `parsePath` is a total terminating scan: every loop
iteration on a non-empty remainder either returns outright or strictly
advances the position (consuming between 1 and all remaining
characters), and consequently the returned accessor list is finite, of
length at most the input length. -/
theorem scan_strictly_advances :
    (∀ (n : Nat) (l : Chars) (parts : List Seg), l ≠ [] →
      ppGo (n + 1) l parts = [] ∨
        ∃ c segs, 1 ≤ c ∧ c ≤ l.length ∧
          ppGo (n + 1) l parts = ppGo n (l.drop c) (parts ++ segs)) ∧
    ∀ s : String, (parsePath s).length ≤ s.length := by
  refine ⟨ppGo_step, fun s => ?_⟩
  refine le_trans (ppGo_length_le (s.data.length + 1) s.data []) ?_
  rw [List.length_nil, Nat.zero_add]
  exact le_of_eq rfl

/-- Witness for C9 at a concrete non-empty input. -/
theorem scan_strictly_advances_w :
    ppGo 1 ['a'] [] = [] ∨
      ∃ c segs, 1 ≤ c ∧ c ≤ ['a'].length ∧ ppGo 1 ['a'] [] = ppGo 0 (['a'].drop c) ([] ++ segs) :=
  scan_strictly_advances.1 0 ['a'] [] (by decide)

end JPE

namespace JPE
theorem starSlash_le {l : Chars} {j : Nat} (h : starSlash l = some j) : 2 ≤ j ∧ j ≤ l.length := by
  induction l generalizing j with
  | nil => simp [starSlash] at h
  | cons c r ih =>
    by_cases hc : (c = '*' && r.head? == some '/') = true
    · rw [starSlash, if_pos hc] at h
      have hj : j = 2 := by simpa using h.symm
      subst hj
      rcases hc2 : r with _ | ⟨c2, r2⟩
      · subst hc2; simp at hc
      · simp [hc2]
    · rw [starSlash, if_neg hc] at h
      rcases Option.map_eq_some'.mp h with ⟨j', hj', rfl⟩
      have := ih hj'
      constructor <;> simp <;> omega

theorem starSlash_append {l : Chars} (u : Chars) {j : Nat} (h : starSlash l = some j) :
    starSlash (l ++ u) = some j := by
  induction l generalizing j with
  | nil => simp [starSlash] at h
  | cons c r ih =>
    rw [List.cons_append, starSlash]
    by_cases hc : (c = '*' && r.head? == some '/') = true
    · rw [starSlash, if_pos hc] at h
      rcases r with _ | ⟨c2, r2⟩
      · simp at hc
      · rw [if_pos (by simpa using hc)]
        exact h
    · rw [starSlash, if_neg hc] at h
      rcases Option.map_eq_some'.mp h with ⟨j', hj', rfl⟩
      have hd : (r ++ u).head? = r.head? := by
        rcases r with _ | ⟨c2, r2⟩
        · simp [starSlash] at hj'
        · simp
      rw [if_neg (by rw [hd]; exact hc), ih hj']
      rfl

theorem starSlash_take {l : Chars} (u : Chars) {j : Nat} (h : starSlash l = some j) :
    starSlash (l.take j ++ u) = some j := by
  induction l generalizing j with
  | nil => simp [starSlash] at h
  | cons c r ih =>
    by_cases hc : (c = '*' && r.head? == some '/') = true
    · rw [starSlash, if_pos hc] at h
      have hj : j = 2 := by simpa using h.symm
      subst hj
      rcases r with _ | ⟨c2, r2⟩
      · simp at hc
      · have h1 : c = '*' ∧ c2 = '/' := by simpa using hc
        rcases h1 with ⟨rfl, rfl⟩
        simp [starSlash]
    · rw [starSlash, if_neg hc] at h
      rcases Option.map_eq_some'.mp h with ⟨j', hj', rfl⟩
      have h2 := (starSlash_le hj').1
      have h3 : (c :: r).take (j' + 1) = c :: r.take j' := by simp
      rw [h3, List.cons_append, starSlash]
      have hd : (r.take j' ++ u).head? = r.head? := by
        rcases r with _ | ⟨c2, r2⟩
        · simp [starSlash] at hj'
        · rcases j' with _ | j''
          · omega
          · simp
      rw [if_neg (by rw [hd]; exact hc), ih hj']
      rfl

theorem takeWhile_append_of_ne (p : Char → Bool) {l : Chars} (u : Chars)
    (h : (l.takeWhile p).length ≠ l.length) : (l ++ u).takeWhile p = l.takeWhile p := by
  induction l with
  | nil => simp at h
  | cons c r ih =>
    by_cases hp : p c = true
    · rw [List.cons_append, List.takeWhile_cons, if_pos hp, List.takeWhile_cons, if_pos hp,
        ih (by rw [List.takeWhile_cons, if_pos hp] at h; simpa using h)]
    · rw [List.cons_append, List.takeWhile_cons, if_neg hp, List.takeWhile_cons, if_neg hp]

theorem drop_append_of_le {l : Chars} (u : Chars) {n : Nat} (h : n ≤ l.length) :
    (l ++ u).drop n = l.drop n ++ u := by
  rw [List.drop_append_eq_append_drop, Nat.sub_eq_zero_of_le h, List.drop_zero]

theorem skipTrivia_le (n : Nat) : ∀ l : Chars, skipTrivia n l ≤ l.length := by
  induction n with
  | zero => intro l; simp [skipTrivia]
  | succ n ih =>
    intro l
    rcases l with _ | ⟨c, rest⟩
    · simp [skipTrivia]
    · simp only [skipTrivia]
      by_cases hw : cWs c = true
      · rw [if_pos hw]
        have := ih rest
        simp only [List.length_cons]
        omega
      · rw [if_neg hw]
        by_cases hs : c = '/'
        · rw [if_pos hs]
          by_cases h1 : rest.head? = some '/'
          · rw [if_pos h1]
            have h3 := ih (rest.tail.drop (rest.tail.takeWhile (· ≠ '\n')).length)
            have h4 : (rest.tail.takeWhile (· ≠ '\n')).length ≤ rest.tail.length :=
              (List.takeWhile_sublist _).length_le
            rcases rest with _ | ⟨c2, r2⟩
            · simp at h1
            · simp only [List.tail_cons, List.length_drop] at h3 h4 ⊢
              simp only [List.length_cons]
              omega
          · rw [if_neg h1]
            by_cases h2 : rest.head? = some '*'
            · rw [if_pos h2]
              rcases hss : starSlash rest.tail with _ | j
              · simp
              · have h6 := (starSlash_le hss).2
                have h3 := ih (rest.tail.drop j)
                rcases rest with _ | ⟨c2, r2⟩
                · simp at h2
                · simp only [List.tail_cons, List.length_drop] at h3 h6 ⊢
                  simp only [List.length_cons]
                  omega
            · rw [if_neg h2]
              simp
        · rw [if_neg hs]
          simp

theorem validT_fuel : ∀ (n m : Nat) (t : Chars), t.length < n → t.length < m →
    validT n t = validT m t := by
  intro n
  induction n with
  | zero => intro m t h; omega
  | succ n ih =>
    intro m t hn hm
    rcases m with _ | m
    · omega
    · rcases t with _ | ⟨c, r⟩
      · rfl
      · simp only [validT]
        by_cases hw : cWs c = true
        · rw [if_pos hw, if_pos hw]
          exact ih m r (by simpa using Nat.lt_of_succ_lt_succ hn)
            (by simpa using Nat.lt_of_succ_lt_succ hm)
        · rw [if_neg hw, if_neg hw]
          by_cases hs : c = '/'
          · rw [if_pos hs, if_pos hs]
            by_cases h1 : r.head? = some '/'
            · rw [if_pos h1, if_pos h1]
              by_cases h3 : (r.tail.takeWhile (· ≠ '\n')).length = r.tail.length
              · rw [if_pos h3, if_pos h3]
              · rw [if_neg h3, if_neg h3]
                rcases r with _ | ⟨c2, r2⟩
                · simp at h1
                · simp only [List.tail_cons] at *
                  refine ih m _ ?_ ?_ <;> simp only [List.length_drop] <;>
                    simp only [List.length_cons] at hn hm <;> omega
            · rw [if_neg h1, if_neg h1]
              by_cases h2 : r.head? = some '*'
              · rw [if_pos h2, if_pos h2]
                rcases hss : starSlash r.tail with _ | j
                · rfl
                · have h6 := (starSlash_le hss).2
                  rcases r with _ | ⟨c2, r2⟩
                  · simp at h2
                  · simp only [List.tail_cons] at *
                    refine ih m _ ?_ ?_ <;> simp only [List.length_drop] <;>
                      simp only [List.length_cons] at hn hm <;> omega
              · rw [if_neg h2, if_neg h2]
          · rw [if_neg hs, if_neg hs]
end JPE

namespace JPE
theorem takeWhile_append_all (p : Char → Bool) {l : Chars} (u : Chars)
    (h : ∀ c ∈ l, p c = true) : (l ++ u).takeWhile p = l ++ u.takeWhile p := by
  induction l with
  | nil => simp
  | cons c r ih =>
    rw [List.cons_append, List.takeWhile_cons, if_pos (h c (List.mem_cons_self c r)),
      ih (fun x hx => h x (List.mem_cons_of_mem c hx)), List.cons_append]

theorem validT_cons (n : Nat) (c : Char) (r : Chars) :
    validT (n + 1) (c :: r) =
      (if cWs c then validT n r
       else if c = '/' then
         if r.head? = some '/' then
           if (r.tail.takeWhile (· ≠ '\n')).length = r.tail.length then false
           else validT n (r.tail.drop (r.tail.takeWhile (· ≠ '\n')).length)
         else if r.head? = some '*' then
           match starSlash r.tail with
           | some j => validT n (r.tail.drop j)
           | none => false
         else false
       else false) := rfl

theorem skipTrivia_cons (n : Nat) (c : Char) (r : Chars) :
    skipTrivia (n + 1) (c :: r) =
      (if cWs c then 1 + skipTrivia n r
       else if c = '/' then
         if r.head? = some '/' then
           2 + (r.tail.takeWhile (· ≠ '\n')).length +
             skipTrivia n (r.tail.drop (r.tail.takeWhile (· ≠ '\n')).length)
         else if r.head? = some '*' then
           match starSlash r.tail with
           | some j => 2 + j + skipTrivia n (r.tail.drop j)
           | none => 0
         else 0
       else 0) := rfl

theorem TriviaOK_of_validT {n : Nat} {t : Chars} (h : validT n t = true) (hn : t.length < n) :
    TriviaOK t := by
  rw [TriviaOK, validT_fuel (t.length + 1) n t (by omega) hn]
  exact h

theorem validT_stable : ∀ (n : Nat) (t s : Chars), TriviaOK t → headNTS s = true →
    t.length < n → skipTrivia n (t ++ s) = t.length := by
  intro n
  induction n with
  | zero => intro t s _ _ h; omega
  | succ n ih =>
    intro t s ht hs hn
    rcases t with _ | ⟨c, r⟩
    · rcases s with _ | ⟨c2, s2⟩
      · rfl
      · have h2 : nonTS c2 = true := by simpa [headNTS] using hs
        have h3 : ¬(cWs c2 = true) ∧ ¬(c2 = '/') := by
          constructor <;> intro hx <;> simp [nonTS, hx] at h2
        simp only [List.nil_append, skipTrivia_cons]
        rw [if_neg h3.1, if_neg (by simpa using h3.2)]
        rfl
    · rw [TriviaOK, List.length_cons, validT_cons] at ht
      rw [List.cons_append, skipTrivia_cons]
      by_cases hw : cWs c = true
      · rw [if_pos hw] at ht ⊢
        have htr : TriviaOK r := TriviaOK_of_validT ht (by omega)
        rw [ih r s htr hs (by simp only [List.length_cons] at hn; omega)]
        simp only [List.length_cons]
        omega
      · rw [if_neg hw] at ht ⊢
        by_cases hsl : c = '/'
        · rw [if_pos hsl] at ht ⊢
          by_cases h1 : r.head? = some '/'
          · rw [if_pos h1] at ht
            rcases r with _ | ⟨c2, r2⟩
            · simp at h1
            · have hc2 : c2 = '/' := by simpa using h1
              subst hc2
              simp only [List.tail_cons] at ht
              rw [if_pos (by simp : (('/' :: r2 : Chars) ++ s).head? = some '/')]
              by_cases h3 : (r2.takeWhile (· ≠ '\n')).length = r2.length
              · rw [if_pos h3] at ht; exact absurd ht (by simp)
              · rw [if_neg h3] at ht
                have htw : (('/' :: r2 : Chars) ++ s).tail = r2 ++ s := by simp
                rw [htw, takeWhile_append_of_ne _ s h3]
                have hle : (r2.takeWhile (· ≠ '\n')).length ≤ r2.length :=
                  (List.takeWhile_sublist _).length_le
                rw [drop_append_of_le s hle]
                have htr : TriviaOK (r2.drop (r2.takeWhile (· ≠ '\n')).length) :=
                  TriviaOK_of_validT ht
                    (by simp only [List.length_drop, List.length_cons]; omega)
                rw [ih _ s htr hs
                  (by simp only [List.length_cons] at hn; simp only [List.length_drop]; omega)]
                simp only [List.length_drop, List.length_cons]
                omega
          · rw [if_neg h1] at ht
            by_cases h2 : r.head? = some '*'
            · rw [if_pos h2] at ht
              rcases r with _ | ⟨c2, r2⟩
              · simp at h2
              · have hc2 : c2 = '*' := by simpa using h2
                subst hc2
                simp only [List.tail_cons] at ht
                rw [if_neg (by simp : ¬(('*' :: r2 : Chars) ++ s).head? = some '/'),
                  if_pos (by simp : (('*' :: r2 : Chars) ++ s).head? = some '*')]
                rcases hss : starSlash r2 with _ | j
                · rw [hss] at ht; exact absurd ht (by simp)
                · rw [hss] at ht
                  have h6 := starSlash_le hss
                  have htw : (('*' :: r2 : Chars) ++ s).tail = r2 ++ s := by simp
                  simp only [htw, starSlash_append s hss]
                  rw [drop_append_of_le s h6.2]
                  have htr : TriviaOK (r2.drop j) :=
                    TriviaOK_of_validT ht
                    (by simp only [List.length_drop, List.length_cons]; omega)
                  rw [ih _ s htr hs
                    (by simp only [List.length_cons] at hn; simp only [List.length_drop]; omega)]
                  simp only [List.length_drop, List.length_cons]
                  omega
            · rw [if_neg h2] at ht
              exact absurd ht (by simp)
        · rw [if_neg hsl] at ht
          exact absurd ht (by simp)
end JPE

namespace JPE
theorem validT_of_TriviaOK {n : Nat} {t : Chars} (h : TriviaOK t) (hn : t.length < n) :
    validT n t = true := by
  rw [validT_fuel n (t.length + 1) t hn (by omega)]
  exact h

theorem skipTrivia_nil (n : Nat) : skipTrivia n [] = 0 := by cases n <;> rfl

theorem dropWhile_head_not (p : Char → Bool) (l : Chars) {c : Char}
    (h : (l.dropWhile p).head? = some c) : p c = false := by
  induction l with
  | nil => simp at h
  | cons c2 r ih =>
    by_cases hp : p c2 = true
    · rw [List.dropWhile_cons, if_pos hp] at h
      exact ih h
    · rw [List.dropWhile_cons, if_neg hp] at h
      have : c2 = c := by simpa using h
      subst this
      simpa using hp

theorem take_takeWhile (p : Char → Bool) (l : Chars) :
    l.take (l.takeWhile p).length = l.takeWhile p :=
  (List.prefix_iff_eq_take.mp (List.takeWhile_prefix p)).symm

theorem mem_takeWhile_pred (p : Char → Bool) : ∀ (l : Chars) (x : Char),
    x ∈ l.takeWhile p → p x = true := by
  intro l
  induction l with
  | nil => intro x hx; simp at hx
  | cons c r ih =>
    intro x hx
    by_cases hp : p c = true
    · rw [List.takeWhile_cons, if_pos hp] at hx
      rcases List.mem_cons.mp hx with rfl | hx2
      · exact hp
      · exact ih x hx2
    · rw [List.takeWhile_cons, if_neg hp] at hx
      simp at hx

theorem skipTrivia_validT : ∀ (n : Nat) (l : Chars), l.length < n →
    skipTrivia n l < l.length → TriviaOK (l.take (skipTrivia n l)) := by
  intro n
  induction n with
  | zero => intro l h; omega
  | succ n ih =>
    intro l hn hlt
    rcases l with _ | ⟨c, r⟩
    · simp [skipTrivia_nil] at hlt
    · rw [skipTrivia_cons] at hlt ⊢
      by_cases hw : cWs c = true
      · rw [if_pos hw] at hlt ⊢
        have h1 : skipTrivia n r < r.length := by
          simp only [List.length_cons] at hlt; omega
        have h2 : r.length < n := by
          have := skipTrivia_le n r
          simp only [List.length_cons] at hn
          omega
        have h3 := ih r h2 h1
        rw [show 1 + skipTrivia n r = skipTrivia n r + 1 by omega, List.take_succ_cons]
        rw [TriviaOK, List.length_cons, validT_cons, if_pos hw]
        exact validT_of_TriviaOK h3 (by simp)
      · rw [if_neg hw] at hlt ⊢
        by_cases hsl : c = '/'
        · rw [if_pos hsl] at hlt ⊢
          by_cases h1 : r.head? = some '/'
          · rw [if_pos h1] at hlt ⊢
            rcases r with _ | ⟨c2, r2⟩
            · simp at h1
            · have hc2 : c2 = '/' := by simpa using h1
              subst hc2
              subst hsl
              simp only [List.tail_cons] at hlt ⊢
              set m := r2.takeWhile (· ≠ '\n') with hm
              by_cases hml : m.length = r2.length
              · exfalso
                have hdrop : r2.drop m.length = [] := by
                  rw [hml, List.drop_length]
                rw [hdrop, skipTrivia_nil] at hlt
                simp only [List.length_cons] at hlt
                omega
              · have hmle : m.length ≤ r2.length := (List.takeWhile_sublist _).length_le
                have hhd : (r2.drop m.length).head? = some '\n' := by
                  have hd2 : r2.drop m.length = r2.dropWhile (· ≠ '\n') :=
                    drop_takeWhile_length _ _
                  rcases hh : (r2.drop m.length).head? with _ | c3
                  · exfalso
                    have hnil : r2.drop m.length = [] := by
                      rcases hdd : r2.drop m.length with _ | ⟨x, xs⟩
                      · rfl
                      · rw [hdd] at hh; simp at hh
                    have := congrArg List.length hnil
                    simp only [List.length_drop, List.length_nil] at this
                    omega
                  · have hp := dropWhile_head_not (· ≠ '\n') r2 (by rw [← hd2]; exact hh)
                    have hc3 : c3 = '\n' := by simpa using hp
                    simp [hh, hc3]
                have hk1 : 1 ≤ skipTrivia n (r2.drop m.length) := by
                  rcases hdd : r2.drop m.length with _ | ⟨c3, r3⟩
                  · rw [hdd] at hhd; simp at hhd
                  · have : c3 = '\n' := by rw [hdd] at hhd; simpa using hhd
                    subst this
                    rcases n with _ | n'
                    · simp only [List.length_cons] at hn; omega
                    · rw [skipTrivia_cons, if_pos (by decide)]
                      omega
                set k' := skipTrivia n (r2.drop m.length) with hk'
                have hk'le : k' ≤ r2.length - m.length := by
                  have := skipTrivia_le n (r2.drop m.length)
                  simpa using this
                -- decompose the taken region
                have htake : ('/' :: '/' :: r2).take (2 + m.length + k')
                    = '/' :: '/' :: (m ++ (r2.drop m.length).take k') := by
                  have : (2 + m.length + k') = (m.length + k') + 2 := by omega
                  rw [this]
                  simp only [List.take_succ_cons]
                  rw [List.take_add, hm, take_takeWhile]
                rw [htake]
                rw [TriviaOK, validT_fuel _
                  (('/' :: '/' :: (m ++ (r2.drop m.length).take k')).length + 1) _
                  (by simp only [List.length_cons, List.length_append, List.length_take,
                    List.length_drop]; omega)
                  (by simp only [List.length_cons, List.length_append, List.length_take,
                    List.length_drop]; omega)]
                rw [show ('/' :: '/' :: (m ++ (r2.drop m.length).take k')).length
                    = (('/' :: (m ++ (r2.drop m.length).take k')).length) + 1 by simp]
                rw [validT_cons, if_neg (by decide), if_pos rfl]
                rw [if_pos (by simp : (('/' :: (m ++ (r2.drop m.length).take k') : Chars)).head? = some '/')]
                simp only [List.tail_cons]
                have hmall : ∀ x ∈ m, (fun y => decide (y ≠ '\n')) x = true := by
                  intro x hx
                  rw [hm] at hx
                  exact mem_takeWhile_pred _ _ _ hx
                have htw2 : (m ++ (r2.drop m.length).take k').takeWhile (· ≠ '\n') = m := by
                  rw [takeWhile_append_all _ _ hmall]
                  have : ((r2.drop m.length).take k').takeWhile (· ≠ '\n') = [] := by
                    rcases hdd : r2.drop m.length with _ | ⟨c3, r3⟩
                    · simp
                    · have : c3 = '\n' := by rw [hdd] at hhd; simpa using hhd
                      subst this
                      rcases k' with _ | kk
                      · omega
                      · simp [List.takeWhile_cons]
                  rw [this, List.append_nil]
                rw [htw2]
                have hlen2 : ((r2.drop m.length).take k').length = k' := by
                  simp only [List.length_take, List.length_drop]
                  omega
                rw [if_neg (by simp only [List.length_append, hlen2]; omega)]
                have hdrop2 : (m ++ (r2.drop m.length).take k').drop m.length
                    = (r2.drop m.length).take k' := by
                  rw [List.drop_append_eq_append_drop, List.drop_length, Nat.sub_self,
                    List.drop_zero, List.nil_append]
                rw [hdrop2]
                have hihlt : skipTrivia n (r2.drop m.length) < (r2.drop m.length).length := by
                  simp only [List.length_drop, List.length_cons] at hlt ⊢
                  omega
                have hihfuel : (r2.drop m.length).length < n := by
                  simp only [List.length_drop]
                  simp only [List.length_cons] at hn
                  omega
                have := ih (r2.drop m.length) hihfuel hihlt
                rw [← hk'] at this
                exact validT_of_TriviaOK this
                  (by simp only [List.length_take, List.length_drop, List.length_cons,
                        List.length_append] at hn hlt ⊢
                      omega)
          · rw [if_neg h1] at hlt ⊢
            by_cases h2 : r.head? = some '*'
            · rw [if_pos h2] at hlt ⊢
              rcases r with _ | ⟨c2, r2⟩
              · simp at h2
              · have hc2 : c2 = '*' := by simpa using h2
                subst hc2
                subst hsl
                simp only [List.tail_cons] at hlt ⊢
                rcases hss : starSlash r2 with _ | j
                · exact rfl
                · have hred : (match (some j : Option Nat) with
                      | some j => 2 + j + skipTrivia n (r2.drop j)
                      | none => 0) = 2 + j + skipTrivia n (r2.drop j) := rfl
                  rw [hss] at hlt
                  rw [hred] at hlt ⊢
                  have h6 := starSlash_le hss
                  set k' := skipTrivia n (r2.drop j) with hk'
                  have hk'le : k' ≤ r2.length - j := by
                    have := skipTrivia_le n (r2.drop j)
                    simpa using this
                  have htake : ('/' :: '*' :: r2).take (2 + j + k')
                      = '/' :: '*' :: (r2.take j ++ (r2.drop j).take k') := by
                    have : (2 + j + k') = (j + k') + 2 := by omega
                    rw [this]
                    simp only [List.take_succ_cons]
                    rw [List.take_add]
                  rw [htake]
                  rw [TriviaOK, validT_fuel _
                    (('/' :: '*' :: (r2.take j ++ (r2.drop j).take k')).length + 1) _
                    (by simp only [List.length_cons, List.length_append, List.length_take,
                      List.length_drop]; omega)
                    (by simp only [List.length_cons, List.length_append, List.length_take,
                      List.length_drop]; omega)]
                  rw [show ('/' :: '*' :: (r2.take j ++ (r2.drop j).take k')).length
                      = (('*' :: (r2.take j ++ (r2.drop j).take k')).length) + 1 by simp]
                  rw [validT_cons, if_neg (by decide), if_pos rfl]
                  rw [if_neg (by simp :
                    ¬(('*' :: (r2.take j ++ (r2.drop j).take k') : Chars)).head? = some '/')]
                  rw [if_pos (by simp :
                    (('*' :: (r2.take j ++ (r2.drop j).take k') : Chars)).head? = some '*')]
                  simp only [List.tail_cons]
                  rw [starSlash_take ((r2.drop j).take k') hss]
                  have hdropj : (r2.take j ++ (r2.drop j).take k').drop j
                      = (r2.drop j).take k' := by
                    rw [List.drop_append_eq_append_drop]
                    have hlj : (r2.take j).length = j := by
                      simp only [List.length_take]
                      omega
                    rw [hlj, Nat.sub_self, List.drop_zero]
                    have h0 : (r2.take j).drop j = [] :=
                      List.drop_eq_nil_of_le (le_of_eq hlj)
                    rw [h0, List.nil_append]
                  have hred2 : (match (some j : Option Nat) with
                      | some j2 => validT (('*' :: (r2.take j ++ (r2.drop j).take k')).length + 1)
                          ((r2.take j ++ (r2.drop j).take k').drop j2)
                      | none => false)
                      = validT (('*' :: (r2.take j ++ (r2.drop j).take k')).length + 1)
                          ((r2.take j ++ (r2.drop j).take k').drop j) := rfl
                  rw [hred2, hdropj]
                  have hihlt : skipTrivia n (r2.drop j) < (r2.drop j).length := by
                    simp only [List.length_drop, List.length_cons] at hlt ⊢
                    omega
                  have hihfuel : (r2.drop j).length < n := by
                    simp only [List.length_drop]
                    simp only [List.length_cons] at hn
                    omega
                  have := ih (r2.drop j) hihfuel hihlt
                  rw [← hk'] at this
                  exact validT_of_TriviaOK this
                    (by simp only [List.length_take, List.length_drop, List.length_cons,
                          List.length_append] at hn hlt ⊢
                        omega)
            · rw [if_neg h2] at hlt ⊢
              simp only [List.take_zero]
              exact rfl
        · rw [if_neg hsl] at hlt ⊢
          simp only [List.take_zero]
          exact rfl
end JPE

namespace JPE

theorem skipTrivia_fuel : ∀ (n m : Nat) (t : Chars), t.length < n → t.length < m →
    skipTrivia n t = skipTrivia m t := by
  intro n
  induction n with
  | zero => intro m t h; omega
  | succ n ih =>
    intro m t hn hm
    rcases m with _ | m
    · omega
    · rcases t with _ | ⟨c, r⟩
      · rfl
      · simp only [skipTrivia]
        by_cases hw : cWs c = true
        · rw [if_pos hw, if_pos hw]
          rw [ih m r (by simpa using Nat.lt_of_succ_lt_succ hn)
            (by simpa using Nat.lt_of_succ_lt_succ hm)]
        · rw [if_neg hw, if_neg hw]
          by_cases hs : c = '/'
          · rw [if_pos hs, if_pos hs]
            by_cases h1 : r.head? = some '/'
            · rw [if_pos h1, if_pos h1]
              rcases r with _ | ⟨c2, r2⟩
              · simp at h1
              · simp only [List.tail_cons] at *
                have hA : (r2.drop (r2.takeWhile (· ≠ '\n')).length).length < n := by
                  simp only [List.length_drop]
                  simp only [List.length_cons] at hn
                  omega
                have hB : (r2.drop (r2.takeWhile (· ≠ '\n')).length).length < m := by
                  simp only [List.length_drop]
                  simp only [List.length_cons] at hm
                  omega
                rw [ih m _ hA hB]
            · rw [if_neg h1, if_neg h1]
              by_cases h2 : r.head? = some '*'
              · rw [if_pos h2, if_pos h2]
                rcases hss : starSlash r.tail with _ | j
                · rfl
                · have h6 := (starSlash_le hss).2
                  rcases r with _ | ⟨c2, r2⟩
                  · simp at h2
                  · simp only [List.tail_cons] at *
                    have hA : (r2.drop j).length < n := by
                      simp only [List.length_drop]
                      simp only [List.length_cons] at hn
                      omega
                    have hB : (r2.drop j).length < m := by
                      simp only [List.length_drop]
                      simp only [List.length_cons] at hm
                      omega
                    rw [ih m _ hA hB]
              · rw [if_neg h2, if_neg h2]
          · rw [if_neg hs, if_neg hs]

theorem validT_append : ∀ (n : Nat) (t s : Chars), TriviaOK t → TriviaOK s →
    t.length + s.length < n → validT n (t ++ s) = true := by
  intro n
  induction n with
  | zero => intro t s _ _ h; omega
  | succ n ih =>
    intro t s ht hs hn
    rcases t with _ | ⟨c, r⟩
    · simpa using validT_of_TriviaOK hs (by simpa using hn)
    · rw [TriviaOK, List.length_cons, validT_cons] at ht
      rw [List.cons_append, validT_cons]
      by_cases hw : cWs c = true
      · rw [if_pos hw] at ht ⊢
        exact ih r s (TriviaOK_of_validT ht (by omega)) hs
          (by simp only [List.length_cons] at hn; omega)
      · rw [if_neg hw] at ht ⊢
        by_cases hsl : c = '/'
        · rw [if_pos hsl] at ht ⊢
          by_cases h1 : r.head? = some '/'
          · rw [if_pos h1] at ht
            rcases r with _ | ⟨c2, r2⟩
            · simp at h1
            · have hc2 : c2 = '/' := by simpa using h1
              subst hc2
              simp only [List.tail_cons] at ht
              rw [if_pos (by simp : (('/' :: r2 : Chars) ++ s).head? = some '/')]
              by_cases h3 : (r2.takeWhile (· ≠ '\n')).length = r2.length
              · rw [if_pos h3] at ht; exact absurd ht (by simp)
              · rw [if_neg h3] at ht
                have htw : (('/' :: r2 : Chars) ++ s).tail = r2 ++ s := by simp
                rw [htw, takeWhile_append_of_ne _ s h3]
                have hle : (r2.takeWhile (· ≠ '\n')).length ≤ r2.length :=
                  (List.takeWhile_sublist _).length_le
                have hne : ¬((r2 ++ s).takeWhile (· ≠ '\n')).length = (r2 ++ s).length := by
                  rw [takeWhile_append_of_ne _ s h3]
                  rcases hs2 : s with _ | ⟨x, s2⟩
                  · simp only [hs2, List.append_nil]; exact h3
                  · simp only [List.length_append, List.length_cons]; omega
                rw [if_neg (by rw [takeWhile_append_of_ne _ s h3] at hne; exact hne)]
                rw [drop_append_of_le s hle]
                exact ih _ s (TriviaOK_of_validT ht
                    (by simp only [List.length_drop, List.length_cons]; omega)) hs
                  (by simp only [List.length_cons] at hn; simp only [List.length_drop]; omega)
          · rw [if_neg h1] at ht
            by_cases h2 : r.head? = some '*'
            · rw [if_pos h2] at ht
              rcases r with _ | ⟨c2, r2⟩
              · simp at h2
              · have hc2 : c2 = '*' := by simpa using h2
                subst hc2
                simp only [List.tail_cons] at ht
                rw [if_neg (by simp : ¬(('*' :: r2 : Chars) ++ s).head? = some '/'),
                  if_pos (by simp : (('*' :: r2 : Chars) ++ s).head? = some '*')]
                rcases hss : starSlash r2 with _ | j
                · rw [hss] at ht; exact absurd ht (by simp)
                · rw [hss] at ht
                  have h6 := starSlash_le hss
                  have htw : (('*' :: r2 : Chars) ++ s).tail = r2 ++ s := by simp
                  simp only [htw, starSlash_append s hss]
                  rw [drop_append_of_le s h6.2]
                  exact ih _ s (TriviaOK_of_validT ht
                      (by simp only [List.length_drop, List.length_cons]; omega)) hs
                    (by simp only [List.length_cons] at hn; simp only [List.length_drop]; omega)
            · rw [if_neg h2] at ht
              exact absurd ht (by simp)
        · rw [if_neg hsl] at ht
          exact absurd ht (by simp)

theorem TriviaOK_append {t s : Chars} (ht : TriviaOK t) (hs : TriviaOK s) :
    TriviaOK (t ++ s) :=
  TriviaOK_of_validT (n := t.length + s.length + 1) (validT_append _ t s ht hs (by omega))
    (by simp only [List.length_append]; omega)

theorem TriviaOK_allWs : ∀ (t : Chars), (∀ c ∈ t, cWs c = true) → TriviaOK t := by
  have aux : ∀ (n : Nat) (t : Chars), (∀ c ∈ t, cWs c = true) → t.length < n →
      validT n t = true := by
    intro n
    induction n with
    | zero => intro t _ h; omega
    | succ n ih =>
      intro t hws hn
      rcases t with _ | ⟨c, r⟩
      · rfl
      · rw [validT_cons, if_pos (hws c (by simp))]
        exact ih r (fun x hx => hws x (by simp [hx])) (by simpa using Nat.lt_of_succ_lt_succ hn)
  intro t h
  exact TriviaOK_of_validT (aux (t.length + 1) t h (by omega)) (by omega)

theorem breaker_of_cWs {c : Char} (h : cWs c = true) : breaker c = true := by
  rcases (by simpa [cWs] using h :
      ((((c = ' ' ∨ c = '\t') ∨ c = '\n') ∨ c = '\x0d') ∨ c = '\x0b') ∨ c = '\x0c') with
    ((((rfl | rfl) | rfl) | rfl) | rfl) | rfl <;> decide

theorem headBrk_trivia {t s : Chars} (ht : TriviaOK t) (hs : headBrk s = true) :
    headBrk (t ++ s) = true := by
  rcases t with _ | ⟨c, r⟩
  · simpa using hs
  · rw [TriviaOK, List.length_cons, validT_cons] at ht
    show breaker c = true
    by_cases hw : cWs c = true
    · exact breaker_of_cWs hw
    · rw [if_neg hw] at ht
      by_cases hsl : c = '/'
      · subst hsl; decide
      · rw [if_neg hsl] at ht; exact absurd ht (by simp)

theorem skipTrivia_pos {n : Nat} {c : Char} {r : Chars}
    (h : 0 < skipTrivia n (c :: r)) : cWs c = true ∨ c = '/' := by
  rcases n with _ | n
  · simp [skipTrivia] at h
  · by_cases hw : cWs c = true
    · exact Or.inl hw
    · by_cases hsl : c = '/'
      · exact Or.inr hsl
      · rw [skipTrivia_cons, if_neg hw, if_neg hsl] at h
        omega

theorem triviaSplit_stable {t s : Chars} (ht : TriviaOK t) (hs : headNTS s = true) :
    triviaSplit (t ++ s) = (t, s) := by
  rw [triviaSplit, validT_stable _ t s ht hs (by simp only [List.length_append]; omega)]
  rw [List.take_left, List.drop_left]

theorem triviaSplit_split {l t r : Chars} (h : triviaSplit l = (t, r)) : l = t ++ r := by
  rw [triviaSplit] at h
  have h1 := congrArg Prod.fst h
  have h2 := congrArg Prod.snd h
  simp only at h1 h2
  rw [← h1, ← h2, List.take_append_drop]

theorem triviaSplit_good {l t r : Chars} (h : triviaSplit l = (t, r)) (hr : r ≠ []) :
    TriviaOK t := by
  rw [triviaSplit] at h
  have h1 := congrArg Prod.fst h
  have h2 := congrArg Prod.snd h
  simp only at h1 h2
  have hk := skipTrivia_le (l.length + 1) l
  have hlt : skipTrivia (l.length + 1) l < l.length := by
    rcases Nat.lt_or_ge (skipTrivia (l.length + 1) l) l.length with hx | hx
    · exact hx
    · exact absurd (h2 ▸ List.drop_eq_nil_of_le hx) hr
  rw [← h1]
  exact skipTrivia_validT (l.length + 1) l (by omega) hlt

end JPE

namespace JPE

theorem escDecode_le {r : Chars} {v : Char} {k : Nat} (h : escDecode r = some (v, k)) :
    1 ≤ k ∧ k ≤ r.length := by
  rcases r with _ | ⟨e, r0⟩
  · simp [escDecode] at h
  · simp only [escDecode] at h
    by_cases h1 : e = '"'
    · rw [if_pos h1] at h; injection h with h; injection h with _ h; simp [← h]
    · rw [if_neg h1] at h
      by_cases h2 : e = '\\'
      · rw [if_pos h2] at h; injection h with h; injection h with _ h; simp [← h]
      · rw [if_neg h2] at h
        by_cases h3 : e = '/'
        · rw [if_pos h3] at h; injection h with h; injection h with _ h; simp [← h]
        · rw [if_neg h3] at h
          by_cases h4 : e = 'b'
          · rw [if_pos h4] at h; injection h with h; injection h with _ h; simp [← h]
          · rw [if_neg h4] at h
            by_cases h5 : e = 'f'
            · rw [if_pos h5] at h; injection h with h; injection h with _ h; simp [← h]
            · rw [if_neg h5] at h
              by_cases h6 : e = 'n'
              · rw [if_pos h6] at h; injection h with h; injection h with _ h; simp [← h]
              · rw [if_neg h6] at h
                by_cases h7 : e = 'r'
                · rw [if_pos h7] at h; injection h with h; injection h with _ h; simp [← h]
                · rw [if_neg h7] at h
                  by_cases h8 : e = 't'
                  · rw [if_pos h8] at h; injection h with h; injection h with _ h
                    simp [← h]
                  · rw [if_neg h8] at h
                    by_cases h9 : e = 'u'
                    · rw [if_pos h9] at h
                      rcases r0 with _ | ⟨a, _ | ⟨b, _ | ⟨c, _ | ⟨d, r4⟩⟩⟩⟩ <;>
                        simp only at h
                      · exact absurd h (by simp)
                      · exact absurd h (by simp)
                      · exact absurd h (by simp)
                      · exact absurd h (by simp)
                      · rcases hxa : hexVal? a with _ | x <;> rw [hxa] at h <;>
                          rcases hxb : hexVal? b with _ | y <;> rw [hxb] at h <;>
                          rcases hxc : hexVal? c with _ | z <;> rw [hxc] at h <;>
                          rcases hxd : hexVal? d with _ | w <;> rw [hxd] at h <;>
                          simp only at h
                        all_goals first
                          | (injection h with h; injection h with _ h;
                             simp only [← h, List.length_cons]; omega)
                          | simp at h
                    · rw [if_neg h9] at h
                      exact absurd h (by simp)

end JPE

namespace JPE

theorem escDecode_take {r : Chars} {v : Char} {k : Nat} (h : escDecode r = some (v, k))
    (u : Chars) : escDecode (r.take k ++ u) = some (v, k) := by
  rcases r with _ | ⟨e, r0⟩
  · simp [escDecode] at h
  · simp only [escDecode] at h
    split_ifs at h with h1 h2 h3 h4 h5 h6 h7 h8 h9
    · injection h with h; injection h with hv hk; subst h1; subst hk; subst hv; exact rfl
    · injection h with h; injection h with hv hk; subst h2; subst hk; subst hv; exact rfl
    · injection h with h; injection h with hv hk; subst h3; subst hk; subst hv; exact rfl
    · injection h with h; injection h with hv hk; subst h4; subst hk; subst hv; exact rfl
    · injection h with h; injection h with hv hk; subst h5; subst hk; subst hv; exact rfl
    · injection h with h; injection h with hv hk; subst h6; subst hk; subst hv; exact rfl
    · injection h with h; injection h with hv hk; subst h7; subst hk; subst hv; exact rfl
    · injection h with h; injection h with hv hk; subst h8; subst hk; subst hv; exact rfl
    · subst h9
      rcases r0 with _ | ⟨a, _ | ⟨b, _ | ⟨c, _ | ⟨d, r4⟩⟩⟩⟩
      · simp at h
      · simp at h
      · simp at h
      · simp at h
      · simp only at h
        rcases hxa : hexVal? a with _ | x <;> rw [hxa] at h
        · simp at h
        rcases hxb : hexVal? b with _ | y <;> rw [hxb] at h
        · simp at h
        rcases hxc : hexVal? c with _ | z <;> rw [hxc] at h
        · simp at h
        rcases hxd : hexVal? d with _ | w <;> rw [hxd] at h
        · simp at h
        simp only at h
        injection h with h; injection h with hv hk
        subst hk; subst hv
        show escDecode ('u' :: a :: b :: c :: d :: u) = _
        have hstep : escDecode ('u' :: a :: b :: c :: d :: u) =
            (match hexVal? a, hexVal? b, hexVal? c, hexVal? d with
              | some x, some y, some z, some w =>
                some (Char.ofNat (((x * 16 + y) * 16 + z) * 16 + w), 5)
              | _, _, _, _ => none) := rfl
        rw [hstep, hxa, hxb, hxc, hxd]

theorem strBody_restable : ∀ (n : Nat) (l tok val rest : Chars),
    strBody n l = some (tok, val, rest) →
    l = tok ++ rest ∧ ∀ (m : Nat) (s : Chars), tok.length ≤ m →
      strBody m (tok ++ s) = some (tok, val, s) := by
  intro n
  induction n with
  | zero => intro l tok val rest h; simp [strBody] at h
  | succ n ih =>
    intro l tok val rest h
    rcases l with _ | ⟨c, r⟩
    · simp [strBody] at h
    · simp only [strBody] at h
      by_cases h1 : c = '"'
      · rw [if_pos h1] at h
        injection h with h; injection h with htok h; injection h with hval hrest
        subst h1; subst htok; subst hval; subst hrest
        refine ⟨rfl, ?_⟩
        intro m s hm
        rcases m with _ | m
        · simp at hm
        · exact rfl
      · rw [if_neg h1] at h
        by_cases h2 : c = '\\'
        · rw [if_pos h2] at h
          rcases hed : escDecode r with _ | ⟨v0, k⟩ <;> rw [hed] at h
          · simp at h
          · simp only at h
            rcases hsb : strBody n (r.drop k) with _ | ⟨tok', val', rest'⟩ <;>
              rw [hsb] at h
            · simp at h
            · simp only [Option.map_some'] at h
              injection h with h; injection h with htok h; injection h with hval hrest
              obtain ⟨hsplit, hre⟩ := ih (r.drop k) tok' val' rest' hsb
              have hkle := escDecode_le hed
              have htk : (r.take k).length = k := by
                simp only [List.length_take]; omega
              subst h2
              constructor
              · rw [← htok, ← hrest]
                have : r = r.take k ++ r.drop k := (List.take_append_drop k r).symm
                rw [List.cons_append, List.append_assoc]
                rw [← hsplit]
                exact congrArg _ this
              · intro m s hm
                rcases m with _ | m
                · rw [← htok] at hm; simp at hm
                · rw [← htok]
                  have hL : (('\\' :: (r.take k ++ tok') : Chars) ++ s)
                      = '\\' :: (r.take k ++ (tok' ++ s)) := by
                    simp [List.append_assoc]
                  rw [hL]
                  have hstep : strBody (m + 1) ('\\' :: (r.take k ++ (tok' ++ s)))
                      = (match escDecode (r.take k ++ (tok' ++ s)) with
                         | none => none
                         | some (v, k2) =>
                           (strBody m ((r.take k ++ (tok' ++ s)).drop k2)).map
                             fun (tokx, valx, restx) =>
                               ('\\' :: ((r.take k ++ (tok' ++ s)).take k2 ++ tokx),
                                 v :: valx, restx)) := rfl
                  rw [hstep, escDecode_take hed (tok' ++ s)]
                  have hred : (match (some (v0, k) : Option (Char × Nat)) with
                         | none => none
                         | some (v, k2) =>
                           (strBody m ((r.take k ++ (tok' ++ s)).drop k2)).map
                             fun (tokx, valx, restx) =>
                               ('\\' :: ((r.take k ++ (tok' ++ s)).take k2 ++ tokx),
                                 v :: valx, restx))
                      = (strBody m ((r.take k ++ (tok' ++ s)).drop k)).map
                          fun (tokx, valx, restx) =>
                            ('\\' :: ((r.take k ++ (tok' ++ s)).take k ++ tokx),
                              v0 :: valx, restx) := rfl
                  rw [hred, List.drop_left' htk, List.take_left' htk]
                  have hm' : tok'.length ≤ m := by
                    rw [← htok] at hm
                    simp only [List.length_cons, List.length_append, htk] at hm
                    omega
                  rw [hre m s hm']
                  simp only [Option.map_some']
                  rw [← hval]
        · rw [if_neg h2] at h
          by_cases h3 : c.toNat < 32
          · rw [if_pos h3] at h; simp at h
          · rw [if_neg h3] at h
            rcases hsb : strBody n r with _ | ⟨tok', val', rest'⟩ <;> rw [hsb] at h
            · simp at h
            · simp only [Option.map_some'] at h
              injection h with h; injection h with htok h; injection h with hval hrest
              obtain ⟨hsplit, hre⟩ := ih r tok' val' rest' hsb
              constructor
              · rw [← htok, ← hrest, List.cons_append, ← hsplit]
              · intro m s hm
                rcases m with _ | m
                · rw [← htok] at hm; simp at hm
                · rw [← htok]
                  simp only [List.cons_append, strBody]
                  rw [if_neg h1, if_neg h2, if_neg h3]
                  have hm' : tok'.length ≤ m := by
                    rw [← htok] at hm
                    simp only [List.length_cons] at hm
                    omega
                  rw [hre m s hm']
                  simp only [Option.map_some']
                  rw [← hval]

end JPE

namespace JPE

theorem dropWhile_eq_drop (p : Char → Bool) :
    ∀ l : Chars, l.dropWhile p = l.drop (l.takeWhile p).length := by
  intro l
  induction l with
  | nil => rfl
  | cons c r ih =>
    by_cases hp : p c
    · rw [List.dropWhile_cons_of_pos hp, List.takeWhile_cons_of_pos hp,
        List.length_cons, List.drop_succ_cons, ih]
    · rw [List.dropWhile_cons_of_neg hp, List.takeWhile_cons_of_neg hp]
      rfl

theorem takeWhile_alpha_nil {s : Chars} (hs : headBrk s = true) :
    s.takeWhile Char.isAlpha = [] := by
  rcases s with _ | ⟨c, r⟩
  · rfl
  · have hb : breaker c = true := hs
    have : c.isAlpha = false := by
      rcases hA : c.isAlpha with _ | _
      · rfl
      · exfalso
        have : c.isAlphanum = true := by
          rw [Char.isAlphanum]
          rw [hA]
          rfl
        simp [breaker, this] at hb
    exact List.takeWhile_cons_of_neg (by simp [this])

theorem lexKeyword_inv {l tok rest : Chars} {v : JsonValue}
    (h : lexKeyword l = some (tok, v, rest)) :
    l = tok ++ rest ∧
      ((tok = "null".data ∧ v = .null) ∨ (tok = "true".data ∧ v = .bool true) ∨
        (tok = "false".data ∧ v = .bool false)) := by
  rw [lexKeyword] at h
  split_ifs at h with h1 h2 h3
  · injection h with h; injection h with htok h; injection h with hv hrest
    have hl4 : (l.takeWhile Char.isAlpha).length = 4 := by rw [h1]; rfl
    refine ⟨?_, Or.inl ⟨htok.symm.trans h1, hv.symm⟩⟩
    have ht4 : l.take 4 = l.takeWhile Char.isAlpha := by
      rw [← hl4]; exact take_takeWhile _ l
    rw [← htok, ← hrest, ← ht4]
    exact (List.take_append_drop 4 l).symm
  · injection h with h; injection h with htok h; injection h with hv hrest
    have hl4 : (l.takeWhile Char.isAlpha).length = 4 := by rw [h2]; rfl
    refine ⟨?_, Or.inr (Or.inl ⟨htok.symm.trans h2, hv.symm⟩)⟩
    have ht4 : l.take 4 = l.takeWhile Char.isAlpha := by
      rw [← hl4]; exact take_takeWhile _ l
    rw [← htok, ← hrest, ← ht4]
    exact (List.take_append_drop 4 l).symm
  · injection h with h; injection h with htok h; injection h with hv hrest
    have hl5 : (l.takeWhile Char.isAlpha).length = 5 := by rw [h3]; rfl
    refine ⟨?_, Or.inr (Or.inr ⟨htok.symm.trans h3, hv.symm⟩)⟩
    have ht5 : l.take 5 = l.takeWhile Char.isAlpha := by
      rw [← hl5]; exact take_takeWhile _ l
    rw [← htok, ← hrest, ← ht5]
    exact (List.take_append_drop 5 l).symm

theorem lexKeyword_stable {tok : Chars} {v : JsonValue}
    (hk : (tok = "null".data ∧ v = .null) ∨ (tok = "true".data ∧ v = .bool true) ∨
      (tok = "false".data ∧ v = .bool false))
    (s : Chars) (hs : headBrk s = true) : lexKeyword (tok ++ s) = some (tok, v, s) := by
  have hnil := takeWhile_alpha_nil hs
  rcases hk with ⟨rfl, rfl⟩ | ⟨rfl, rfl⟩ | ⟨rfl, rfl⟩
  · have hw : ("null".data ++ s).takeWhile Char.isAlpha = "null".data := by
      rw [takeWhile_append_all _ s (by decide), hnil, List.append_nil]
    simp only [lexKeyword, hw]
    rw [List.drop_left' (show ("null".data : Chars).length = 4 from rfl)]
    simp
  · have hw : ("true".data ++ s).takeWhile Char.isAlpha = "true".data := by
      rw [takeWhile_append_all _ s (by decide), hnil, List.append_nil]
    simp only [lexKeyword, hw]
    rw [List.drop_left' (show ("true".data : Chars).length = 4 from rfl)]
    rw [if_neg (by decide)]
    simp
  · have hw : ("false".data ++ s).takeWhile Char.isAlpha = "false".data := by
      rw [takeWhile_append_all _ s (by decide), hnil, List.append_nil]
    simp only [lexKeyword, hw]
    rw [List.drop_left' (show ("false".data : Chars).length = 5 from rfl)]
    rw [if_neg (by decide), if_neg (by decide)]
    simp

end JPE

namespace JPE


theorem escBody_eq_foldr : ∀ cs : Chars,
    escBody cs = cs.foldr (fun c acc => escChar c ++ acc) ['"'] := by
  intro cs
  induction cs with
  | nil => rfl
  | cons c r ih => rw [List.foldr_cons, ← ih]; rfl

theorem strTok_data (s : String) : strTok s = '"' :: escBody s.data := by
  rw [strTok, escBody_eq_foldr]

theorem asString_data : ∀ s : String, s.data.asString = s
  | ⟨_⟩ => rfl

theorem hexVal_hexDigit {x : Nat} (hx : x < 16) : hexVal? (hexDigit x) = some x := by
  interval_cases x <;> decide

theorem escBody_strBody : ∀ (cs : Chars) (m : Nat) (s : Chars), (escBody cs).length ≤ m →
    strBody m (escBody cs ++ s) = some (escBody cs, cs, s) := by
  intro cs
  induction cs with
  | nil =>
    intro m s hm
    rcases m with _ | m
    · simp [escBody] at hm
    · exact rfl
  | cons c r ih =>
    intro m s hm
    by_cases h1 : c = '\"'
    · subst h1
      have hb : escBody ('\"' :: r) = '\\' :: '\"' :: escBody r := rfl
      rw [hb] at hm ⊢
      rcases m with _ | m
      · simp at hm
      · have hmr : (escBody r).length ≤ m := by
          simp only [List.length_cons] at hm
          omega
        show strBody (m + 1) ('\\' :: '\"' :: (escBody r ++ s)) = _
        have hstep : strBody (m + 1) ('\\' :: '\"' :: (escBody r ++ s))
            = (strBody m (escBody r ++ s)).map
              fun (tok, val, rest) => ('\\' :: '\"' :: tok, '\"' :: val, rest) := rfl
        rw [hstep, ih m s hmr]
        exact rfl
    · by_cases h2 : c = '\\'
      · subst h2
        have hb : escBody ('\\' :: r) = '\\' :: '\\' :: escBody r := rfl
        rw [hb] at hm ⊢
        rcases m with _ | m
        · simp at hm
        · have hmr : (escBody r).length ≤ m := by
            simp only [List.length_cons] at hm
            omega
          show strBody (m + 1) ('\\' :: '\\' :: (escBody r ++ s)) = _
          have hstep : strBody (m + 1) ('\\' :: '\\' :: (escBody r ++ s))
              = (strBody m (escBody r ++ s)).map
                fun (tok, val, rest) => ('\\' :: '\\' :: tok, '\\' :: val, rest) := rfl
          rw [hstep, ih m s hmr]
          exact rfl
      · by_cases h3 : c = '\n'
        · subst h3
          have hb : escBody ('\n' :: r) = '\\' :: 'n' :: escBody r := rfl
          rw [hb] at hm ⊢
          rcases m with _ | m
          · simp at hm
          · have hmr : (escBody r).length ≤ m := by
              simp only [List.length_cons] at hm
              omega
            show strBody (m + 1) ('\\' :: 'n' :: (escBody r ++ s)) = _
            have hstep : strBody (m + 1) ('\\' :: 'n' :: (escBody r ++ s))
                = (strBody m (escBody r ++ s)).map
                  fun (tok, val, rest) => ('\\' :: 'n' :: tok, '\n' :: val, rest) := rfl
            rw [hstep, ih m s hmr]
            exact rfl
        · by_cases h4 : c = '\x0d'
          · subst h4
            have hb : escBody ('\x0d' :: r) = '\\' :: 'r' :: escBody r := rfl
            rw [hb] at hm ⊢
            rcases m with _ | m
            · simp at hm
            · have hmr : (escBody r).length ≤ m := by
                simp only [List.length_cons] at hm
                omega
              show strBody (m + 1) ('\\' :: 'r' :: (escBody r ++ s)) = _
              have hstep : strBody (m + 1) ('\\' :: 'r' :: (escBody r ++ s))
                  = (strBody m (escBody r ++ s)).map
                    fun (tok, val, rest) => ('\\' :: 'r' :: tok, '\x0d' :: val, rest) := rfl
              rw [hstep, ih m s hmr]
              exact rfl
          · by_cases h5 : c = '\t'
            · subst h5
              have hb : escBody ('\t' :: r) = '\\' :: 't' :: escBody r := rfl
              rw [hb] at hm ⊢
              rcases m with _ | m
              · simp at hm
              · have hmr : (escBody r).length ≤ m := by
                  simp only [List.length_cons] at hm
                  omega
                show strBody (m + 1) ('\\' :: 't' :: (escBody r ++ s)) = _
                have hstep : strBody (m + 1) ('\\' :: 't' :: (escBody r ++ s))
                    = (strBody m (escBody r ++ s)).map
                      fun (tok, val, rest) => ('\\' :: 't' :: tok, '\t' :: val, rest) := rfl
                rw [hstep, ih m s hmr]
                exact rfl
            · by_cases h6 : c = '\x08'
              · subst h6
                have hb : escBody ('\x08' :: r) = '\\' :: 'b' :: escBody r := rfl
                rw [hb] at hm ⊢
                rcases m with _ | m
                · simp at hm
                · have hmr : (escBody r).length ≤ m := by
                    simp only [List.length_cons] at hm
                    omega
                  show strBody (m + 1) ('\\' :: 'b' :: (escBody r ++ s)) = _
                  have hstep : strBody (m + 1) ('\\' :: 'b' :: (escBody r ++ s))
                      = (strBody m (escBody r ++ s)).map
                        fun (tok, val, rest) => ('\\' :: 'b' :: tok, '\x08' :: val, rest) := rfl
                  rw [hstep, ih m s hmr]
                  exact rfl
              · by_cases h7 : c = '\x0c'
                · subst h7
                  have hb : escBody ('\x0c' :: r) = '\\' :: 'f' :: escBody r := rfl
                  rw [hb] at hm ⊢
                  rcases m with _ | m
                  · simp at hm
                  · have hmr : (escBody r).length ≤ m := by
                      simp only [List.length_cons] at hm
                      omega
                    show strBody (m + 1) ('\\' :: 'f' :: (escBody r ++ s)) = _
                    have hstep : strBody (m + 1) ('\\' :: 'f' :: (escBody r ++ s))
                        = (strBody m (escBody r ++ s)).map
                          fun (tok, val, rest) => ('\\' :: 'f' :: tok, '\x0c' :: val, rest) := rfl
                    rw [hstep, ih m s hmr]
                    exact rfl
                · by_cases h8 : c.toNat < 32
                  · have hesc : escChar c = ['\\', 'u', '0', '0',
                        hexDigit (c.toNat / 16), hexDigit (c.toNat % 16)] := by
                      rw [escChar, if_neg h1, if_neg h2, if_neg h3, if_neg h4, if_neg h5,
                        if_neg h6, if_neg h7, if_pos h8]
                    have hbody : escBody (c :: r) = '\\' :: 'u' :: '0' :: '0' ::
                        hexDigit (c.toNat / 16) :: hexDigit (c.toNat % 16) :: escBody r := by
                      rw [show escBody (c :: r) = escChar c ++ escBody r from rfl, hesc]
                      rfl
                    rw [hbody] at hm ⊢
                    rcases m with _ | m
                    · simp at hm
                    · have hmr : (escBody r).length ≤ m := by
                        simp only [List.length_cons] at hm
                        omega
                      have hdec : escDecode ('u' :: '0' :: '0' :: hexDigit (c.toNat / 16) ::
                          hexDigit (c.toNat % 16) :: (escBody r ++ s))
                          = some (c, 5) := by
                        have hz : hexVal? (hexDigit (c.toNat / 16)) = some (c.toNat / 16) :=
                          hexVal_hexDigit (by omega)
                        have hw : hexVal? (hexDigit (c.toNat % 16)) = some (c.toNat % 16) :=
                          hexVal_hexDigit (by omega)
                        have hstep0 : escDecode ('u' :: '0' :: '0' :: hexDigit (c.toNat / 16) ::
                            hexDigit (c.toNat % 16) :: (escBody r ++ s))
                            = (match hexVal? '0', hexVal? '0', hexVal? (hexDigit (c.toNat / 16)),
                                hexVal? (hexDigit (c.toNat % 16)) with
                              | some x, some y, some z, some w =>
                                some (Char.ofNat (((x * 16 + y) * 16 + z) * 16 + w), 5)
                              | _, _, _, _ => none) := rfl
                        rw [hstep0, hz, hw]
                        have hvv : ((0 * 16 + 0) * 16 + c.toNat / 16) * 16 + c.toNat % 16
                            = c.toNat := by omega
                        show some (Char.ofNat (((0 * 16 + 0) * 16 + c.toNat / 16) * 16
                          + c.toNat % 16), 5) = _
                        rw [hvv, Char.ofNat_toNat]
                      show strBody (m + 1) ('\\' :: 'u' :: '0' :: '0' ::
                        hexDigit (c.toNat / 16) :: hexDigit (c.toNat % 16) :: (escBody r ++ s)) = _
                      have hstep : strBody (m + 1) ('\\' :: 'u' :: '0' :: '0' ::
                          hexDigit (c.toNat / 16) :: hexDigit (c.toNat % 16) :: (escBody r ++ s))
                          = (match escDecode ('u' :: '0' :: '0' :: hexDigit (c.toNat / 16) ::
                              hexDigit (c.toNat % 16) :: (escBody r ++ s)) with
                            | none => none
                            | some (v, k) =>
                              (strBody m (('u' :: '0' :: '0' :: hexDigit (c.toNat / 16) ::
                                hexDigit (c.toNat % 16) :: (escBody r ++ s)).drop k)).map
                                fun (tok, val, rest) =>
                                  ('\\' :: (('u' :: '0' :: '0' :: hexDigit (c.toNat / 16) ::
                                    hexDigit (c.toNat % 16) :: (escBody r ++ s)).take k ++ tok),
                                    v :: val, rest)) := rfl
                      rw [hstep, hdec]
                      have hred : (match (some (c, 5) : Option (Char × Nat)) with
                            | none => none
                            | some (v, k) =>
                              (strBody m (('u' :: '0' :: '0' :: hexDigit (c.toNat / 16) ::
                                hexDigit (c.toNat % 16) :: (escBody r ++ s)).drop k)).map
                                fun (tok, val, rest) =>
                                  ('\\' :: (('u' :: '0' :: '0' :: hexDigit (c.toNat / 16) ::
                                    hexDigit (c.toNat % 16) :: (escBody r ++ s)).take k ++ tok),
                                    v :: val, rest))
                          = (strBody m (escBody r ++ s)).map
                              fun (tok, val, rest) =>
                                ('\\' :: 'u' :: '0' :: '0' :: hexDigit (c.toNat / 16) ::
                                  hexDigit (c.toNat % 16) :: tok, c :: val, rest) := rfl
                      rw [hred, ih m s hmr]
                      exact rfl
                  · have hesc : escChar c = [c] := by
                      rw [escChar, if_neg h1, if_neg h2, if_neg h3, if_neg h4, if_neg h5,
                        if_neg h6, if_neg h7, if_neg h8]
                    have hbody : escBody (c :: r) = c :: escBody r := by
                      rw [show escBody (c :: r) = escChar c ++ escBody r from rfl, hesc]
                      rfl
                    rw [hbody] at hm ⊢
                    rcases m with _ | m
                    · simp at hm
                    · have hmr : (escBody r).length ≤ m := by
                        simp only [List.length_cons] at hm
                        omega
                      show strBody (m + 1) (c :: (escBody r ++ s)) = _
                      simp only [strBody]
                      rw [if_neg h1, if_neg h2, if_neg h8, ih m s hmr]
                      exact rfl

theorem KeyOK_strTok (k : String) : KeyOK (strTok k) :=
  ⟨escBody k.data, k.data, strTok_data k,
    fun n s hn => escBody_strBody k.data n s (le_of_lt hn)⟩

theorem keyName_strTok (k : String) : keyName (strTok k) = k := by
  rw [strTok_data k, keyName]
  have hsb := escBody_strBody k.data ((escBody k.data).length + 1) [] (by omega)
  rw [List.append_nil] at hsb
  rw [hsb]
  exact asString_data k

theorem LitStable_kw {l tok rest : Chars} {v : JsonValue}
    (h : lexKeyword l = some (tok, v, rest)) : LitStable tok := by
  obtain ⟨-, hk⟩ := lexKeyword_inv h
  refine ⟨?_, ?_, ?_⟩
  · rcases hk with ⟨rfl, _⟩ | ⟨rfl, _⟩ | ⟨rfl, _⟩ <;> decide
  · rcases hk with ⟨rfl, _⟩ | ⟨rfl, _⟩ | ⟨rfl, _⟩ <;> decide
  · intro n s hs hn
    rcases n with _ | n
    · omega
    · rcases hk with ⟨rfl, rfl⟩ | ⟨rfl, rfl⟩ | ⟨rfl, rfl⟩
      · have hstep : parseCVal (n + 1) ("null".data ++ s)
            = (lexKeyword ("null".data ++ s)).map
              fun (tok, _, rest) => (CV.lit tok, rest) := rfl
        rw [hstep, lexKeyword_stable (Or.inl ⟨rfl, rfl⟩) s hs]
        exact rfl
      · have hstep : parseCVal (n + 1) ("true".data ++ s)
            = (lexKeyword ("true".data ++ s)).map
              fun (tok, _, rest) => (CV.lit tok, rest) := rfl
        rw [hstep, lexKeyword_stable (Or.inr (Or.inl ⟨rfl, rfl⟩)) s hs]
        exact rfl
      · have hstep : parseCVal (n + 1) ("false".data ++ s)
            = (lexKeyword ("false".data ++ s)).map
              fun (tok, _, rest) => (CV.lit tok, rest) := rfl
        rw [hstep, lexKeyword_stable (Or.inr (Or.inr ⟨rfl, rfl⟩)) s hs]
        exact rfl

end JPE

namespace JPE

theorem takeWhile_digit_nil {s : Chars} (hs : headBrk s = true) :
    s.takeWhile Char.isDigit = [] := by
  rcases s with _ | ⟨c, r⟩
  · rfl
  · have hb : breaker c = true := hs
    have hcd : c.isDigit = false := by
      rcases hA : c.isDigit with _ | _
      · rfl
      · exfalso
        have : c.isAlphanum = true := by
          rw [Char.isAlphanum, hA, Bool.or_true]
        simp [breaker, this] at hb
    exact List.takeWhile_cons_of_neg (by simp [hcd])

theorem digitsTake_exact {d u : Chars} (hd : ∀ c ∈ d, c.isDigit = true)
    (hu : u.takeWhile Char.isDigit = []) : digitsTake (d ++ u) = (d, u) := by
  rw [digitsTake]
  have h1 : (d ++ u).takeWhile Char.isDigit = d := by
    rw [takeWhile_append_all _ _ hd, hu, List.append_nil]
  rw [h1, dropWhile_eq_drop, h1, List.drop_left]

theorem numFrac_not_dot {X : Chars} (h : ¬(X.head? = some '.')) :
    numFrac X = some ([], X) := by
  rw [numFrac, if_neg h]

theorem numFrac_dot {fd X : Chars} (hfdd : ∀ c ∈ fd, c.isDigit = true) (hne : fd ≠ [])
    (hX : X.takeWhile Char.isDigit = []) : numFrac ('.' :: (fd ++ X)) = some (fd, X) := by
  simp only [numFrac, List.head?_cons, Option.some.injEq, if_true, eq_self_iff_true,
    List.tail_cons, digitsTake_exact hfdd hX]
  rw [if_neg (by simp [hne])]

theorem breaker_not_eE {x : Char} (hb : breaker x = true) : (x == 'e' || x == 'E') = false := by
  rcases hA : (x == 'e' || x == 'E') with _ | _
  · rfl
  · exfalso
    have hx : x = 'e' ∨ x = 'E' := by
      rcases Bool.or_eq_true_iff.mp hA with h | h
      · exact Or.inl (by simpa using h)
      · exact Or.inr (by simpa using h)
    rcases hx with rfl | rfl <;> simp [breaker] at hb

theorem numExp_brk {X : Chars} (hs : headBrk X = true) : numExp X = some ([], 0, X) := by
  rcases X with _ | ⟨x, xs⟩
  · rfl
  · have hxe : (x == 'e' || x == 'E') = false := breaker_not_eE hs
    simp only [numExp, hxe, Bool.false_eq_true, if_false]

theorem numExp_run {e : Char} {sg ed X : Chars}
    (he : (e == 'e' || e == 'E') = true)
    (hsg : sg = [] ∨ sg = ['+'] ∨ sg = ['-'])
    (hed : ed ≠ []) (hedd : ∀ c ∈ ed, c.isDigit = true)
    (hX : X.takeWhile Char.isDigit = []) :
    ∃ ev, numExp (e :: (sg ++ (ed ++ X))) = some (e :: (sg ++ ed), ev, X) := by
  have hdt := digitsTake_exact hedd hX
  have hedE : ed.isEmpty = false := by
    rcases ed with _ | _
    · exact absurd rfl hed
    · rfl
  rcases hsg with rfl | rfl | rfl
  · obtain ⟨d0, ed0, rfl⟩ : ∃ a b, ed = a :: b := by
      rcases ed with _ | ⟨a, b⟩
      · exact absurd rfl hed
      · exact ⟨_, _, rfl⟩
    have hd0 : d0.isDigit = true := hedd d0 (by simp)
    have hp : ¬(((d0 :: ed0 : Chars) ++ X).head? = some '+') := by
      simp only [List.cons_append, List.head?_cons, Option.some.injEq]
      intro h
      subst h
      simp at hd0
    have hm : ¬(((d0 :: ed0 : Chars) ++ X).head? = some '-') := by
      simp only [List.cons_append, List.head?_cons, Option.some.injEq]
      intro h
      subst h
      simp at hd0
    simp only [numExp, List.nil_append, he, if_true, eq_self_iff_true, hp, hm, if_false,
      hdt, hedE, Bool.false_eq_true, Nat.sub_self, List.take_zero]
    exact ⟨_, rfl⟩
  · have h1 : (ed ++ X).length + 1 - (ed ++ X).length = 1 := by omega
    simp only [numExp, List.cons_append, List.nil_append, List.head?_cons, Option.some.injEq,
      he, if_true, eq_self_iff_true, List.tail_cons, hdt, hedE, Bool.false_eq_true, if_false,
      List.length_cons, h1, List.take_succ_cons, List.take_zero]
    exact ⟨_, rfl⟩
  · have hpm : ('-' : Char) = '+' ↔ False := by simp
    have h1 : (ed ++ X).length + 1 - (ed ++ X).length = 1 := by omega
    simp only [numExp, List.cons_append, List.nil_append, List.head?_cons, Option.some.injEq,
      he, if_true, eq_self_iff_true, List.tail_cons, hdt, hedE, Bool.false_eq_true, if_false,
      hpm, List.length_cons, h1, List.take_succ_cons, List.take_zero]
    exact ⟨_, rfl⟩

theorem lexNumber_relex {sp ip fd etok : Chars}
    (hsp : sp = [] ∨ sp = ['-'])
    (hip : ip ≠ []) (hipd : ∀ c ∈ ip, c.isDigit = true)
    (hlz : (decide (ip.head? = some '0') && decide (ip.length > 1)) = false)
    (hfd : fd = [] ∨ ((∀ c ∈ fd, c.isDigit = true) ∧ fd ≠ []))
    (het : etok = [] ∨ ∃ e sg ed, etok = e :: (sg ++ ed) ∧ (e == 'e' || e == 'E') = true ∧
      (sg = [] ∨ sg = ['+'] ∨ sg = ['-']) ∧ ed ≠ [] ∧ (∀ c ∈ ed, c.isDigit = true))
    (s : Chars) (hs : headBrk s = true) :
    ∃ q2, lexNumber ((sp ++ ip ++ (if fd.isEmpty then [] else '.' :: fd) ++ etok) ++ s)
      = some (sp ++ ip ++ (if fd.isEmpty then [] else '.' :: fd) ++ etok, q2, s) := by
  obtain ⟨c0, ip0, rfl⟩ : ∃ a b, ip = a :: b := by
    rcases ip with _ | ⟨a, b⟩
    · exact absurd rfl hip
    · exact ⟨_, _, rfl⟩
  have hc0 : c0.isDigit = true := hipd c0 (by simp)
  have hipE : ((c0 :: ip0 : Chars)).isEmpty = false := rfl
  have hEtw : (etok ++ s).takeWhile Char.isDigit = [] := by
    rcases het with rfl | ⟨e, sg, ed, rfl, he, hsg, hed, hedd⟩
    · rw [List.nil_append]
      exact takeWhile_digit_nil hs
    · rw [List.cons_append]
      refine List.takeWhile_cons_of_neg ?_
      rcases Bool.or_eq_true_iff.mp he with h | h
      · rw [show e = 'e' from by simpa using h]
        decide
      · rw [show e = 'E' from by simpa using h]
        decide
  have hEdot : ¬((etok ++ s).head? = some '.') := by
    rcases het with rfl | ⟨e, sg, ed, rfl, he, hsg, hed, hedd⟩
    · rw [List.nil_append]
      rcases s with _ | ⟨x, xs⟩
      · simp
      · have hb : breaker x = true := hs
        simp only [List.head?_cons, Option.some.injEq]
        intro h
        subst h
        exact absurd hb (by decide)
    · simp only [List.cons_append, List.head?_cons, Option.some.injEq]
      intro h
      subst h
      exact absurd he (by decide)
  have hexp : ∃ ev, numExp (etok ++ s) = some (etok, ev, s) := by
    rcases het with rfl | ⟨e, sg, ed, rfl, he, hsg, hed, hedd⟩
    · exact ⟨0, by rw [List.nil_append]; exact numExp_brk hs⟩
    · obtain ⟨ev, hrun⟩ := numExp_run he hsg hed hedd (takeWhile_digit_nil hs)
      refine ⟨ev, ?_⟩
      have hl : ((e :: (sg ++ ed) : Chars)) ++ s = e :: (sg ++ (ed ++ s)) := by
        simp [List.append_assoc]
      rw [hl, hrun]
  obtain ⟨ev, hexp⟩ := hexp
  have hFtw : ((if fd.isEmpty then [] else '.' :: fd) ++ (etok ++ s)).takeWhile Char.isDigit
      = [] := by
    rcases hfd with rfl | ⟨hfdd, hfdne⟩
    · simpa using hEtw
    · have hfE : fd.isEmpty = false := by
        rcases fd with _ | _
        · exact absurd rfl hfdne
        · rfl
      rw [hfE]
      rw [if_neg (by simp), List.cons_append]
      exact List.takeWhile_cons_of_neg (by decide)
  have hfrac : numFrac ((if fd.isEmpty then [] else '.' :: fd) ++ (etok ++ s))
      = some (fd, etok ++ s) := by
    rcases hfd with rfl | ⟨hfdd, hfdne⟩
    · rw [show (if ([] : Chars).isEmpty then [] else '.' :: ([] : Chars)) = ([] : Chars)
        from rfl, List.nil_append]
      exact numFrac_not_dot hEdot
    · have hfE : fd.isEmpty = false := by
        rcases fd with _ | _
        · exact absurd rfl hfdne
        · rfl
      rw [hfE, if_neg (by simp), List.cons_append]
      exact numFrac_dot hfdd hfdne hEtw
  have hdt := digitsTake_exact (d := c0 :: ip0)
    (u := (if fd.isEmpty then [] else '.' :: fd) ++ (etok ++ s)) hipd hFtw
  rw [List.cons_append] at hdt
  rcases hsp with rfl | rfl
  · have hc0m : ∀ Y : Chars, ¬((c0 :: Y : Chars).head? = some '-') := by
      intro Y
      simp only [List.head?_cons, Option.some.injEq]
      intro h
      subst h
      simp at hc0
    simp only [lexNumber, List.cons_append, List.nil_append, List.append_assoc,
      hc0m, if_false, hdt, hipE, hlz, Bool.false_eq_true, hfrac, hexp,
      eq_self_iff_true, if_true, if_neg (show ¬((1 : Int) = -1) by decide)]
    exact ⟨_, rfl⟩
  · simp only [List.head?_cons, Option.some.injEq] at hlz
    simp only [lexNumber, List.cons_append, List.nil_append, List.append_assoc,
      List.head?_cons, Option.some.injEq, eq_self_iff_true, if_true,
      List.drop_succ_cons, List.drop_zero, hdt, hipE, hlz, Bool.false_eq_true, if_false,
      hfrac, hexp, if_pos (show ((-1 : Int) = -1) from rfl)]
    exact ⟨_, rfl⟩

theorem takeWhile_drop_split (p : Char → Bool) (l : Chars) :
    l.takeWhile p ++ l.drop (l.takeWhile p).length = l := by
  rw [← dropWhile_eq_drop]
  exact List.takeWhile_append_dropWhile p l

theorem numFrac_inv {l2 fd l3 : Chars} (h : numFrac l2 = some (fd, l3)) :
    l2 = (if fd.isEmpty then [] else '.' :: fd) ++ l3 ∧
      (fd = [] ∨ ((∀ c ∈ fd, c.isDigit = true) ∧ fd ≠ [])) := by
  rw [numFrac] at h
  by_cases hdot : l2.head? = some '.'
  · rw [if_pos hdot] at h
    rcases l2 with _ | ⟨c2, t2⟩
    · simp at hdot
    · have hc2 : c2 = '.' := by simpa using hdot
      subst hc2
      simp only [List.tail_cons, digitsTake] at h
      rcases hie : (t2.takeWhile Char.isDigit).isEmpty with _ | _
      · rw [hie] at h
        simp only [Bool.false_eq_true, if_false] at h
        injection h with h; injection h with hfd hl3
        have hne : fd ≠ [] := by
          rw [← hfd]
          intro hx
          rw [hx] at hie
          simp at hie
        have hfE : fd.isEmpty = false := by
          rcases fd with _ | _
          · exact absurd rfl hne
          · rfl
        refine ⟨?_, Or.inr ⟨?_, hne⟩⟩
        · rw [hfE, if_neg (by simp), List.cons_append, ← hfd, ← hl3,
            List.takeWhile_append_dropWhile]
        · intro c hc
          exact mem_takeWhile_pred _ _ _ (hfd ▸ hc)
      · rw [hie] at h
        simp at h
  · rw [if_neg hdot] at h
    injection h with h; injection h with hfd hl3
    subst hfd
    refine ⟨?_, Or.inl rfl⟩
    rw [← hl3]
    rfl

theorem numExp_inv {l3 etok : Chars} {ev : Int} {l4 : Chars}
    (h : numExp l3 = some (etok, ev, l4)) :
    l3 = etok ++ l4 ∧
      (etok = [] ∨ ∃ e sg ed, etok = e :: (sg ++ ed) ∧ (e == 'e' || e == 'E') = true ∧
        (sg = [] ∨ sg = ['+'] ∨ sg = ['-']) ∧ ed ≠ [] ∧ (∀ c ∈ ed, c.isDigit = true)) := by
  rcases l3 with _ | ⟨e, r⟩
  · simp only [numExp] at h
    injection h with h; injection h with he h; injection h with hev hl4
    subst he
    exact ⟨by rw [← hl4]; rfl, Or.inl rfl⟩
  · simp only [numExp] at h
    by_cases he : (e == 'e' || e == 'E') = true
    · rw [if_pos he] at h
      by_cases hp : r.head? = some '+'
      · rw [if_pos hp] at h
        rcases r with _ | ⟨c2, t2⟩
        · simp at hp
        · have hc2 : c2 = '+' := by simpa using hp
          subst hc2
          simp only [List.tail_cons, digitsTake, List.length_cons] at h
          rcases hie : (t2.takeWhile Char.isDigit).isEmpty with _ | _
          · rw [hie] at h
            simp only [Bool.false_eq_true, if_false] at h
            injection h with h; injection h with het h; injection h with hev hl4
            have hlen : t2.length + 1 - t2.length = 1 := by omega
            rw [hlen] at het
            simp only [List.take_succ_cons, List.take_zero] at het
            refine ⟨?_, Or.inr ⟨e, ['+'], t2.takeWhile Char.isDigit, ?_, he, ?_, ?_, ?_⟩⟩
            · rw [← het, ← hl4]
              simp only [List.cons_append, List.append_assoc, List.nil_append]
              rw [List.takeWhile_append_dropWhile]
            · exact het.symm
            · exact Or.inr (Or.inl rfl)
            · intro hx
              rw [hx] at hie
              simp at hie
            · intro c hc
              exact mem_takeWhile_pred _ _ _ hc
          · rw [hie] at h
            simp at h
      · rw [if_neg hp] at h
        by_cases hm : r.head? = some '-'
        · rw [if_pos hm] at h
          rcases r with _ | ⟨c2, t2⟩
          · simp at hm
          · have hc2 : c2 = '-' := by simpa using hm
            subst hc2
            simp only [List.tail_cons, digitsTake, List.length_cons] at h
            rcases hie : (t2.takeWhile Char.isDigit).isEmpty with _ | _
            · rw [hie] at h
              simp only [Bool.false_eq_true, if_false] at h
              injection h with h; injection h with het h; injection h with hev hl4
              have hlen : t2.length + 1 - t2.length = 1 := by omega
              rw [hlen] at het
              simp only [List.take_succ_cons, List.take_zero] at het
              refine ⟨?_, Or.inr ⟨e, ['-'], t2.takeWhile Char.isDigit, ?_, he, ?_, ?_, ?_⟩⟩
              · rw [← het, ← hl4]
                simp only [List.cons_append, List.append_assoc, List.nil_append]
                rw [List.takeWhile_append_dropWhile]
              · exact het.symm
              · exact Or.inr (Or.inr rfl)
              · intro hx
                rw [hx] at hie
                simp at hie
              · intro c hc
                exact mem_takeWhile_pred _ _ _ hc
            · rw [hie] at h
              simp at h
        · rw [if_neg hm] at h
          simp only [digitsTake, Nat.sub_self, List.take_zero] at h
          rcases hie : (r.takeWhile Char.isDigit).isEmpty with _ | _
          · rw [hie] at h
            simp only [Bool.false_eq_true, if_false] at h
            injection h with h; injection h with het h; injection h with hev hl4
            refine ⟨?_, Or.inr ⟨e, [], r.takeWhile Char.isDigit, ?_, he, Or.inl rfl, ?_, ?_⟩⟩
            · rw [← het, ← hl4]
              simp only [List.cons_append, List.append_assoc, List.nil_append]
              rw [List.takeWhile_append_dropWhile]
            · exact het.symm
            · intro hx
              rw [hx] at hie
              simp at hie
            · intro c hc
              exact mem_takeWhile_pred _ _ _ hc
          · rw [hie] at h
            simp at h
    · rw [if_neg he] at h
      injection h with h; injection h with het h; injection h with hev hl4
      subst het
      exact ⟨by rw [← hl4]; rfl, Or.inl rfl⟩

theorem lexNumber_inv {l tok rest : Chars} {q : Rat} (h : lexNumber l = some (tok, q, rest)) :
    l = tok ++ rest ∧ ∃ sp ip fd etok,
      tok = sp ++ ip ++ (if fd.isEmpty then [] else '.' :: fd) ++ etok ∧
      (sp = [] ∨ sp = ['-']) ∧ ip ≠ [] ∧ (∀ c ∈ ip, c.isDigit = true) ∧
      (decide (ip.head? = some '0') && decide (ip.length > 1)) = false ∧
      (fd = [] ∨ ((∀ c ∈ fd, c.isDigit = true) ∧ fd ≠ [])) ∧
      (etok = [] ∨ ∃ e sg ed, etok = e :: (sg ++ ed) ∧ (e == 'e' || e == 'E') = true ∧
        (sg = [] ∨ sg = ['+'] ∨ sg = ['-']) ∧ ed ≠ [] ∧ (∀ c ∈ ed, c.isDigit = true)) := by
  simp only [lexNumber] at h
  by_cases hneg : l.head? = some '-'
  · rw [if_pos hneg, if_pos hneg] at h
    simp only [if_pos (show ((-1 : Int) = -1) from rfl)] at h
    rcases hdd : digitsTake (l.drop 1) with ⟨ipX, l2X⟩
    rw [hdd] at h
    simp only at h
    have hpair := hdd
    rw [digitsTake] at hpair
    injection hpair with hIP1 hIP2
    rcases hie : ipX.isEmpty with _ | _ <;> rw [hie] at h
    on_goal 2 => simp at h
    simp only [Bool.false_eq_true, if_false] at h
    rcases hlz : (decide (ipX.head? = some '0') && decide (ipX.length > 1)) with _ | _ <;>
      rw [hlz] at h
    on_goal 2 => simp at h
    simp only [Bool.false_eq_true, if_false] at h
    rcases hnf : numFrac l2X with _ | ⟨fd, l3⟩ <;> rw [hnf] at h
    on_goal 1 => simp at h
    simp only at h
    rcases hne2 : numExp l3 with _ | ⟨etok, ev, l4⟩ <;> rw [hne2] at h
    on_goal 1 => simp at h
    simp only at h
    injection h with h; injection h with htok h; injection h with hq hrest
    obtain ⟨hsplit2, hfdfacts⟩ := numFrac_inv hnf
    obtain ⟨hsplit3, hetfacts⟩ := numExp_inv hne2
    rcases l with _ | ⟨c0, lt⟩
    · simp at hneg
    · have hc0 : c0 = '-' := by simpa using hneg
      subst hc0
      simp only [List.drop_succ_cons, List.drop_zero] at hIP1 hIP2
      rw [if_pos trivial] at htok
      constructor
      · rw [← htok, ← hrest]
        have hlt : lt = ipX ++ l2X := by
          rw [← hIP1, ← hIP2, List.takeWhile_append_dropWhile]
        rw [hlt, hsplit2, hsplit3]
        simp [List.append_assoc]
      · refine ⟨['-'], ipX, fd, etok, htok.symm, Or.inr rfl, ?_, ?_, hlz, hfdfacts, hetfacts⟩
        · intro hx
          rw [hx] at hie
          simp at hie
        · intro c hc
          rw [← hIP1] at hc
          exact mem_takeWhile_pred _ _ _ hc
  · rw [if_neg hneg, if_neg hneg] at h
    simp only [if_neg (show ¬((1 : Int) = -1) from by decide)] at h
    rcases hdd : digitsTake l with ⟨ipX, l2X⟩
    rw [hdd] at h
    simp only at h
    have hpair := hdd
    rw [digitsTake] at hpair
    injection hpair with hIP1 hIP2
    rcases hie : ipX.isEmpty with _ | _ <;> rw [hie] at h
    on_goal 2 => simp at h
    simp only [Bool.false_eq_true, if_false] at h
    rcases hlz : (decide (ipX.head? = some '0') && decide (ipX.length > 1)) with _ | _ <;>
      rw [hlz] at h
    on_goal 2 => simp at h
    simp only [Bool.false_eq_true, if_false] at h
    rcases hnf : numFrac l2X with _ | ⟨fd, l3⟩ <;> rw [hnf] at h
    on_goal 1 => simp at h
    simp only at h
    rcases hne2 : numExp l3 with _ | ⟨etok, ev, l4⟩ <;> rw [hne2] at h
    on_goal 1 => simp at h
    simp only at h
    injection h with h; injection h with htok h; injection h with hq hrest
    obtain ⟨hsplit2, hfdfacts⟩ := numFrac_inv hnf
    obtain ⟨hsplit3, hetfacts⟩ := numExp_inv hne2
    constructor
    · rw [← htok, ← hrest]
      have hlt : l = ipX ++ l2X := by
        rw [← hIP1, ← hIP2, List.takeWhile_append_dropWhile]
      rw [hlt, hsplit2, hsplit3]
      simp [List.append_assoc]
    · refine ⟨[], ipX, fd, etok, htok.symm, Or.inl rfl, ?_, ?_, hlz, hfdfacts, hetfacts⟩
      · intro hx
        rw [hx] at hie
        simp at hie
      · intro c hc
        rw [← hIP1] at hc
        exact mem_takeWhile_pred _ _ _ hc

theorem nonTS_of_digit_dash {c : Char} (h : (c.isDigit || c == '-') = true) :
    nonTS c = true := by
  rw [nonTS]
  have hw : cWs c = false := by
    rcases hx : cWs c with _ | _
    · rfl
    · exfalso
      rcases (by simpa [cWs] using hx :
          ((((c = ' ' ∨ c = '\t') ∨ c = '\n') ∨ c = '\x0d') ∨ c = '\x0b') ∨ c = '\x0c') with
        ((((rfl | rfl) | rfl) | rfl) | rfl) | rfl <;> simp at h
  have hs : (c == '/') = false := by
    rcases hx : (c == '/') with _ | _
    · rfl
    · have : c = '/' := by simpa using hx
      subst this
      simp at h
  rw [hw, hs]
  rfl

theorem lexNumber_stable {l tok rest : Chars} {q : Rat}
    (h : lexNumber l = some (tok, q, rest)) :
    l = tok ++ rest ∧ (∃ c r2, tok = c :: r2 ∧ (c.isDigit || c == '-') = true) ∧
      ∀ s, headBrk s = true → ∃ q2, lexNumber (tok ++ s) = some (tok, q2, s) := by
  obtain ⟨hsplit, sp, ip, fd, etok, htok, hsp, hip, hipd, hlz, hfd, het⟩ := lexNumber_inv h
  obtain ⟨c0, ip0, rfl⟩ : ∃ a b, ip = a :: b := by
    rcases ip with _ | ⟨a, b⟩
    · exact absurd rfl hip
    · exact ⟨_, _, rfl⟩
  refine ⟨hsplit, ?_, ?_⟩
  · rcases hsp with rfl | rfl
    · refine ⟨c0, ip0 ++ (if fd.isEmpty then [] else '.' :: fd) ++ etok, ?_, ?_⟩
      · rw [htok]
        simp [List.append_assoc]
      · rw [Bool.or_eq_true_iff]
        exact Or.inl (hipd c0 (by simp))
    · refine ⟨'-', (c0 :: ip0) ++ (if fd.isEmpty then [] else '.' :: fd) ++ etok, ?_, ?_⟩
      · rw [htok]
        simp [List.append_assoc]
      · simp
  · intro s hs
    obtain ⟨q2, hq2⟩ := lexNumber_relex hsp hip hipd hlz hfd het s hs
    rw [htok]
    exact ⟨q2, hq2⟩


theorem LitStable_num {l tok rest : Chars} {q : Rat}
    (h : lexNumber l = some (tok, q, rest)) :
    l = tok ++ rest ∧ (∃ c r2, tok = c :: r2 ∧ (c.isDigit || c == '-') = true) ∧
      LitStable tok := by
  obtain ⟨hsplit, ⟨c, r2, htokc, hdd⟩, hrelex⟩ := lexNumber_stable h
  refine ⟨hsplit, ⟨c, r2, htokc, hdd⟩, ?_, ?_, ?_⟩
  · rw [htokc]
    simp
  · rw [htokc]
    exact nonTS_of_digit_dash hdd
  · intro n s hs hn
    rcases n with _ | n1
    · omega
    · have h1 : ¬(c = '{') := by
        intro hx
        subst hx
        simp at hdd
      have h2 : ¬(c = '[') := by
        intro hx
        subst hx
        simp at hdd
      have h3 : ¬(c = '\x22') := by
        intro hx
        subst hx
        simp at hdd
      have harg : (c :: (r2 ++ s) : Chars) = tok ++ s := by
        rw [htokc]
        rfl
      have hgoal : parseCVal (n1 + 1) (tok ++ s)
          = (lexNumber (tok ++ s)).map fun (tokx, _, restx) => (CV.lit tokx, restx) := by
        rw [← harg]
        simp only [parseCVal]
        rw [if_neg h1, if_neg h2, if_neg h3, if_pos hdd, harg]
      obtain ⟨q2, hq2⟩ := hrelex s hs
      rw [hgoal, hq2]
      exact rfl

end JPE

namespace JPE

theorem LitStable_str {n0 : Nat} {body tok val rest : Chars}
    (h : strBody n0 body = some (tok, val, rest)) : LitStable ('"' :: tok) := by
  obtain ⟨hsplit, hre⟩ := strBody_restable n0 body tok val rest h
  refine ⟨by simp, rfl, ?_⟩
  intro n s hs hn
  rcases n with _ | n1
  · omega
  · have hstep : parseCVal (n1 + 1) ('"' :: (tok ++ s))
        = (strBody ((tok ++ s).length + 1) (tok ++ s)).map
          fun (tokx, _, restx) => (CV.lit ('"' :: tokx), restx) := rfl
    show parseCVal (n1 + 1) ('"' :: (tok ++ s)) = _
    rw [hstep, hre ((tok ++ s).length + 1) s (by simp only [List.length_append]; omega)]
    exact rfl

theorem digitChar_isDigit {m : Nat} (hm : m < 10) : (digitChar m).isDigit = true := by
  interval_cases m <;> decide

theorem natTokAux_digits : ∀ (fuel n : Nat), ∀ c ∈ natTokAux fuel n, c.isDigit = true := by
  intro fuel
  induction fuel with
  | zero => intro n c hc; simp [natTokAux] at hc
  | succ f ih =>
    intro n c hc
    rw [natTokAux] at hc
    by_cases hn : n < 10
    · rw [if_pos hn] at hc
      rcases List.mem_singleton.mp hc with rfl
      exact digitChar_isDigit hn
    · rw [if_neg hn] at hc
      rcases List.mem_append.mp hc with hc | hc
      · exact ih (n / 10) c hc
      · rcases List.mem_singleton.mp hc with rfl
        exact digitChar_isDigit (Nat.mod_lt _ (by omega))

theorem natTokAux_ne_nil : ∀ (fuel n : Nat), 1 ≤ fuel → natTokAux fuel n ≠ [] := by
  intro fuel n hf
  rcases fuel with _ | f
  · omega
  · rw [natTokAux]
    by_cases hn : n < 10
    · rw [if_pos hn]
      simp
    · rw [if_neg hn]
      simp

theorem natTokAux_head_ne_zero : ∀ (fuel n : Nat) (c : Char), 1 ≤ n → n < 10 ^ fuel →
    (natTokAux fuel n).head? = some c → c ≠ '0' := by
  intro fuel
  induction fuel with
  | zero => intro n c hn hpow _; simp at hpow; omega
  | succ f ih =>
    intro n c hn hpow hc
    rw [natTokAux] at hc
    by_cases h10 : n < 10
    · rw [if_pos h10] at hc
      have hcd : digitChar n = c := by simpa using hc
      subst hcd
      interval_cases n <;> decide
    · rw [if_neg h10] at hc
      have hf1 : 1 ≤ f := by
        rcases f with _ | f
        · simp at hpow
          omega
        · omega
      have hdiv1 : 1 ≤ n / 10 := by omega
      have hdivpow : n / 10 < 10 ^ f := by
        rw [pow_succ] at hpow
        omega
      rcases haux : natTokAux f (n / 10) with _ | ⟨c1, r1⟩
      · exact absurd haux (natTokAux_ne_nil f (n / 10) hf1)
      · rw [haux, List.cons_append, List.head?_cons] at hc
        have hc1 : c1 = c := by simpa using hc
        subst hc1
        exact ih (n / 10) c1 hdiv1 hdivpow (by rw [haux]; rfl)

theorem natTok_pow (n : Nat) : n < 10 ^ (n + 1) := by
  have h1 : n < 10 ^ n := Nat.lt_pow_self (by norm_num) n
  exact lt_of_lt_of_le h1 (Nat.pow_le_pow_right (by norm_num) (by omega))

theorem natTok_digits (n : Nat) : ∀ c ∈ natTok n, c.isDigit = true :=
  natTokAux_digits (n + 1) n

theorem natTok_ne_nil (n : Nat) : natTok n ≠ [] :=
  natTokAux_ne_nil (n + 1) n (by omega)

theorem natTok_lz (n : Nat) :
    (decide ((natTok n).head? = some '0') && decide ((natTok n).length > 1)) = false := by
  by_cases h10 : n < 10
  · have hlen : natTok n = [digitChar n] := by
      rw [natTok, natTokAux, if_pos h10]
    rw [hlen]
    simp
  · rcases hh : (natTok n).head? with _ | c
    · simp
    · have hcne : c ≠ '0' :=
        natTokAux_head_ne_zero (n + 1) n c (by omega) (natTok_pow n) hh
      simp [hcne]

theorem LitStable_of_relex {tok : Chars}
    (hshape : ∃ c r2, tok = c :: r2 ∧ (c.isDigit || c == '-') = true)
    (hrelex : ∀ s, headBrk s = true → ∃ q2, lexNumber (tok ++ s) = some (tok, q2, s)) :
    LitStable tok := by
  obtain ⟨c, r2, htokc, hdd⟩ := hshape
  refine ⟨?_, ?_, ?_⟩
  · rw [htokc]
    simp
  · rw [htokc]
    exact nonTS_of_digit_dash hdd
  · intro n s hs hn
    rcases n with _ | n1
    · omega
    · have h1 : ¬(c = '{') := by
        intro hx
        subst hx
        simp at hdd
      have h2 : ¬(c = '[') := by
        intro hx
        subst hx
        simp at hdd
      have h3 : ¬(c = '\x22') := by
        intro hx
        subst hx
        simp at hdd
      have harg : (c :: (r2 ++ s) : Chars) = tok ++ s := by
        rw [htokc]
        rfl
      have hgoal : parseCVal (n1 + 1) (tok ++ s)
          = (lexNumber (tok ++ s)).map fun (tokx, _, restx) => (CV.lit tokx, restx) := by
        rw [← harg]
        simp only [parseCVal]
        rw [if_neg h1, if_neg h2, if_neg h3, if_pos hdd, harg]
      obtain ⟨q2, hq2⟩ := hrelex s hs
      rw [hgoal, hq2]
      exact rfl

theorem LitStable_shape {sp ip fd etok : Chars}
    (hsp : sp = [] ∨ sp = ['-'])
    (hip : ip ≠ []) (hipd : ∀ c ∈ ip, c.isDigit = true)
    (hlz : (decide (ip.head? = some '0') && decide (ip.length > 1)) = false)
    (hfd : fd = [] ∨ ((∀ c ∈ fd, c.isDigit = true) ∧ fd ≠ []))
    (het : etok = [] ∨ ∃ e sg ed, etok = e :: (sg ++ ed) ∧ (e == 'e' || e == 'E') = true ∧
      (sg = [] ∨ sg = ['+'] ∨ sg = ['-']) ∧ ed ≠ [] ∧ (∀ c ∈ ed, c.isDigit = true)) :
    LitStable (sp ++ ip ++ (if fd.isEmpty then [] else '.' :: fd) ++ etok) := by
  obtain ⟨c0, ip0, rfl⟩ : ∃ a b, ip = a :: b := by
    rcases ip with _ | ⟨a, b⟩
    · exact absurd rfl hip
    · exact ⟨_, _, rfl⟩
  refine LitStable_of_relex ?_ ?_
  · rcases hsp with rfl | rfl
    · refine ⟨c0, ip0 ++ (if fd.isEmpty then [] else '.' :: fd) ++ etok, ?_, ?_⟩
      · simp [List.append_assoc]
      · rw [Bool.or_eq_true_iff]
        exact Or.inl (hipd c0 (by simp))
    · refine ⟨'-', (c0 :: ip0) ++ (if fd.isEmpty then [] else '.' :: fd) ++ etok, ?_, ?_⟩
      · simp [List.append_assoc]
      · simp
  · intro s hs
    exact lexNumber_relex hsp hip hipd hlz hfd het s hs

theorem LitStable_intTok (i : Int) : LitStable (intTok i) := by
  rw [intTok]
  by_cases hi : i < 0
  · rw [if_pos hi]
    have heq : ('-' :: natTok (-i).toNat : Chars)
        = ['-'] ++ natTok (-i).toNat ++ (if ([] : Chars).isEmpty then [] else '.' :: []) ++ [] := by
      simp
    rw [heq]
    exact LitStable_shape (Or.inr rfl) (natTok_ne_nil _) (natTok_digits _) (natTok_lz _)
      (Or.inl rfl) (Or.inl rfl)
  · rw [if_neg hi]
    have heq : (natTok i.toNat : Chars)
        = [] ++ natTok i.toNat ++ (if ([] : Chars).isEmpty then [] else '.' :: []) ++ [] := by
      simp
    rw [heq]
    exact LitStable_shape (Or.inl rfl) (natTok_ne_nil _) (natTok_digits _) (natTok_lz _)
      (Or.inl rfl) (Or.inl rfl)

theorem LitStable_intTok_exp (i : Int) (k : Nat) :
    LitStable (intTok i ++ 'e' :: '-' :: natTok k) := by
  rw [intTok]
  by_cases hi : i < 0
  · rw [if_pos hi]
    have heq : (('-' :: natTok (-i).toNat : Chars) ++ 'e' :: '-' :: natTok k)
        = ['-'] ++ natTok (-i).toNat ++ (if ([] : Chars).isEmpty then [] else '.' :: []) ++
          ('e' :: (['-'] ++ natTok k)) := by
      simp
    rw [heq]
    exact LitStable_shape (Or.inr rfl) (natTok_ne_nil _) (natTok_digits _) (natTok_lz _)
      (Or.inl rfl)
      (Or.inr ⟨'e', ['-'], natTok k, rfl, by decide, Or.inr (Or.inr rfl), natTok_ne_nil _,
        natTok_digits _⟩)
  · rw [if_neg hi]
    have heq : ((natTok i.toNat : Chars) ++ 'e' :: '-' :: natTok k)
        = [] ++ natTok i.toNat ++ (if ([] : Chars).isEmpty then [] else '.' :: []) ++
          ('e' :: (['-'] ++ natTok k)) := by
      simp
    rw [heq]
    exact LitStable_shape (Or.inl rfl) (natTok_ne_nil _) (natTok_digits _) (natTok_lz _)
      (Or.inl rfl)
      (Or.inr ⟨'e', ['-'], natTok k, rfl, by decide, Or.inr (Or.inr rfl), natTok_ne_nil _,
        natTok_digits _⟩)

theorem LitStable_numTok (q : Rat) : LitStable (numTok q) := by
  rw [numTok]
  by_cases hden : q.den = 1
  · rw [if_pos hden]
    exact LitStable_intTok _
  · rw [if_neg hden]
    rcases findScale q.den with _ | k
    · exact LitStable_intTok _
    · exact LitStable_intTok_exp _ _

end JPE

namespace JPE


theorem TriviaOK_nil : TriviaOK [] := rfl

theorem cWs_nlInd (fmt : FormattingOptions) (level : Nat) :
    ∀ c ∈ nlInd fmt level, cWs c = true := by
  intro c hc
  rw [nlInd] at hc
  rcases List.mem_cons.mp hc with rfl | hc
  · rfl
  · rw [indentChars] at hc
    split_ifs at hc
    · rw [List.eq_of_mem_replicate hc]
      rfl
    · rw [List.eq_of_mem_replicate hc]
      rfl

theorem TriviaOK_nlInd (fmt : FormattingOptions) (level : Nat) :
    TriviaOK (nlInd fmt level) :=
  TriviaOK_allWs _ (cWs_nlInd fmt level)

theorem TriviaOK_space : TriviaOK [' '] := rfl

theorem cvOf_good : ∀ N : Nat,
    (∀ (fmt : FormattingOptions) (v : JsonValue) (d : Nat), sizeJV v ≤ N →
      GoodV (cvOfValue fmt v d)) ∧
    (∀ (fmt : FormattingOptions) (l : JsonList) (d : Nat) (its : Items), sizeJL l ≤ N →
      cvItems fmt l d = some its → GoodI its) ∧
    (∀ (fmt : FormattingOptions) (p : JsonPairs) (d : Nat) (ms : Mems), sizeJP p ≤ N →
      cvMems fmt p d = some ms → GoodM ms) := by
  intro N
  induction N with
  | zero =>
    refine ⟨?_, ?_, ?_⟩
    · intro fmt v d hsz
      exfalso
      cases v <;> simp [sizeJV] at hsz
    · intro fmt l d its hsz _
      exfalso
      cases l <;> simp [sizeJL] at hsz
    · intro fmt p d ms hsz _
      exfalso
      cases p <;> simp [sizeJP] at hsz
  | succ N ih =>
    obtain ⟨ihV, ihL, ihP⟩ := ih
    refine ⟨?_, ?_, ?_⟩
    · intro fmt v d hsz
      cases v with
      | null =>
        show LitStable "null".data
        exact LitStable_kw (rfl : lexKeyword "null".data = some ("null".data, .null, []))
      | bool b =>
        cases b
        · show LitStable "false".data
          exact LitStable_kw
            (rfl : lexKeyword "false".data = some ("false".data, .bool false, []))
        · show LitStable "true".data
          exact LitStable_kw
            (rfl : lexKeyword "true".data = some ("true".data, .bool true, []))
      | num q =>
        show LitStable (numTok q)
        exact LitStable_numTok q
      | str st =>
        show LitStable (strTok st)
        have h0 := escBody_strBody st.data ((escBody st.data).length + 1) [] (by omega)
        rw [List.append_nil] at h0
        rw [strTok_data]
        exact LitStable_str h0
      | arr l =>
        simp only [cvOfValue]
        rcases hits : cvItems fmt l d with _ | its
        · exact TriviaOK_nil
        · show GoodI its
          refine ihL fmt l d its ?_ hits
          simp only [sizeJV] at hsz
          omega
      | obj p =>
        simp only [cvOfValue]
        rcases hms : cvMems fmt p d with _ | ms
        · exact TriviaOK_nil
        · show GoodM ms
          refine ihP fmt p d ms ?_ hms
          simp only [sizeJV] at hsz
          omega
    · intro fmt l d its hsz hits
      cases l with
      | nil => simp [cvItems] at hits
      | cons v tl =>
        rw [cvItems] at hits
        injection hits with hits
        rcases htl : cvItems fmt tl d with _ | rest <;> rw [htl] at hits <;>
          simp only at hits
        · rw [← hits]
          refine ⟨TriviaOK_nlInd fmt (d + 1), ?_, TriviaOK_nlInd fmt d, trivial⟩
          refine ihV fmt v (d + 1) ?_
          simp only [sizeJL] at hsz
          omega
        · rw [← hits]
          refine ⟨TriviaOK_nlInd fmt (d + 1), ?_, TriviaOK_nil, ?_⟩
          · refine ihV fmt v (d + 1) ?_
            simp only [sizeJL] at hsz
            omega
          · refine ihL fmt tl d rest ?_ htl
            simp only [sizeJL] at hsz
            omega
    · intro fmt p d ms hsz hms
      cases p with
      | nil => simp [cvMems] at hms
      | cons k v tl =>
        rw [cvMems] at hms
        injection hms with hms
        rcases htl : cvMems fmt tl d with _ | rest <;> rw [htl] at hms <;>
          simp only at hms
        · rw [← hms]
          refine ⟨TriviaOK_nlInd fmt (d + 1), KeyOK_strTok k, TriviaOK_nil, TriviaOK_space,
            ?_, TriviaOK_nlInd fmt d, trivial⟩
          refine ihV fmt v (d + 1) ?_
          simp only [sizeJP] at hsz
          omega
        · rw [← hms]
          refine ⟨TriviaOK_nlInd fmt (d + 1), KeyOK_strTok k, TriviaOK_nil, TriviaOK_space,
            ?_, TriviaOK_nil, ?_⟩
          · refine ihV fmt v (d + 1) ?_
            simp only [sizeJP] at hsz
            omega
          · refine ihP fmt tl d rest ?_ htl
            simp only [sizeJP] at hsz
            omega

theorem GoodV_cvOfValue (fmt : FormattingOptions) (v : JsonValue) (d : Nat) :
    GoodV (cvOfValue fmt v d) :=
  (cvOf_good (sizeJV v)).1 fmt v d (le_refl _)

end JPE

namespace JPE

theorem parseCVal_nil : ∀ n, parseCVal n [] = none := by
  intro n
  cases n <;> rfl

theorem parseMems_nil : ∀ n pre, parseMems n pre [] = none := by
  intro n pre
  cases n <;> rfl

theorem parseItems_nil : ∀ n pre, parseItems n pre [] = none := by
  intro n pre
  rcases n with _ | n
  · rfl
  · simp only [parseItems]
    rw [parseCVal_nil]

theorem parse_sound : ∀ n : Nat,
    (∀ l cv rest, parseCVal n l = some (cv, rest) → l = renderCV cv ++ rest ∧ GoodV cv) ∧
    (∀ pre l ms rest, parseMems n pre l = some (ms, rest) →
      pre ++ l = renderMems ms ++ '}' :: rest ∧ (TriviaOK pre → GoodM ms)) ∧
    (∀ pre l its rest, parseItems n pre l = some (its, rest) →
      pre ++ l = renderItems its ++ ']' :: rest ∧ (TriviaOK pre → GoodI its)) := by
  intro n
  induction n with
  | zero =>
    refine ⟨?_, ?_, ?_⟩
    · intro l cv rest h
      simp [parseCVal] at h
    · intro pre l ms rest h
      simp [parseMems] at h
    · intro pre l its rest h
      simp [parseItems] at h
  | succ n ih =>
    obtain ⟨ihV, ihM, ihI⟩ := ih
    refine ⟨?_, ?_, ?_⟩
    · intro l cv rest h
      rcases l with _ | ⟨c, r⟩
      · simp [parseCVal] at h
      · simp only [parseCVal] at h
        by_cases hc1 : c = '{'
        · rw [if_pos hc1] at h
          subst hc1
          rcases hts : triviaSplit r with ⟨pad, r1⟩
          rw [hts] at h
          simp only at h
          have hsplit := triviaSplit_split hts
          rcases r1 with _ | ⟨c1, r1t⟩
          · rw [if_neg (by simp)] at h
            rw [parseMems_nil] at h
            simp at h
          · by_cases hc2 : c1 = '}'
            · subst hc2
              have hhd : (('}' :: r1t : Chars)).head? = some '}' := rfl
              rw [if_pos hhd] at h
              simp only [List.tail_cons] at h
              injection h with h
              injection h with hcv hrest
              refine ⟨?_, ?_⟩
              · rw [← hcv, ← hrest, hsplit]
                simp [renderCV, renderObjI]
              · rw [← hcv]
                show TriviaOK pad
                exact triviaSplit_good hts (by simp)
            · rw [if_neg (by simp [hc2])] at h
              rcases hpm : parseMems n pad (c1 :: r1t) with _ | ⟨ms, rest'⟩ <;>
                rw [hpm] at h
              · simp at h
              · simp only [Option.map_some'] at h
                injection h with h
                injection h with hcv hrest
                obtain ⟨hsp, hgood⟩ := ihM pad (c1 :: r1t) ms rest' hpm
                refine ⟨?_, ?_⟩
                · rw [← hcv, ← hrest, hsplit, hsp]
                  simp [renderCV, renderObjI]
                · rw [← hcv]
                  show GoodM ms
                  exact hgood (triviaSplit_good hts (by simp))
        · rw [if_neg hc1] at h
          by_cases hc2 : c = '['
          · rw [if_pos hc2] at h
            subst hc2
            rcases hts : triviaSplit r with ⟨pad, r1⟩
            rw [hts] at h
            simp only at h
            have hsplit := triviaSplit_split hts
            rcases r1 with _ | ⟨c1, r1t⟩
            · rw [if_neg (by simp)] at h
              rw [parseItems_nil] at h
              simp at h
            · by_cases hc3 : c1 = ']'
              · subst hc3
                have hhd : ((']' :: r1t : Chars)).head? = some ']' := rfl
                rw [if_pos hhd] at h
                simp only [List.tail_cons] at h
                injection h with h
                injection h with hcv hrest
                refine ⟨?_, ?_⟩
                · rw [← hcv, ← hrest, hsplit]
                  simp [renderCV, renderArrI]
                · rw [← hcv]
                  show TriviaOK pad
                  exact triviaSplit_good hts (by simp)
              · rw [if_neg (by simp [hc3])] at h
                rcases hpi : parseItems n pad (c1 :: r1t) with _ | ⟨its, rest'⟩ <;>
                  rw [hpi] at h
                · simp at h
                · simp only [Option.map_some'] at h
                  injection h with h
                  injection h with hcv hrest
                  obtain ⟨hsp, hgood⟩ := ihI pad (c1 :: r1t) its rest' hpi
                  refine ⟨?_, ?_⟩
                  · rw [← hcv, ← hrest, hsplit, hsp]
                    simp [renderCV, renderArrI]
                  · rw [← hcv]
                    show GoodI its
                    exact hgood (triviaSplit_good hts (by simp))
          · rw [if_neg hc2] at h
            by_cases hc3 : c = '"'
            · rw [if_pos hc3] at h
              subst hc3
              rcases hsb : strBody (r.length + 1) r with _ | ⟨tok, val, r2⟩ <;>
                rw [hsb] at h
              · simp at h
              · simp only [Option.map_some'] at h
                injection h with h
                injection h with hcv hrest
                obtain ⟨hsbsplit, hsbre⟩ := strBody_restable _ _ _ _ _ hsb
                refine ⟨?_, ?_⟩
                · rw [← hcv, ← hrest, hsbsplit]
                  simp [renderCV]
                · rw [← hcv]
                  show LitStable ('"' :: tok)
                  exact LitStable_str hsb
            · rw [if_neg hc3] at h
              by_cases hc4 : (c.isDigit || c == '-') = true
              · rw [if_pos hc4] at h
                rcases hlx : lexNumber (c :: r) with _ | ⟨tok, q, rest'⟩ <;>
                  rw [hlx] at h
                · simp at h
                · simp only [Option.map_some'] at h
                  injection h with h
                  injection h with hcv hrest
                  obtain ⟨hsplitN, _, hLit⟩ := LitStable_num hlx
                  refine ⟨?_, ?_⟩
                  · rw [← hcv, ← hrest, hsplitN]
                    simp [renderCV]
                  · rw [← hcv]
                    exact hLit
              · rw [if_neg hc4] at h
                rcases hlk : lexKeyword (c :: r) with _ | ⟨tok, v, rest'⟩ <;>
                  rw [hlk] at h
                · simp at h
                · simp only [Option.map_some'] at h
                  injection h with h
                  injection h with hcv hrest
                  obtain ⟨hsplitK, _⟩ := lexKeyword_inv hlk
                  refine ⟨?_, ?_⟩
                  · rw [← hcv, ← hrest, hsplitK]
                    simp [renderCV]
                  · rw [← hcv]
                    exact LitStable_kw hlk
    · intro pre l ms rest h
      rcases l with _ | ⟨c, r⟩
      · simp [parseMems] at h
      · simp only [parseMems] at h
        by_cases hc : c = '"'
        · rw [if_pos hc] at h
          subst hc
          rcases hsb : strBody (r.length + 1) r with _ | ⟨tok, val, r2⟩ <;> rw [hsb] at h
          · simp at h
          · simp only at h
            obtain ⟨hsbsplit, hsbre⟩ := strBody_restable _ _ _ _ _ hsb
            rcases hts1 : triviaSplit r2 with ⟨pk, r3⟩
            rw [hts1] at h
            simp only at h
            have hsp1 := triviaSplit_split hts1
            rcases r3 with _ | ⟨c3, r4⟩
            · rw [if_neg (by simp)] at h
              simp at h
            · by_cases hc3 : c3 = ':'
              · subst hc3
                have hhd1 : ((':' :: r4 : Chars)).head? = some ':' := rfl
                rw [if_pos hhd1] at h
                simp only [List.tail_cons] at h
                rcases hts2 : triviaSplit r4 with ⟨pv, r5⟩
                rw [hts2] at h
                simp only at h
                have hsp2 := triviaSplit_split hts2
                rcases hpv : parseCVal n r5 with _ | ⟨v, r6⟩ <;> rw [hpv] at h
                · simp at h
                · simp only at h
                  obtain ⟨hsp3, hgv⟩ := ihV r5 v r6 hpv
                  have hr5ne : r5 ≠ [] := by
                    intro hnil
                    rw [hnil, parseCVal_nil] at hpv
                    exact absurd hpv (by simp)
                  rcases hts3 : triviaSplit r6 with ⟨post, r7⟩
                  rw [hts3] at h
                  simp only at h
                  have hsp4 := triviaSplit_split hts3
                  rcases r7 with _ | ⟨c7, r8⟩
                  · rw [if_neg (by simp), if_neg (by simp)] at h
                    simp at h
                  · by_cases hc7 : c7 = '}'
                    · subst hc7
                      have hhd2 : (('}' :: r8 : Chars)).head? = some '}' := rfl
                      rw [if_pos hhd2] at h
                      simp only [List.tail_cons] at h
                      injection h with h
                      injection h with hms hrest
                      refine ⟨?_, ?_⟩
                      · rw [← hms, ← hrest, hsbsplit, hsp1, hsp2, hsp3, hsp4]
                        simp [renderMems, renderMem]
                      · intro hpre
                        rw [← hms]
                        refine ⟨hpre, ⟨tok, val, rfl,
                          fun m s hm => hsbre m s (le_of_lt hm)⟩,
                          triviaSplit_good hts1 (by simp),
                          triviaSplit_good hts2 hr5ne, hgv,
                          triviaSplit_good hts3 (by simp), trivial⟩
                    · by_cases hc7b : c7 = ','
                      · subst hc7b
                        have hhd3 : ((',' :: r8 : Chars)).head? = some ',' := rfl
                        rw [if_neg (show ¬(((',' :: r8 : Chars)).head? = some '}') by simp),
                          if_pos hhd3] at h
                        simp only [List.tail_cons] at h
                        rcases hts4 : triviaSplit r8 with ⟨pad, r9⟩
                        rw [hts4] at h
                        simp only at h
                        have hsp5 := triviaSplit_split hts4
                        rcases r9 with _ | ⟨c9, r10⟩
                        · rw [if_neg (by simp)] at h
                          rw [parseMems_nil] at h
                          simp at h
                        · by_cases hc9 : c9 = '}'
                          · subst hc9
                            have hhd4 : (('}' :: r10 : Chars)).head? = some '}' := rfl
                            rw [if_pos hhd4] at h
                            simp only [List.tail_cons] at h
                            injection h with h
                            injection h with hms hrest
                            refine ⟨?_, ?_⟩
                            · rw [← hms, ← hrest, hsbsplit, hsp1, hsp2, hsp3, hsp4, hsp5]
                              simp [renderMems, renderMem, tcR]
                            · intro hpre
                              rw [← hms]
                              refine ⟨hpre, ⟨tok, val, rfl,
                                fun m s hm => hsbre m s (le_of_lt hm)⟩,
                                triviaSplit_good hts1 (by simp),
                                triviaSplit_good hts2 hr5ne, hgv,
                                triviaSplit_good hts3 (by simp),
                                triviaSplit_good hts4 (by simp)⟩
                          · rw [if_neg (by simp [hc9])] at h
                            rcases hpm2 : parseMems n pad (c9 :: r10) with _ | ⟨ms', rest'⟩ <;>
                              rw [hpm2] at h
                            · simp at h
                            · simp only [Option.map_some'] at h
                              injection h with h
                              injection h with hms hrest
                              obtain ⟨hspM, hgM⟩ := ihM pad (c9 :: r10) ms' rest' hpm2
                              refine ⟨?_, ?_⟩
                              · rw [← hms, ← hrest, hsbsplit, hsp1, hsp2, hsp3, hsp4, hsp5,
                                  hspM]
                                simp [renderMems, renderMem]
                              · intro hpre
                                rw [← hms]
                                refine ⟨hpre, ⟨tok, val, rfl,
                                  fun m s hm => hsbre m s (le_of_lt hm)⟩,
                                  triviaSplit_good hts1 (by simp),
                                  triviaSplit_good hts2 hr5ne, hgv,
                                  triviaSplit_good hts3 (by simp),
                                  hgM (triviaSplit_good hts4 (by simp))⟩
                      · rw [if_neg (by simp [hc7]), if_neg (by simp [hc7b])] at h
                        simp at h
              · rw [if_neg (by simp [hc3])] at h
                simp at h
        · rw [if_neg hc] at h
          simp at h
    · intro pre l its rest h
      simp only [parseItems] at h
      rcases hpv : parseCVal n l with _ | ⟨v, r⟩ <;> rw [hpv] at h
      · simp at h
      · simp only at h
        obtain ⟨hsp0, hgv⟩ := ihV l v r hpv
        rcases hts1 : triviaSplit r with ⟨post, r2⟩
        rw [hts1] at h
        simp only at h
        have hsp1 := triviaSplit_split hts1
        rcases r2 with _ | ⟨c2, r3⟩
        · rw [if_neg (by simp), if_neg (by simp)] at h
          simp at h
        · by_cases hc2 : c2 = ']'
          · subst hc2
            have hhd5 : ((']' :: r3 : Chars)).head? = some ']' := rfl
            rw [if_pos hhd5] at h
            simp only [List.tail_cons] at h
            injection h with h
            injection h with hits hrest
            refine ⟨?_, ?_⟩
            · rw [← hits, ← hrest, hsp0, hsp1]
              simp [renderItems, renderItem]
            · intro hpre
              rw [← hits]
              exact ⟨hpre, hgv, triviaSplit_good hts1 (by simp), trivial⟩
          · by_cases hc2b : c2 = ','
            · subst hc2b
              have hhd6 : ((',' :: r3 : Chars)).head? = some ',' := rfl
              rw [if_neg (show ¬(((',' :: r3 : Chars)).head? = some ']') by simp),
                if_pos hhd6] at h
              simp only [List.tail_cons] at h
              rcases hts2 : triviaSplit r3 with ⟨pad, r4⟩
              rw [hts2] at h
              simp only at h
              have hsp2 := triviaSplit_split hts2
              rcases r4 with _ | ⟨c4, r5⟩
              · rw [if_neg (by simp)] at h
                rw [parseItems_nil] at h
                simp at h
              · by_cases hc4 : c4 = ']'
                · subst hc4
                  have hhd7 : ((']' :: r5 : Chars)).head? = some ']' := rfl
                  rw [if_pos hhd7] at h
                  simp only [List.tail_cons] at h
                  injection h with h
                  injection h with hits hrest
                  refine ⟨?_, ?_⟩
                  · rw [← hits, ← hrest, hsp0, hsp1, hsp2]
                    simp [renderItems, renderItem, tcR]
                  · intro hpre
                    rw [← hits]
                    exact ⟨hpre, hgv, triviaSplit_good hts1 (by simp),
                      triviaSplit_good hts2 (by simp)⟩
                · rw [if_neg (by simp [hc4])] at h
                  rcases hpi2 : parseItems n pad (c4 :: r5) with _ | ⟨its', rest'⟩ <;>
                    rw [hpi2] at h
                  · simp at h
                  · simp only [Option.map_some'] at h
                    injection h with h
                    injection h with hits hrest
                    obtain ⟨hspI, hgI⟩ := ihI pad (c4 :: r5) its' rest' hpi2
                    refine ⟨?_, ?_⟩
                    · rw [← hits, ← hrest, hsp0, hsp1, hsp2, hspI]
                      simp [renderItems, renderItem]
                    · intro hpre
                      rw [← hits]
                      exact ⟨hpre, hgv, triviaSplit_good hts1 (by simp),
                        hgI (triviaSplit_good hts2 (by simp))⟩
            · rw [if_neg (by simp [hc2]), if_neg (by simp [hc2b])] at h
              simp at h
end JPE

namespace JPE

theorem parseDoc_sound {l : Chars} {d : CDoc} (h : parseDoc l = some d) :
    l = renderDoc d ∧ TriviaOK d.lead ∧ GoodV d.root ∧ headBrk d.trail = true ∧
      (∀ n, d.trail.length < n → skipTrivia n d.trail = d.trail.length) := by
  rw [parseDoc] at h
  rcases hts : triviaSplit l with ⟨lead, r1⟩
  rw [hts] at h
  simp only at h
  rcases hpv : parseCVal (l.length * 4 + 16) r1 with _ | ⟨v, r2⟩ <;> rw [hpv] at h
  · simp at h
  · simp only at h
    rcases hts2 : triviaSplit r2 with ⟨trail, r3⟩
    rw [hts2] at h
    simp only at h
    rcases hr3 : r3.isEmpty with _ | _ <;> rw [hr3] at h
    · simp at h
    · simp only [if_true] at h
      injection h with h
      have hr3nil : r3 = [] := by
        rcases r3 with _ | _
        · rfl
        · simp at hr3
      subst hr3nil
      have hsplit1 := triviaSplit_split hts
      obtain ⟨hsp2, hgv⟩ := (parse_sound (l.length * 4 + 16)).1 r1 v r2 hpv
      have hr1ne : r1 ≠ [] := by
        intro hnil
        rw [hnil, parseCVal_nil] at hpv
        exact absurd hpv (by simp)
      -- the trailing trivia is consumed in full
      have htr : trail = r2 ∧ skipTrivia (r2.length + 1) r2 = r2.length := by
        rw [triviaSplit] at hts2
        have h1 := congrArg Prod.fst hts2
        have h2 := congrArg Prod.snd hts2
        simp only at h1 h2
        have hk := skipTrivia_le (r2.length + 1) r2
        have hge : r2.length ≤ skipTrivia (r2.length + 1) r2 := by
          by_contra hlt
          push_neg at hlt
          have : r2.drop (skipTrivia (r2.length + 1) r2) ≠ [] := by
            intro hx
            have := congrArg List.length hx
            simp only [List.length_drop, List.length_nil] at this
            omega
          exact this h2
        have hkeq : skipTrivia (r2.length + 1) r2 = r2.length := by omega
        constructor
        · rw [← h1, hkeq, List.take_length]
        · exact hkeq
      obtain ⟨htrail, hkeq⟩ := htr
      refine ⟨?_, ?_, ?_, ?_, ?_⟩
      · rw [← h]
        show l = lead ++ renderCV v ++ trail
        rw [hsplit1, hsp2, htrail]
        simp [List.append_assoc]
      · rw [← h]
        show TriviaOK lead
        exact triviaSplit_good hts hr1ne
      · rw [← h]
        exact hgv
      · rw [← h]
        show headBrk trail = true
        rw [htrail]
        rcases hr2 : r2 with _ | ⟨c, r2t⟩
        · rfl
        · show breaker c = true
          have hpos : 0 < skipTrivia (r2.length + 1) r2 := by
            rw [hkeq, hr2]
            simp
          rw [hr2] at hpos
          rcases skipTrivia_pos hpos with hws | hsl
          · exact breaker_of_cWs hws
          · subst hsl
            decide
      · rw [← h]
        intro n hn
        show skipTrivia n trail = trail.length
        rw [htrail] at hn ⊢
        rw [skipTrivia_fuel n (r2.length + 1) r2 hn (by omega), hkeq]

end JPE

namespace JPE


theorem renderCV_head {cv : CV} (h : GoodV cv) :
    ∃ c t, renderCV cv = c :: t ∧ nonTS c = true := by
  cases cv with
  | lit txt =>
    obtain ⟨hne, hh, _⟩ := h
    rcases txt with _ | ⟨c, t⟩
    · exact absurd rfl hne
    · exact ⟨c, t, rfl, hh⟩
  | obj i => exact ⟨'{', renderObjI i ++ ['}'], rfl, by decide⟩
  | arr i => exact ⟨'[', renderArrI i ++ [']'], rfl, by decide⟩

theorem GoodM_pre {ms : Mems} (h : GoodM ms) : TriviaOK (memPre ms) := by
  cases ms with
  | last m post tc => cases m with | mk pre kt pk pv v => exact h.1
  | cons m post tl => cases m with | mk pre kt pk pv v => exact h.1

theorem memRest_quote {ms : Mems} (h : GoodM ms) : ∃ t, memRest ms = '"' :: t := by
  cases ms with
  | last m post tc =>
    cases m with
    | mk pre kt pk pv v =>
      obtain ⟨body, val, hkt, _⟩ := h.2.1
      rw [memRest, hkt]
      exact ⟨_, rfl⟩
  | cons m post tl =>
    cases m with
    | mk pre kt pk pv v =>
      obtain ⟨body, val, hkt, _⟩ := h.2.1
      rw [memRest, hkt]
      exact ⟨_, rfl⟩

theorem GoodI_pre {its : Items} (h : GoodI its) : TriviaOK (itemPre its) := by
  cases its with
  | last it post tc => cases it with | mk pre v => exact h.1
  | cons it post tl => cases it with | mk pre v => exact h.1

theorem LitStable_head_ne {txt : Chars} (h : LitStable txt) :
    ∃ c t, txt = c :: t ∧ nonTS c = true ∧ c ≠ ']' ∧ c ≠ '}' ∧ c ≠ ',' := by
  obtain ⟨hne, hh, hre⟩ := h
  rcases txt with _ | ⟨c, t⟩
  · exact absurd rfl hne
  · refine ⟨c, t, rfl, hh, ?_, ?_, ?_⟩
    · intro hcx
      subst hcx
      have h2 := hre (t.length + 2) [] rfl (by simp)
      have h3 : parseCVal (t.length + 2) (((']' :: t : Chars)) ++ [])
          = (lexKeyword (']' :: (t ++ []))).map fun (tok, _, rest) => (CV.lit tok, rest) := rfl
      rw [h3] at h2
      have h4 : lexKeyword (']' :: (t ++ [])) = none := by
        rw [lexKeyword]
        rw [List.takeWhile_cons_of_neg (by decide)]
        rw [if_neg (by decide), if_neg (by decide), if_neg (by decide)]
      rw [h4] at h2
      simp at h2
    · intro hcx
      subst hcx
      have h2 := hre (t.length + 2) [] rfl (by simp)
      have h3 : parseCVal (t.length + 2) ((('}' :: t : Chars)) ++ [])
          = (lexKeyword ('}' :: (t ++ []))).map fun (tok, _, rest) => (CV.lit tok, rest) := rfl
      rw [h3] at h2
      have h4 : lexKeyword ('}' :: (t ++ [])) = none := by
        rw [lexKeyword]
        rw [List.takeWhile_cons_of_neg (by decide)]
        rw [if_neg (by decide), if_neg (by decide), if_neg (by decide)]
      rw [h4] at h2
      simp at h2
    · intro hcx
      subst hcx
      have h2 := hre (t.length + 2) [] rfl (by simp)
      have h3 : parseCVal (t.length + 2) (((',' :: t : Chars)) ++ [])
          = (lexKeyword (',' :: (t ++ []))).map fun (tok, _, rest) => (CV.lit tok, rest) := rfl
      rw [h3] at h2
      have h4 : lexKeyword (',' :: (t ++ [])) = none := by
        rw [lexKeyword]
        rw [List.takeWhile_cons_of_neg (by decide)]
        rw [if_neg (by decide), if_neg (by decide), if_neg (by decide)]
      rw [h4] at h2
      simp at h2

theorem renderCV_head2 {cv : CV} (h : GoodV cv) :
    ∃ c t, renderCV cv = c :: t ∧ nonTS c = true ∧ c ≠ ']' ∧ c ≠ '}' ∧ c ≠ ',' := by
  cases cv with
  | lit txt =>
    obtain ⟨c, t, htxt, hnc, h1, h2, h3⟩ := LitStable_head_ne h
    exact ⟨c, t, htxt, hnc, h1, h2, h3⟩
  | obj i => exact ⟨'{', renderObjI i ++ ['}'], rfl, by decide, by decide, by decide, by decide⟩
  | arr i => exact ⟨'[', renderArrI i ++ [']'], rfl, by decide, by decide, by decide, by decide⟩

theorem itemRest_head {its : Items} (h : GoodI its) :
    ∃ c t, itemRest its = c :: t ∧ nonTS c = true ∧ c ≠ ']' ∧ c ≠ '}' ∧ c ≠ ',' := by
  cases its with
  | last it post tc =>
    cases it with
    | mk pre v =>
      obtain ⟨c, t, hr, hc, h1, h2, h3⟩ := renderCV_head2 h.2.1
      rw [itemRest, hr]
      exact ⟨c, _, rfl, hc, h1, h2, h3⟩
  | cons it post tl =>
    cases it with
    | mk pre v =>
      obtain ⟨c, t, hr, hc, h1, h2, h3⟩ := renderCV_head2 h.2.1
      rw [itemRest, hr]
      exact ⟨c, _, rfl, hc, h1, h2, h3⟩

theorem renderMems_split (ms : Mems) : renderMems ms = memPre ms ++ memRest ms := by
  cases ms with
  | last m post tc =>
    cases m with
    | mk pre kt pk pv v =>
      cases tc <;> simp [renderMems, renderMem, memPre, memRest, tcR, List.append_assoc]
  | cons m post tl =>
    cases m with
    | mk pre kt pk pv v =>
      simp [renderMems, renderMem, memPre, memRest, List.append_assoc]

theorem renderItems_split (its : Items) : renderItems its = itemPre its ++ itemRest its := by
  cases its with
  | last it post tc =>
    cases it with
    | mk pre v =>
      cases tc <;> simp [renderItems, renderItem, itemPre, itemRest, tcR, List.append_assoc]
  | cons it post tl =>
    cases it with
    | mk pre v =>
      simp [renderItems, renderItem, itemPre, itemRest, List.append_assoc]

theorem headBrk_tcR (tc : Option Chars) (x : Chars) (hx : headBrk x = true)
    (htc : match tc with | none => True | some pad => TriviaOK pad) :
    headBrk (tcR tc ++ '}' :: x) = true ∧ headBrk (tcR tc ++ ']' :: x) = true := by
  cases tc with
  | none => exact ⟨rfl, rfl⟩
  | some pad => exact ⟨rfl, rfl⟩

end JPE

namespace JPE

theorem parse_stable : ∀ N : Nat,
    (∀ cv, sizeCV cv ≤ N → GoodV cv → ∀ n s, headBrk s = true → (renderCV cv).length < n →
      parseCVal n (renderCV cv ++ s) = some (cv, s)) ∧
    (∀ ms, sizeMems ms ≤ N → GoodM ms → ∀ n s, headBrk s = true → (memRest ms).length < n →
      parseMems n (memPre ms) (memRest ms ++ '}' :: s) = some (ms, s)) ∧
    (∀ its, sizeItems its ≤ N → GoodI its → ∀ n s, headBrk s = true →
      (itemRest its).length + 1 < n →
      parseItems n (itemPre its) (itemRest its ++ ']' :: s) = some (its, s)) := by
  intro N
  induction N with
  | zero =>
    refine ⟨?_, ?_, ?_⟩
    · intro cv hsz
      exfalso
      cases cv <;> simp [sizeCV] at hsz
    · intro ms hsz
      exfalso
      cases ms <;> simp [sizeMems] at hsz
    · intro its hsz
      exfalso
      cases its <;> simp [sizeItems] at hsz
  | succ N ih =>
    obtain ⟨ihV, ihM, ihI⟩ := ih
    refine ⟨?_, ?_, ?_⟩
    · intro cv hsz hg n s hs hn
      cases cv with
      | lit txt =>
        exact hg.2.2 n s hs hn
      | obj i =>
        cases i with
        | nil pad =>
          have hpad : TriviaOK pad := hg
          rcases n with _ | m
          · omega
          · have harg : renderCV (.obj (.nil pad)) ++ s = '{' :: (pad ++ ('}' :: s)) := by
              simp [renderCV, renderObjI]
            rw [harg]
            simp only [parseCVal]
            rw [if_pos trivial,
              triviaSplit_stable hpad (show headNTS ('}' :: s) = true from rfl)]
            simp only [List.head?_cons, Option.some.injEq, eq_self_iff_true, if_true,
              List.tail_cons]
        | mems ms =>
          have hgm : GoodM ms := hg
          rcases n with _ | m
          · omega
          · obtain ⟨tq, htq⟩ := memRest_quote hgm
            have harg : renderCV (.obj (.mems ms)) ++ s
                = '{' :: (memPre ms ++ (memRest ms ++ ('}' :: s))) := by
              simp [renderCV, renderObjI, renderMems_split ms, List.append_assoc]
            rw [harg]
            simp only [parseCVal]
            rw [if_pos trivial, triviaSplit_stable (GoodM_pre hgm)
                (show headNTS (memRest ms ++ ('}' :: s)) = true from by rw [htq]; rfl)]
            simp only
            rw [if_neg (by rw [htq]; simp)]
            have hszm : sizeMems ms ≤ N := by
              simp only [sizeCV, sizeObjI] at hsz
              omega
            have hlen : (memRest ms).length < m := by
              have h2 := congrArg List.length (renderMems_split ms)
              simp only [List.length_append] at h2
              simp only [renderCV, renderObjI, List.length_cons, List.length_append,
                List.length_singleton, h2] at hn
              omega
            rw [ihM ms hszm hgm m s hs hlen]
            rfl
      | arr i =>
        cases i with
        | nil pad =>
          have hpad : TriviaOK pad := hg
          rcases n with _ | m
          · omega
          · have harg : renderCV (.arr (.nil pad)) ++ s = '[' :: (pad ++ (']' :: s)) := by
              simp [renderCV, renderArrI]
            rw [harg]
            simp only [parseCVal]
            rw [if_neg (by decide), if_pos trivial,
              triviaSplit_stable hpad (show headNTS (']' :: s) = true from rfl)]
            simp only [List.head?_cons, Option.some.injEq, eq_self_iff_true, if_true,
              List.tail_cons]
        | items its =>
          have hgi : GoodI its := hg
          rcases n with _ | m
          · omega
          · obtain ⟨ci, ti, hti, hci, hci1, hci2, hci3⟩ := itemRest_head hgi
            have harg : renderCV (.arr (.items its)) ++ s
                = '[' :: (itemPre its ++ (itemRest its ++ (']' :: s))) := by
              simp [renderCV, renderArrI, renderItems_split its, List.append_assoc]
            rw [harg]
            simp only [parseCVal]
            rw [if_neg (by decide), if_pos trivial,
              triviaSplit_stable (GoodI_pre hgi)
                (show headNTS (itemRest its ++ (']' :: s)) = true from by rw [hti]; exact hci)]
            simp only
            rw [if_neg (by
              rw [hti]
              simp only [List.cons_append, List.head?_cons, Option.some.injEq]
              exact hci1)]
            have hszi : sizeItems its ≤ N := by
              simp only [sizeCV, sizeArrI] at hsz
              omega
            have hlen : (itemRest its).length + 1 < m := by
              have h2 := congrArg List.length (renderItems_split its)
              simp only [List.length_append] at h2
              simp only [renderCV, renderArrI, List.length_cons, List.length_append,
                List.length_singleton, h2] at hn
              omega
            rw [ihI its hszi hgi m s hs hlen]
            rfl
    · intro ms hsz hgm n s hs hn
      cases ms with
      | last mem post tc =>
        cases mem with
        | mk pre kt pk pv v =>
          obtain ⟨hpre, ⟨body, val, hkt, hkre⟩, hpk, hpv, hgv, hpost, htc⟩ := hgm
          subst hkt
          rcases n with _ | m
          · omega
          · have harg : memRest (.last (.mk pre ('"' :: body) pk pv v) post tc) ++ '}' :: s
                = '"' :: (body ++ (pk ++ (':' :: (pv ++ (renderCV v ++
                    (post ++ (tcR tc ++ ('}' :: s)))))))) := by
              simp [memRest, List.append_assoc]
            rw [harg]
            simp only [parseMems]
            rw [if_pos trivial]
            rw [hkre ((body ++ (pk ++ (':' :: (pv ++ (renderCV v ++
                (post ++ (tcR tc ++ ('}' :: s)))))))).length + 1) _
              (by simp only [List.length_append]; omega)]
            simp only
            rw [triviaSplit_stable hpk (show headNTS (':' :: (pv ++ (renderCV v ++
              (post ++ (tcR tc ++ ('}' :: s)))))) = true from rfl)]
            simp only [List.head?_cons, Option.some.injEq, eq_self_iff_true, if_true,
              List.tail_cons]
            rw [triviaSplit_stable hpv (show headNTS (renderCV v ++
              (post ++ (tcR tc ++ ('}' :: s)))) = true from by
                obtain ⟨c, t, hr, hc⟩ := renderCV_head hgv
                rw [hr]
                exact hc)]
            simp only
            have hlenv : (renderCV v).length < m := by
              simp only [memRest, List.length_append, List.length_cons] at hn
              omega
            rw [ihV v (by simp only [sizeMems, sizeMem] at hsz; omega) hgv m _
              (headBrk_trivia hpost ((headBrk_tcR tc s hs htc).1)) hlenv]
            simp only
            rw [triviaSplit_stable hpost
              (show headNTS (tcR tc ++ ('}' :: s)) = true from by cases tc <;> rfl)]
            simp only
            cases tc with
            | none =>
              simp only [tcR, List.nil_append, List.head?_cons, Option.some.injEq,
                eq_self_iff_true, if_true, List.tail_cons]
              rfl
            | some pad =>
              simp only [tcR, List.cons_append, List.head?_cons, Option.some.injEq,
                eq_self_iff_true, if_true, List.tail_cons]
              rw [if_neg (by decide)]
              rw [triviaSplit_stable htc (show headNTS ('}' :: s) = true from rfl)]
              simp only [List.head?_cons, Option.some.injEq, eq_self_iff_true, if_true,
                List.tail_cons]
              rfl
      | cons mem post tl =>
        cases mem with
        | mk pre kt pk pv v =>
          obtain ⟨hpre, ⟨body, val, hkt, hkre⟩, hpk, hpv, hgv, hpost, hgtl⟩ := hgm
          subst hkt
          rcases n with _ | m
          · omega
          · obtain ⟨tq, htq⟩ := memRest_quote hgtl
            have harg : memRest (.cons (.mk pre ('"' :: body) pk pv v) post tl) ++ '}' :: s
                = '"' :: (body ++ (pk ++ (':' :: (pv ++ (renderCV v ++
                    (post ++ (',' :: (memPre tl ++ (memRest tl ++ ('}' :: s)))))))))) := by
              simp [memRest, renderMems_split tl, List.append_assoc]
            rw [harg]
            simp only [parseMems]
            rw [if_pos trivial]
            rw [hkre ((body ++ (pk ++ (':' :: (pv ++ (renderCV v ++
                (post ++ (',' :: (memPre tl ++ (memRest tl ++ ('}' :: s)))))))))).length + 1) _
              (by simp only [List.length_append]; omega)]
            simp only
            rw [triviaSplit_stable hpk (show headNTS (':' :: (pv ++ (renderCV v ++
              (post ++ (',' :: (memPre tl ++ (memRest tl ++ ('}' :: s)))))))) = true from rfl)]
            simp only [List.head?_cons, Option.some.injEq, eq_self_iff_true, if_true,
              List.tail_cons]
            rw [triviaSplit_stable hpv (show headNTS (renderCV v ++
              (post ++ (',' :: (memPre tl ++ (memRest tl ++ ('}' :: s)))))) = true from by
                obtain ⟨c, t, hr, hc⟩ := renderCV_head hgv
                rw [hr]
                exact hc)]
            simp only
            have hlentl : (memRest tl).length < m ∧ (renderCV v).length < m := by
              have h3 := congrArg List.length harg
              simp only [List.length_append, List.length_cons] at h3
              omega
            rw [ihV v (by simp only [sizeMems, sizeMem] at hsz; omega) hgv m _
              (headBrk_trivia hpost (show headBrk (',' :: (memPre tl ++
                (memRest tl ++ ('}' :: s)))) = true from rfl)) hlentl.2]
            simp only
            rw [triviaSplit_stable hpost (show headNTS (',' :: (memPre tl ++
              (memRest tl ++ ('}' :: s)))) = true from rfl)]
            simp only [List.head?_cons, Option.some.injEq, eq_self_iff_true, if_true,
              List.tail_cons]
            rw [if_neg (by decide)]
            rw [triviaSplit_stable (GoodM_pre hgtl)
              (show headNTS (memRest tl ++ ('}' :: s)) = true from by rw [htq]; rfl)]
            simp only
            rw [if_neg (by rw [htq]; simp)]
            rw [ihM tl (by simp only [sizeMems, sizeMem] at hsz; omega) hgtl m s hs hlentl.1]
            rfl
    · intro its hsz hgi n s hs hn
      cases its with
      | last it post tc =>
        cases it with
        | mk pre v =>
          obtain ⟨hpre, hgv, hpost, htc⟩ := hgi
          rcases n with _ | m
          · omega
          · have harg : itemRest (.last (.mk pre v) post tc) ++ ']' :: s
                = renderCV v ++ (post ++ (tcR tc ++ (']' :: s))) := by
              simp [itemRest, List.append_assoc]
            rw [harg]
            simp only [parseItems]
            have hlenv : (renderCV v).length < m := by
              simp only [itemRest, List.length_append] at hn
              omega
            rw [ihV v (by simp only [sizeItems, sizeItem] at hsz; omega) hgv m _
              (headBrk_trivia hpost ((headBrk_tcR tc s hs htc).2)) hlenv]
            simp only
            rw [triviaSplit_stable hpost
              (show headNTS (tcR tc ++ (']' :: s)) = true from by cases tc <;> rfl)]
            simp only
            cases tc with
            | none =>
              simp only [tcR, List.nil_append, List.head?_cons, Option.some.injEq,
                eq_self_iff_true, if_true, List.tail_cons]
              rfl
            | some pad =>
              simp only [tcR, List.cons_append, List.head?_cons, Option.some.injEq,
                eq_self_iff_true, if_true, List.tail_cons]
              rw [if_neg (by decide)]
              rw [triviaSplit_stable htc (show headNTS (']' :: s) = true from rfl)]
              simp only [List.head?_cons, Option.some.injEq, eq_self_iff_true, if_true,
                List.tail_cons]
              rfl
      | cons it post tl =>
        cases it with
        | mk pre v =>
          obtain ⟨hpre, hgv, hpost, hgtl⟩ := hgi
          rcases n with _ | m
          · omega
          · obtain ⟨ci, ti, hti, hci, hci1, hci2, hci3⟩ := itemRest_head hgtl
            have harg : itemRest (.cons (.mk pre v) post tl) ++ ']' :: s
                = renderCV v ++ (post ++ (',' :: (itemPre tl ++ (itemRest tl ++ (']' :: s))))) := by
              simp [itemRest, renderItems_split tl, List.append_assoc]
            rw [harg]
            simp only [parseItems]
            have hvne : 1 ≤ (renderCV v).length := by
              obtain ⟨c, t, hr, _⟩ := renderCV_head hgv
              rw [hr]
              simp
            have hlens : (renderCV v).length < m ∧ (itemRest tl).length + 1 < m := by
              have h3 := congrArg List.length harg
              simp only [List.length_append, List.length_cons] at h3
              omega
            rw [ihV v (by simp only [sizeItems, sizeItem] at hsz; omega) hgv m _
              (headBrk_trivia hpost (show headBrk (',' :: (itemPre tl ++
                (itemRest tl ++ (']' :: s)))) = true from rfl)) hlens.1]
            simp only
            rw [triviaSplit_stable hpost (show headNTS (',' :: (itemPre tl ++
              (itemRest tl ++ (']' :: s)))) = true from rfl)]
            simp only [List.head?_cons, Option.some.injEq, eq_self_iff_true, if_true,
              List.tail_cons]
            rw [if_neg (by decide)]
            rw [triviaSplit_stable (GoodI_pre hgtl)
              (show headNTS (itemRest tl ++ (']' :: s)) = true from by rw [hti]; exact hci)]
            simp only
            rw [if_neg (by
              rw [hti]
              simp only [List.cons_append, List.head?_cons, Option.some.injEq]
              exact hci1)]
            rw [ihI tl (by simp only [sizeItems, sizeItem] at hsz; omega) hgtl m s hs hlens.2]
            rfl
end JPE

namespace JPE


theorem splice_compose {X A u B : Chars} (hX : X = A ++ u ++ B) {o ln : Nat}
    (h : o + ln ≤ u.length) (c : Chars) :
    A.length + o + ln ≤ X.length ∧
      X.take (A.length + o) ++ c ++ X.drop (A.length + o + ln) =
        A ++ (u.take o ++ c ++ u.drop (o + ln)) ++ B := by
  subst hX
  refine ⟨by simp only [List.length_append]; omega, ?_⟩
  have hassoc : A ++ u ++ B = A ++ (u ++ B) := List.append_assoc A u B
  have h1 : (A ++ u ++ B).take (A.length + o) = A ++ u.take o := by
    rw [hassoc, List.take_append, List.take_append_of_le_length (by omega)]
  have h2 : (A ++ u ++ B).drop (A.length + o + ln) = u.drop (o + ln) ++ B := by
    rw [hassoc, show A.length + o + ln = A.length + (o + ln) by omega, List.drop_append,
      List.drop_append_of_le_length h]
  rw [h1, h2]
  simp [List.append_assoc]

theorem renderMems_last (m : Mem) (post : Chars) (tc : Option Chars) :
    renderMems (.last m post tc) = renderMem m ++ post ++ tcR tc := by
  cases tc <;> rfl

theorem renderItems_last (it : Item) (post : Chars) (tc : Option Chars) :
    renderItems (.last it post tc) = renderItem it ++ post ++ tcR tc := by
  cases tc <;> rfl

theorem memFind_good : (ms : Mems) → ∀ (k : String) (mo : Nat) (val : CV),
    GoodM ms → memFind ms k = some (mo, val) → GoodV val
  | .last (.mk pre kt pk pv v) post tc => by
    intro k mo val hg h
    rw [memFind] at h
    by_cases hk : keyName kt = k
    · rw [if_pos hk] at h
      simp only [Option.some.injEq, Prod.mk.injEq] at h
      rw [← h.2]
      exact hg.2.2.2.2.1
    · rw [if_neg hk] at h
      exact absurd h (by simp)
  | .cons (.mk pre kt pk pv v) post tl => by
    intro k mo val hg h
    rw [memFind] at h
    by_cases hk : keyName kt = k
    · rw [if_pos hk] at h
      simp only [Option.some.injEq, Prod.mk.injEq] at h
      rw [← h.2]
      exact hg.2.2.2.2.1
    · rw [if_neg hk] at h
      rcases hf : memFind tl k with _ | ⟨o2, n2⟩ <;> rw [hf] at h
      · exact absurd h (by simp)
      · simp only [Option.map_some', Option.some.injEq, Prod.mk.injEq] at h
        rw [← h.2]
        exact memFind_good tl k o2 n2 hg.2.2.2.2.2.2 hf
termination_by structural ms => ms

theorem itemFind_good : (its : Items) → ∀ (i : Nat) (io : Nat) (val : CV),
    GoodI its → itemFind its i = some (io, val) → GoodV val
  | .last (.mk pre v) post tc => by
    intro i io val hg h
    rw [itemFind] at h
    by_cases hi : i = 0
    · rw [if_pos hi] at h
      simp only [Option.some.injEq, Prod.mk.injEq] at h
      rw [← h.2]
      exact hg.2.1
    · rw [if_neg hi] at h
      exact absurd h (by simp)
  | .cons (.mk pre v) post tl => by
    intro i io val hg h
    rcases i with _ | j
    · rw [itemFind] at h
      simp only [Option.some.injEq, Prod.mk.injEq] at h
      rw [← h.2]
      exact hg.2.1
    · rw [itemFind] at h
      simp only at h
      rcases hf : itemFind tl j with _ | ⟨o2, n2⟩ <;> rw [hf] at h
      · exact absurd h (by simp)
      · simp only [Option.map_some', Option.some.injEq, Prod.mk.injEq] at h
        rw [← h.2]
        exact itemFind_good tl j o2 n2 hg.2.2.2 hf
termination_by structural its => its

theorem memFind_decomp : (ms : Mems) → ∀ (k : String) (mo : Nat) (val : CV),
    memFind ms k = some (mo, val) →
    ∃ A B, renderMems ms = A ++ renderCV val ++ B ∧ A.length = mo ∧
      ∀ nv, renderMems (memSet ms k nv) = A ++ renderCV nv ++ B
  | .last (.mk pre kt pk pv v) post tc => by
    intro k mo val h
    rw [memFind] at h
    by_cases hk : keyName kt = k
    · rw [if_pos hk] at h
      simp only [Option.some.injEq, Prod.mk.injEq] at h
      obtain ⟨hmo, hval⟩ := h
      refine ⟨pre ++ kt ++ pk ++ [':'] ++ pv, post ++ tcR tc, ?_, ?_, ?_⟩
      · rw [renderMems_last, renderMem, ← hval]
        simp [List.append_assoc]
      · simp only [List.length_append, List.length_cons, List.length_nil]
        omega
      · intro nv
        rw [memSet, if_pos hk, renderMems_last, renderMem]
        simp [List.append_assoc]
    · rw [if_neg hk] at h
      exact absurd h (by simp)
  | .cons (.mk pre kt pk pv v) post tl => by
    intro k mo val h
    rw [memFind] at h
    by_cases hk : keyName kt = k
    · rw [if_pos hk] at h
      simp only [Option.some.injEq, Prod.mk.injEq] at h
      obtain ⟨hmo, hval⟩ := h
      refine ⟨pre ++ kt ++ pk ++ [':'] ++ pv, post ++ ',' :: renderMems tl, ?_, ?_, ?_⟩
      · rw [renderMems, renderMem, ← hval]
        simp [List.append_assoc]
      · simp only [List.length_append, List.length_cons, List.length_nil]
        omega
      · intro nv
        rw [memSet, if_pos hk, renderMems, renderMem]
        simp [List.append_assoc]
    · rw [if_neg hk] at h
      rcases hf : memFind tl k with _ | ⟨o2, n2⟩ <;> rw [hf] at h
      · exact absurd h (by simp)
      · simp only [Option.map_some', Option.some.injEq, Prod.mk.injEq] at h
        obtain ⟨hmo, hval⟩ := h
        obtain ⟨A2, B2, hA, hlen, hset⟩ := memFind_decomp tl k o2 n2 hf
        rw [hval] at hA
        refine ⟨renderMem (.mk pre kt pk pv v) ++ post ++ [','] ++ A2, B2, ?_, ?_, ?_⟩
        · rw [renderMems, hA]
          simp [List.append_assoc]
        · simp only [List.length_append, List.length_cons, List.length_nil]
          omega
        · intro nv
          rw [memSet, if_neg hk, renderMems, hset nv]
          simp [List.append_assoc]
termination_by structural ms => ms

theorem memAppend_render : (ms : Mems) → ∀ (nm : Mem),
    ∃ E T, renderMems ms = E ++ T ∧ E.length = memEndLast ms ∧
      renderMems (memAppend ms nm) = E ++ ',' :: (renderMem nm ++ T)
  | .last m post tc => by
    intro nm
    refine ⟨renderMem m, post ++ tcR tc, ?_, rfl, ?_⟩
    · rw [renderMems_last]
      simp [List.append_assoc]
    · rw [memAppend, renderMems, renderMems_last]
      simp [List.append_assoc]
  | .cons m post tl => by
    intro nm
    obtain ⟨E2, T2, h1, h2, h3⟩ := memAppend_render tl nm
    refine ⟨renderMem m ++ post ++ [','] ++ E2, T2, ?_, ?_, ?_⟩
    · rw [renderMems, h1]
      simp [List.append_assoc]
    · simp only [List.length_append, List.length_cons, List.length_nil, memEndLast]
      omega
    · rw [memAppend, renderMems, h3]
      simp [List.append_assoc]
termination_by structural ms => ms

theorem itemFind_decomp : (its : Items) → ∀ (i : Nat) (io : Nat) (val : CV),
    itemFind its i = some (io, val) →
    ∃ A B, renderItems its = A ++ renderCV val ++ B ∧ A.length = io ∧
      ∀ nv, renderItems (itemSet its i nv) = A ++ renderCV nv ++ B
  | .last (.mk pre v) post tc => by
    intro i io val h
    rw [itemFind] at h
    by_cases hi : i = 0
    · rw [if_pos hi] at h
      simp only [Option.some.injEq, Prod.mk.injEq] at h
      obtain ⟨hmo, hval⟩ := h
      refine ⟨pre, post ++ tcR tc, ?_, hmo, ?_⟩
      · rw [renderItems_last, renderItem, ← hval]
        simp [List.append_assoc]
      · intro nv
        rw [itemSet, if_pos hi, renderItems_last, renderItem]
        simp [List.append_assoc]
    · rw [if_neg hi] at h
      exact absurd h (by simp)
  | .cons (.mk pre v) post tl => by
    intro i io val h
    rcases i with _ | j
    · rw [itemFind] at h
      simp only [Option.some.injEq, Prod.mk.injEq] at h
      obtain ⟨hmo, hval⟩ := h
      refine ⟨pre, post ++ ',' :: renderItems tl, ?_, hmo, ?_⟩
      · rw [renderItems, renderItem, ← hval]
        simp [List.append_assoc]
      · intro nv
        rw [itemSet, renderItems, renderItem]
        simp [List.append_assoc]
    · rw [itemFind] at h
      simp only at h
      rcases hf : itemFind tl j with _ | ⟨o2, n2⟩ <;> rw [hf] at h
      · exact absurd h (by simp)
      · simp only [Option.map_some', Option.some.injEq, Prod.mk.injEq] at h
        obtain ⟨hmo, hval⟩ := h
        obtain ⟨A2, B2, hA, hlen, hset⟩ := itemFind_decomp tl j o2 n2 hf
        rw [hval] at hA
        refine ⟨renderItem (.mk pre v) ++ post ++ [','] ++ A2, B2, ?_, ?_, ?_⟩
        · rw [renderItems, hA]
          simp [List.append_assoc]
        · simp only [List.length_append, List.length_cons, List.length_nil]
          omega
        · intro nv
          rw [itemSet, renderItems, hset nv]
          simp [List.append_assoc]
termination_by structural its => its

theorem itemAppend_render : (its : Items) → ∀ (ni : Item),
    ∃ E T, renderItems its = E ++ T ∧ E.length = itemEndLast its ∧
      renderItems (itemAppend its ni) = E ++ ',' :: (renderItem ni ++ T)
  | .last it post tc => by
    intro ni
    refine ⟨renderItem it, post ++ tcR tc, ?_, rfl, ?_⟩
    · rw [renderItems_last]
      simp [List.append_assoc]
    · rw [itemAppend, renderItems, renderItems_last]
      simp [List.append_assoc]
  | .cons it post tl => by
    intro ni
    obtain ⟨E2, T2, h1, h2, h3⟩ := itemAppend_render tl ni
    refine ⟨renderItem it ++ post ++ [','] ++ E2, T2, ?_, ?_, ?_⟩
    · rw [renderItems, h1]
      simp [List.append_assoc]
    · simp only [List.length_append, List.length_cons, List.length_nil, itemEndLast]
      omega
    · rw [itemAppend, renderItems, h3]
      simp [List.append_assoc]
termination_by structural its => its

theorem memFind_memSet : (ms : Mems) → ∀ (k : String) (mo : Nat) (val nv : CV),
    memFind ms k = some (mo, val) →
    ∃ mo2, memFind (memSet ms k nv) k = some (mo2, nv)
  | .last (.mk pre kt pk pv v) post tc => by
    intro k mo val nv h
    rw [memFind] at h
    by_cases hk : keyName kt = k
    · rw [memSet, if_pos hk, memFind, if_pos hk]
      exact ⟨_, rfl⟩
    · rw [if_neg hk] at h
      exact absurd h (by simp)
  | .cons (.mk pre kt pk pv v) post tl => by
    intro k mo val nv h
    rw [memFind] at h
    by_cases hk : keyName kt = k
    · rw [memSet, if_pos hk, memFind, if_pos hk]
      exact ⟨_, rfl⟩
    · rw [if_neg hk] at h
      rcases hf : memFind tl k with _ | ⟨o2, n2⟩ <;> rw [hf] at h
      · exact absurd h (by simp)
      · obtain ⟨mo2, hm2⟩ := memFind_memSet tl k o2 n2 nv hf
        rw [memSet, if_neg hk, memFind, if_neg hk, hm2]
        exact ⟨_, rfl⟩
termination_by structural ms => ms

theorem memFind_memAppend : (ms : Mems) →
    ∀ (k : String) (npre nkt npk npv : Chars) (nV : CV),
    memFind ms k = none → keyName nkt = k →
    ∃ mo2, memFind (memAppend ms (.mk npre nkt npk npv nV)) k = some (mo2, nV)
  | .last (.mk pre kt pk pv v) post tc => by
    intro k npre nkt npk npv nV h hnk
    rw [memFind] at h
    by_cases hk : keyName kt = k
    · rw [if_pos hk] at h
      exact absurd h (by simp)
    · rw [memAppend, memFind, if_neg hk, memFind, if_pos hnk]
      exact ⟨_, rfl⟩
  | .cons (.mk pre kt pk pv v) post tl => by
    intro k npre nkt npk npv nV h hnk
    rw [memFind] at h
    by_cases hk : keyName kt = k
    · rw [if_pos hk] at h
      exact absurd h (by simp)
    · rw [if_neg hk] at h
      have hf : memFind tl k = none := by
        rcases hf : memFind tl k with _ | ⟨o2, n2⟩
        · rfl
        · rw [hf] at h
          exact absurd h (by simp)
      obtain ⟨mo2, hm2⟩ := memFind_memAppend tl k npre nkt npk npv nV hf hnk
      rw [memAppend, memFind, if_neg hk, hm2]
      exact ⟨_, rfl⟩
termination_by structural ms => ms

theorem itemFind_itemSet : (its : Items) → ∀ (i : Nat) (io : Nat) (val nv : CV),
    itemFind its i = some (io, val) →
    ∃ io2, itemFind (itemSet its i nv) i = some (io2, nv)
  | .last (.mk pre v) post tc => by
    intro i io val nv h
    rw [itemFind] at h
    by_cases hi : i = 0
    · subst hi
      rw [itemSet, if_pos rfl, itemFind, if_pos rfl]
      exact ⟨_, rfl⟩
    · rw [if_neg hi] at h
      exact absurd h (by simp)
  | .cons (.mk pre v) post tl => by
    intro i io val nv h
    rcases i with _ | j
    · rw [itemSet, itemFind]
      exact ⟨_, rfl⟩
    · rw [itemFind] at h
      simp only at h
      rcases hf : itemFind tl j with _ | ⟨o2, n2⟩ <;> rw [hf] at h
      · exact absurd h (by simp)
      · obtain ⟨io2, hm2⟩ := itemFind_itemSet tl j o2 n2 nv hf
        rw [itemSet, itemFind]
        simp only [hm2, Option.map_some']
        exact ⟨_, rfl⟩
termination_by structural its => its

theorem itemFind_itemAppend : (its : Items) → ∀ (npre : Chars) (nV : CV),
    ∃ io2, itemFind (itemAppend its (.mk npre nV)) (itemLen its) = some (io2, nV)
  | .last (.mk pre v) post tc => by
    intro npre nV
    rw [itemAppend, itemLen, itemFind]
    simp only [itemFind, if_pos rfl, Option.map_some']
    exact ⟨_, rfl⟩
  | .cons (.mk pre v) post tl => by
    intro npre nV
    obtain ⟨io2, hm2⟩ := itemFind_itemAppend tl npre nV
    rw [itemAppend, itemLen, show 1 + itemLen tl = itemLen tl + 1 from Nat.add_comm 1 _,
      itemFind]
    simp only [hm2, Option.map_some']
    exact ⟨_, rfl⟩
termination_by structural its => its

theorem GoodM_memSet : (ms : Mems) → ∀ (k : String) (nv : CV),
    GoodM ms → GoodV nv → GoodM (memSet ms k nv)
  | .last (.mk pre kt pk pv v) post tc => by
    intro k nv hg hnv
    rw [memSet]
    by_cases hk : keyName kt = k
    · rw [if_pos hk]
      exact ⟨hg.1, hg.2.1, hg.2.2.1, hg.2.2.2.1, hnv, hg.2.2.2.2.2⟩
    · rw [if_neg hk]
      exact hg
  | .cons (.mk pre kt pk pv v) post tl => by
    intro k nv hg hnv
    rw [memSet]
    by_cases hk : keyName kt = k
    · rw [if_pos hk]
      exact ⟨hg.1, hg.2.1, hg.2.2.1, hg.2.2.2.1, hnv, hg.2.2.2.2.2⟩
    · rw [if_neg hk]
      exact ⟨hg.1, hg.2.1, hg.2.2.1, hg.2.2.2.1, hg.2.2.2.2.1, hg.2.2.2.2.2.1,
        GoodM_memSet tl k nv hg.2.2.2.2.2.2 hnv⟩
termination_by structural ms => ms

theorem GoodM_memAppend : (ms : Mems) → ∀ (nm : Mem),
    GoodM ms → GoodMem nm → GoodM (memAppend ms nm)
  | .last (.mk pre kt pk pv v) post tc => by
    intro nm hg hnm
    cases nm with
    | mk npre nkt npk npv nV =>
      rw [memAppend]
      exact ⟨hg.1, hg.2.1, hg.2.2.1, hg.2.2.2.1, hg.2.2.2.2.1, TriviaOK_nil,
        hnm.1, hnm.2.1, hnm.2.2.1, hnm.2.2.2.1, hnm.2.2.2.2, hg.2.2.2.2.2.1,
        hg.2.2.2.2.2.2⟩
  | .cons (.mk pre kt pk pv v) post tl => by
    intro nm hg hnm
    rw [memAppend]
    exact ⟨hg.1, hg.2.1, hg.2.2.1, hg.2.2.2.1, hg.2.2.2.2.1, hg.2.2.2.2.2.1,
      GoodM_memAppend tl nm hg.2.2.2.2.2.2 hnm⟩
termination_by structural ms => ms

theorem GoodI_itemSet : (its : Items) → ∀ (i : Nat) (nv : CV),
    GoodI its → GoodV nv → GoodI (itemSet its i nv)
  | .last (.mk pre v) post tc => by
    intro i nv hg hnv
    rw [itemSet]
    by_cases hi : i = 0
    · rw [if_pos hi]
      exact ⟨hg.1, hnv, hg.2.2⟩
    · rw [if_neg hi]
      exact hg
  | .cons (.mk pre v) post tl => by
    intro i nv hg hnv
    rcases i with _ | j
    · rw [itemSet]
      exact ⟨hg.1, hnv, hg.2.2⟩
    · rw [itemSet]
      exact ⟨hg.1, hg.2.1, hg.2.2.1, GoodI_itemSet tl j nv hg.2.2.2 hnv⟩
termination_by structural its => its

theorem GoodI_itemAppend : (its : Items) → ∀ (ni : Item),
    GoodI its → GoodItem ni → GoodI (itemAppend its ni)
  | .last (.mk pre v) post tc => by
    intro ni hg hni
    cases ni with
    | mk npre nV =>
      rw [itemAppend]
      exact ⟨hg.1, hg.2.1, TriviaOK_nil, hni.1, hni.2, hg.2.2.1, hg.2.2.2⟩
  | .cons (.mk pre v) post tl => by
    intro ni hg hni
    rw [itemAppend]
    exact ⟨hg.1, hg.2.1, hg.2.2.1, GoodI_itemAppend tl ni hg.2.2.2 hni⟩
termination_by structural its => its

theorem wm_id (fmt : FormattingOptions) (V : JsonValue) : ∀ (rest : List Seg) (d : Nat),
    wrapOK rest = true →
    ∃ o ln c, wmCV fmt V (cvOfValue fmt (wrapJ rest V) d) d rest = some (o, ln, c) ∧
      o + ln ≤ (renderCV (cvOfValue fmt (wrapJ rest V) d)).length ∧
      (renderCV (cvOfValue fmt (wrapJ rest V) d)).take o ++ c ++
          (renderCV (cvOfValue fmt (wrapJ rest V) d)).drop (o + ln)
        = renderCV (cvOfValue fmt (wrapJ rest V) d) := by
  intro rest
  induction rest with
  | nil =>
    intro d _
    refine ⟨0, (renderCV (cvOfValue fmt (wrapJ [] V) d)).length,
      renderCV (cvOfValue fmt V d), ?_, by omega, ?_⟩
    · rw [wmCV]
    · simp [wrapJ]
  | cons sg r ih =>
    cases sg with
    | key k =>
      intro d hw
      rw [wrapOK] at hw
      obtain ⟨o, ln, c, h1, h2, h3⟩ := ih (d + 1) hw
      have hcv : cvOfValue fmt (wrapJ (.key k :: r) V) d
          = .obj (.mems (.last (.mk (nlInd fmt (d + 1)) (strTok k) [] [' ']
              (cvOfValue fmt (wrapJ r V) (d + 1))) (nlInd fmt d) none)) := by
        rw [wrapJ, cvOfValue, cvMems, cvMems]
      rw [hcv]
      have hmf : memFind (.last (.mk (nlInd fmt (d + 1)) (strTok k) [] [' ']
          (cvOfValue fmt (wrapJ r V) (d + 1))) (nlInd fmt d) none) k
          = some ((nlInd fmt (d + 1)).length + (strTok k).length + ([] : Chars).length + 1
              + ([' '] : Chars).length, cvOfValue fmt (wrapJ r V) (d + 1)) := by
        rw [memFind, if_pos (keyName_strTok k)]
      obtain ⟨A, B, hA, hlen, _⟩ := memFind_decomp _ k _ _ hmf
      have hX : renderCV (.obj (.mems (.last (.mk (nlInd fmt (d + 1)) (strTok k) [] [' ']
            (cvOfValue fmt (wrapJ r V) (d + 1))) (nlInd fmt d) none)))
          = ('{' :: A) ++ renderCV (cvOfValue fmt (wrapJ r V) (d + 1)) ++ (B ++ ['}']) := by
        rw [renderCV, renderObjI, hA]
        simp [List.append_assoc]
      obtain ⟨hb, heq⟩ := splice_compose hX h2 c
      rw [h3] at heq
      refine ⟨('{' :: A).length + o, ln, c, ?_, ?_, ?_⟩
      · rw [wmCV, hmf]
        simp only
        rw [h1, Option.map_some']
        simp only [Option.some.injEq, Prod.mk.injEq]
        refine ⟨?_, trivial⟩
        simp only [List.length_cons, List.length_nil] at hlen ⊢
        omega
      · rw [show ('{' :: A).length + o + ln = A.length + 1 + o + ln from by
          simp only [List.length_cons]]
        rw [hX]
        simp only [List.length_append, List.length_cons]
        omega
      · rw [heq]
        exact hX.symm
    | idx i =>
      intro d hw
      simp only [wrapOK, Bool.and_eq_true, decide_eq_true_eq] at hw
      obtain ⟨hi0, hw⟩ := hw
      subst hi0
      obtain ⟨o, ln, c, h1, h2, h3⟩ := ih (d + 1) hw
      have hcv : cvOfValue fmt (wrapJ (.idx 0 :: r) V) d
          = .arr (.items (.last (.mk (nlInd fmt (d + 1))
              (cvOfValue fmt (wrapJ r V) (d + 1))) (nlInd fmt d) none)) := by
        rw [wrapJ, cvOfValue, cvItems, cvItems]
      rw [hcv]
      have hmf : itemFind (.last (.mk (nlInd fmt (d + 1))
          (cvOfValue fmt (wrapJ r V) (d + 1))) (nlInd fmt d) none) 0
          = some ((nlInd fmt (d + 1)).length, cvOfValue fmt (wrapJ r V) (d + 1)) := by
        rw [itemFind, if_pos rfl]
      obtain ⟨A, B, hA, hlen, _⟩ := itemFind_decomp _ 0 _ _ hmf
      have hX : renderCV (.arr (.items (.last (.mk (nlInd fmt (d + 1))
            (cvOfValue fmt (wrapJ r V) (d + 1))) (nlInd fmt d) none)))
          = ('[' :: A) ++ renderCV (cvOfValue fmt (wrapJ r V) (d + 1)) ++ (B ++ [']']) := by
        rw [renderCV, renderArrI, hA]
        simp [List.append_assoc]
      obtain ⟨hb, heq⟩ := splice_compose hX h2 c
      rw [h3] at heq
      refine ⟨('[' :: A).length + o, ln, c, ?_, ?_, ?_⟩
      · rw [wmCV, hmf]
        simp only
        rw [h1, Option.map_some']
        simp only [Option.some.injEq, Prod.mk.injEq]
        refine ⟨?_, trivial⟩
        simp only [List.length_cons, List.length_nil] at hlen ⊢
        omega
      · rw [show ('[' :: A).length + o + ln = A.length + 1 + o + ln from by
          simp only [List.length_cons]]
        rw [hX]
        simp only [List.length_append, List.length_cons]
        omega
      · rw [heq]
        exact hX.symm

theorem wm_surg (fmt : FormattingOptions) (V : JsonValue) : ∀ (P : List Seg) (cv : CV) (d : Nat),
    GoodV cv → wmOK cv P = true →
    ∃ o ln c cv', wmCV fmt V cv d P = some (o, ln, c) ∧ surgCV fmt V cv d P = some cv' ∧
      GoodV cv' ∧ o + ln ≤ (renderCV cv).length ∧
      (renderCV cv).take o ++ c ++ (renderCV cv).drop (o + ln) = renderCV cv' := by
  intro P
  induction P with
  | nil =>
    intro cv d hg _
    refine ⟨0, (renderCV cv).length, renderCV (cvOfValue fmt V d), cvOfValue fmt V d,
      ?_, ?_, GoodV_cvOfValue fmt V d, by omega, ?_⟩
    · rw [wmCV]
    · rw [surgCV]
    · simp
  | cons sg r ih =>
    intro cv d hg hok
    cases sg with
    | key k =>
      cases cv with
      | lit txt => simp [wmOK] at hok
      | arr i => cases i <;> simp [wmOK] at hok
      | obj i =>
        cases i with
        | nil pad =>
          rw [wmOK] at hok
          have e1 : (('{' :: (pad ++ ['}'])) : Chars).take (1 + pad.length) = '{' :: pad := by
            rw [show 1 + pad.length = pad.length + 1 from Nat.add_comm 1 _,
              List.take_succ_cons, List.take_left]
          have e2 : (('{' :: (pad ++ ['}'])) : Chars).drop (1 + pad.length + 0) = ['}'] := by
            rw [Nat.add_zero, show 1 + pad.length = pad.length + 1 from Nat.add_comm 1 _,
              List.drop_succ_cons, List.drop_left]
          refine ⟨1 + pad.length, 0,
            nlInd fmt (d + 1) ++ memberText fmt V (d + 1) k r ++ nlInd fmt d,
            .obj (.mems (.last (.mk (pad ++ nlInd fmt (d + 1)) (strTok k) [] [' ']
              (cvOfValue fmt (wrapJ r V) (d + 1))) (nlInd fmt d) none)), ?_, ?_, ?_, ?_, ?_⟩
          · rw [wmCV]
          · rw [surgCV]
          · exact ⟨TriviaOK_append hg (TriviaOK_nlInd fmt (d + 1)), KeyOK_strTok k,
              TriviaOK_nil, TriviaOK_space, GoodV_cvOfValue _ _ _, TriviaOK_nlInd fmt d,
              trivial⟩
          · rw [renderCV, renderObjI]
            simp only [List.length_cons, List.length_append]
            omega
          · rw [renderCV, renderObjI, e1, e2, renderCV, renderObjI, renderMems_last,
              renderMem, memberText, tcR]
            simp [List.append_assoc]
        | mems ms =>
          rw [wmOK] at hok
          rcases hf : memFind ms k with _ | ⟨mo, val⟩ <;> rw [hf] at hok <;> simp only at hok
          · -- key not present: append a synthesized member
            obtain ⟨E, T, hE, hElen, hEapp⟩ := memAppend_render ms
              (.mk (nlInd fmt (d + 1)) (strTok k) [] [' ']
                (cvOfValue fmt (wrapJ r V) (d + 1)))
            have hX : renderCV (CV.obj (.mems ms))
                = ('{' :: E) ++ ([] : Chars) ++ (T ++ ['}']) := by
              rw [renderCV, renderObjI, hE]
              simp [List.append_assoc]
            obtain ⟨hb, heq⟩ := splice_compose hX
              (show 0 + 0 ≤ ([] : Chars).length by simp)
              (',' :: (nlInd fmt (d + 1) ++ memberText fmt V (d + 1) k r))
            simp only [List.take_nil, List.drop_nil, List.append_nil, List.nil_append] at heq
            refine ⟨1 + memEndLast ms, 0,
              ',' :: (nlInd fmt (d + 1) ++ memberText fmt V (d + 1) k r),
              .obj (.mems (memAppend ms (.mk (nlInd fmt (d + 1)) (strTok k) [] [' ']
                (cvOfValue fmt (wrapJ r V) (d + 1))))), ?_, ?_, ?_, ?_, ?_⟩
            · rw [wmCV, hf]
            · rw [surgCV, hf]
            · exact GoodM_memAppend ms _ hg ⟨TriviaOK_nlInd fmt (d + 1), KeyOK_strTok k,
                TriviaOK_nil, TriviaOK_space, GoodV_cvOfValue _ _ _⟩
            · simp only [List.length_cons, List.length_nil, Nat.add_zero] at hb
              rw [← hElen]
              omega
            · rw [show 1 + memEndLast ms = ('{' :: E).length + 0 from by
                simp only [List.length_cons, hElen]; omega,
                show ('{' :: E).length + 0 + 0 = ('{' :: E).length + 0 from rfl, heq,
                renderCV, renderObjI, hEapp, renderMem, memberText]
              simp [List.append_assoc]
          · -- key present: recurse into the member value
            obtain ⟨o, ln, c, nv, h1, h2, h3, h4, h5⟩ :=
              ih val (d + 1) (memFind_good ms k mo val hg hf) hok
            obtain ⟨A, B, hA, hlen, hset⟩ := memFind_decomp ms k mo val hf
            have hX : renderCV (CV.obj (.mems ms))
                = ('{' :: A) ++ renderCV val ++ (B ++ ['}']) := by
              rw [renderCV, renderObjI, hA]
              simp [List.append_assoc]
            obtain ⟨hb, heq⟩ := splice_compose hX h4 c
            refine ⟨1 + mo + o, ln, c, .obj (.mems (memSet ms k nv)), ?_, ?_,
              GoodM_memSet ms k nv hg h3, ?_, ?_⟩
            · rw [wmCV, hf]
              simp only
              rw [h1, Option.map_some']
            · rw [surgCV, hf]
              simp only
              rw [h2, Option.map_some']
            · simp only [List.length_cons] at hb
              omega
            · rw [show 1 + mo + o = ('{' :: A).length + o from by
                simp only [List.length_cons, hlen]; omega,
                show ('{' :: A).length + o + ln = ('{' :: A).length + o + ln from rfl, heq, h5,
                renderCV, renderObjI, hset nv]
              simp [List.append_assoc]
    | idx i =>
      cases cv with
      | lit txt => simp [wmOK] at hok
      | obj oi => cases oi <;> simp [wmOK] at hok
      | arr ai =>
        cases ai with
        | nil pad =>
          simp only [wmOK, Bool.and_eq_true, decide_eq_true_eq] at hok
          have e1 : (('[' :: (pad ++ [']'])) : Chars).take (1 + pad.length) = '[' :: pad := by
            rw [show 1 + pad.length = pad.length + 1 from Nat.add_comm 1 _,
              List.take_succ_cons, List.take_left]
          have e2 : (('[' :: (pad ++ [']'])) : Chars).drop (1 + pad.length + 0) = [']'] := by
            rw [Nat.add_zero, show 1 + pad.length = pad.length + 1 from Nat.add_comm 1 _,
              List.drop_succ_cons, List.drop_left]
          refine ⟨1 + pad.length, 0,
            nlInd fmt (d + 1) ++ renderCV (cvOfValue fmt (wrapJ r V) (d + 1)) ++ nlInd fmt d,
            .arr (.items (.last (.mk (pad ++ nlInd fmt (d + 1))
              (cvOfValue fmt (wrapJ r V) (d + 1))) (nlInd fmt d) none)), ?_, ?_, ?_, ?_, ?_⟩
          · rw [wmCV]
          · rw [surgCV]
          · exact ⟨TriviaOK_append hg (TriviaOK_nlInd fmt (d + 1)),
              GoodV_cvOfValue _ _ _, TriviaOK_nlInd fmt d, trivial⟩
          · rw [renderCV, renderArrI]
            simp only [List.length_cons, List.length_append]
            omega
          · rw [renderCV, renderArrI, e1, e2, renderCV, renderArrI, renderItems_last,
              renderItem, tcR]
            simp [List.append_assoc]
        | items its =>
          rw [wmOK] at hok
          rcases hf : itemFind its i with _ | ⟨io, val⟩ <;> rw [hf] at hok <;> simp only at hok
          · -- index past the end: append a synthesized item
            obtain ⟨E, T, hE, hElen, hEapp⟩ := itemAppend_render its
              (.mk (nlInd fmt (d + 1)) (cvOfValue fmt (wrapJ r V) (d + 1)))
            have hX : renderCV (CV.arr (.items its))
                = ('[' :: E) ++ ([] : Chars) ++ (T ++ [']']) := by
              rw [renderCV, renderArrI, hE]
              simp [List.append_assoc]
            obtain ⟨hb, heq⟩ := splice_compose hX
              (show 0 + 0 ≤ ([] : Chars).length by simp)
              (',' :: (nlInd fmt (d + 1) ++ renderCV (cvOfValue fmt (wrapJ r V) (d + 1))))
            simp only [List.take_nil, List.drop_nil, List.append_nil, List.nil_append] at heq
            refine ⟨1 + itemEndLast its, 0,
              ',' :: (nlInd fmt (d + 1) ++ renderCV (cvOfValue fmt (wrapJ r V) (d + 1))),
              .arr (.items (itemAppend its (.mk (nlInd fmt (d + 1))
                (cvOfValue fmt (wrapJ r V) (d + 1))))), ?_, ?_, ?_, ?_, ?_⟩
            · rw [wmCV, hf]
            · rw [surgCV, hf]
            · exact GoodI_itemAppend its _ hg ⟨TriviaOK_nlInd fmt (d + 1),
                GoodV_cvOfValue _ _ _⟩
            · simp only [List.length_cons, List.length_nil, Nat.add_zero] at hb
              rw [← hElen]
              omega
            · rw [show 1 + itemEndLast its = ('[' :: E).length + 0 from by
                simp only [List.length_cons, hElen]; omega,
                show ('[' :: E).length + 0 + 0 = ('[' :: E).length + 0 from rfl, heq,
                renderCV, renderArrI, hEapp, renderItem]
              simp [List.append_assoc]
          · -- index in bounds: recurse into the item value
            obtain ⟨o, ln, c, nv, h1, h2, h3, h4, h5⟩ :=
              ih val (d + 1) (itemFind_good its i io val hg hf) hok
            obtain ⟨A, B, hA, hlen, hset⟩ := itemFind_decomp its i io val hf
            have hX : renderCV (CV.arr (.items its))
                = ('[' :: A) ++ renderCV val ++ (B ++ [']']) := by
              rw [renderCV, renderArrI, hA]
              simp [List.append_assoc]
            obtain ⟨hb, heq⟩ := splice_compose hX h4 c
            refine ⟨1 + io + o, ln, c, .arr (.items (itemSet its i nv)), ?_, ?_,
              GoodI_itemSet its i nv hg h3, ?_, ?_⟩
            · rw [wmCV, hf]
              simp only
              rw [h1, Option.map_some']
            · rw [surgCV, hf]
              simp only
              rw [h2, Option.map_some']
            · simp only [List.length_cons] at hb
              omega
            · rw [show 1 + io + o = ('[' :: A).length + o from by
                simp only [List.length_cons, hlen]; omega,
                show ('[' :: A).length + o + ln = ('[' :: A).length + o + ln from rfl, heq, h5,
                renderCV, renderArrI, hset nv]
              simp [List.append_assoc]

theorem surg_wm_id (fmt : FormattingOptions) (V : JsonValue) :
    ∀ (P : List Seg) (cv : CV) (d : Nat) (cv' : CV),
    GoodV cv → wmOK cv P = true → surgCV fmt V cv d P = some cv' →
    ∃ o ln c, wmCV fmt V cv' d P = some (o, ln, c) ∧ o + ln ≤ (renderCV cv').length ∧
      (renderCV cv').take o ++ c ++ (renderCV cv').drop (o + ln) = renderCV cv' := by
  intro P
  induction P with
  | nil =>
    intro cv d cv' _ _ hs
    rw [surgCV] at hs
    simp only [Option.some.injEq] at hs
    subst hs
    refine ⟨0, (renderCV (cvOfValue fmt V d)).length, renderCV (cvOfValue fmt V d), ?_,
      by omega, ?_⟩
    · rw [wmCV]
    · simp
  | cons sg r ih =>
    intro cv d cv' hg hok hs
    cases sg with
    | key k =>
      cases cv with
      | lit txt => simp [wmOK] at hok
      | arr i => cases i <;> simp [wmOK] at hok
      | obj i =>
        cases i with
        | nil pad =>
          rw [wmOK] at hok
          rw [surgCV] at hs
          simp only [Option.some.injEq] at hs
          subst hs
          obtain ⟨o, ln, c, h1, h2, h3⟩ := wm_id fmt V r (d + 1) hok
          have hmf : memFind (.last (.mk (pad ++ nlInd fmt (d + 1)) (strTok k) [] [' ']
              (cvOfValue fmt (wrapJ r V) (d + 1))) (nlInd fmt d) none) k
              = some ((pad ++ nlInd fmt (d + 1)).length + (strTok k).length
                  + ([] : Chars).length + 1 + ([' '] : Chars).length,
                cvOfValue fmt (wrapJ r V) (d + 1)) := by
            rw [memFind, if_pos (keyName_strTok k)]
          obtain ⟨A, B, hA, hlen, _⟩ := memFind_decomp _ k _ _ hmf
          have hX : renderCV (CV.obj (.mems (.last (.mk (pad ++ nlInd fmt (d + 1)) (strTok k)
                [] [' '] (cvOfValue fmt (wrapJ r V) (d + 1))) (nlInd fmt d) none)))
              = ('{' :: A) ++ renderCV (cvOfValue fmt (wrapJ r V) (d + 1)) ++ (B ++ ['}']) := by
            rw [renderCV, renderObjI, hA]
            simp [List.append_assoc]
          obtain ⟨hb, heq⟩ := splice_compose hX h2 c
          rw [h3] at heq
          refine ⟨('{' :: A).length + o, ln, c, ?_, ?_, ?_⟩
          · rw [wmCV, hmf]
            simp only
            rw [h1, Option.map_some']
            simp only [Option.some.injEq, Prod.mk.injEq]
            refine ⟨?_, trivial⟩
            simp only [List.length_cons, List.length_nil, List.length_append] at hlen ⊢
            omega
          · rw [show ('{' :: A).length + o + ln = A.length + 1 + o + ln from by
              simp only [List.length_cons]]
            rw [hX]
            simp only [List.length_append, List.length_cons]
            omega
          · rw [heq]
            exact hX.symm
        | mems ms =>
          rw [wmOK] at hok
          rw [surgCV] at hs
          rcases hf : memFind ms k with _ | ⟨mo, val⟩ <;> rw [hf] at hok hs <;>
            simp only at hok hs
          · simp only [Option.some.injEq] at hs
            subst hs
            obtain ⟨o, ln, c, h1, h2, h3⟩ := wm_id fmt V r (d + 1) hok
            obtain ⟨mo2, hm2⟩ := memFind_memAppend ms k (nlInd fmt (d + 1)) (strTok k) []
              [' '] (cvOfValue fmt (wrapJ r V) (d + 1)) hf (keyName_strTok k)
            obtain ⟨A, B, hA, hlen, _⟩ := memFind_decomp _ k _ _ hm2
            have hX : renderCV (CV.obj (.mems (memAppend ms (.mk (nlInd fmt (d + 1))
                  (strTok k) [] [' '] (cvOfValue fmt (wrapJ r V) (d + 1))))))
                = ('{' :: A) ++ renderCV (cvOfValue fmt (wrapJ r V) (d + 1)) ++ (B ++ ['}']) := by
              rw [renderCV, renderObjI, hA]
              simp [List.append_assoc]
            obtain ⟨hb, heq⟩ := splice_compose hX h2 c
            rw [h3] at heq
            refine ⟨('{' :: A).length + o, ln, c, ?_, ?_, ?_⟩
            · rw [wmCV, hm2]
              simp only
              rw [h1, Option.map_some']
              simp only [Option.some.injEq, Prod.mk.injEq]
              refine ⟨?_, trivial⟩
              simp only [List.length_cons, hlen]
              omega
            · rw [show ('{' :: A).length + o + ln = A.length + 1 + o + ln from by
                simp only [List.length_cons]]
              rw [hX]
              simp only [List.length_append, List.length_cons]
              omega
            · rw [heq]
              exact hX.symm
          · rcases hs2 : surgCV fmt V val (d + 1) r with _ | nv <;> rw [hs2] at hs
            · exact absurd hs (by simp)
            · simp only [Option.map_some', Option.some.injEq] at hs
              subst hs
              obtain ⟨o, ln, c, h1, h2, h3⟩ :=
                ih val (d + 1) nv (memFind_good ms k mo val hg hf) hok hs2
              obtain ⟨mo2, hm2⟩ := memFind_memSet ms k mo val nv hf
              obtain ⟨A, B, hA, hlen, _⟩ := memFind_decomp _ k _ _ hm2
              have hX : renderCV (CV.obj (.mems (memSet ms k nv)))
                  = ('{' :: A) ++ renderCV nv ++ (B ++ ['}']) := by
                rw [renderCV, renderObjI, hA]
                simp [List.append_assoc]
              obtain ⟨hb, heq⟩ := splice_compose hX h2 c
              rw [h3] at heq
              refine ⟨('{' :: A).length + o, ln, c, ?_, ?_, ?_⟩
              · rw [wmCV, hm2]
                simp only
                rw [h1, Option.map_some']
                simp only [Option.some.injEq, Prod.mk.injEq]
                refine ⟨?_, trivial⟩
                simp only [List.length_cons, hlen]
                omega
              · rw [show ('{' :: A).length + o + ln = A.length + 1 + o + ln from by
                  simp only [List.length_cons]]
                rw [hX]
                simp only [List.length_append, List.length_cons]
                omega
              · rw [heq]
                exact hX.symm
    | idx i =>
      cases cv with
      | lit txt => simp [wmOK] at hok
      | obj oi => cases oi <;> simp [wmOK] at hok
      | arr ai =>
        cases ai with
        | nil pad =>
          simp only [wmOK, Bool.and_eq_true, decide_eq_true_eq] at hok
          obtain ⟨hi0, hok⟩ := hok
          subst hi0
          rw [surgCV] at hs
          simp only [Option.some.injEq] at hs
          subst hs
          obtain ⟨o, ln, c, h1, h2, h3⟩ := wm_id fmt V r (d + 1) hok
          have hmf : itemFind (.last (.mk (pad ++ nlInd fmt (d + 1))
              (cvOfValue fmt (wrapJ r V) (d + 1))) (nlInd fmt d) none) 0
              = some ((pad ++ nlInd fmt (d + 1)).length,
                cvOfValue fmt (wrapJ r V) (d + 1)) := by
            rw [itemFind, if_pos rfl]
          obtain ⟨A, B, hA, hlen, _⟩ := itemFind_decomp _ 0 _ _ hmf
          have hX : renderCV (CV.arr (.items (.last (.mk (pad ++ nlInd fmt (d + 1))
                (cvOfValue fmt (wrapJ r V) (d + 1))) (nlInd fmt d) none)))
              = ('[' :: A) ++ renderCV (cvOfValue fmt (wrapJ r V) (d + 1)) ++ (B ++ [']']) := by
            rw [renderCV, renderArrI, hA]
            simp [List.append_assoc]
          obtain ⟨hb, heq⟩ := splice_compose hX h2 c
          rw [h3] at heq
          refine ⟨('[' :: A).length + o, ln, c, ?_, ?_, ?_⟩
          · rw [wmCV, hmf]
            simp only
            rw [h1, Option.map_some']
            simp only [Option.some.injEq, Prod.mk.injEq]
            refine ⟨?_, trivial⟩
            simp only [List.length_cons, List.length_append] at hlen ⊢
            omega
          · rw [show ('[' :: A).length + o + ln = A.length + 1 + o + ln from by
              simp only [List.length_cons]]
            rw [hX]
            simp only [List.length_append, List.length_cons]
            omega
          · rw [heq]
            exact hX.symm
        | items its =>
          rw [wmOK] at hok
          rw [surgCV] at hs
          rcases hf : itemFind its i with _ | ⟨io, val⟩ <;> rw [hf] at hok hs <;>
            simp only at hok hs
          · simp only [Bool.and_eq_true, decide_eq_true_eq] at hok
            obtain ⟨hi0, hok⟩ := hok
            subst hi0
            simp only [Option.some.injEq] at hs
            subst hs
            obtain ⟨o, ln, c, h1, h2, h3⟩ := wm_id fmt V r (d + 1) hok
            obtain ⟨io2, hm2⟩ := itemFind_itemAppend its (nlInd fmt (d + 1))
              (cvOfValue fmt (wrapJ r V) (d + 1))
            obtain ⟨A, B, hA, hlen, _⟩ := itemFind_decomp _ _ _ _ hm2
            have hX : renderCV (CV.arr (.items (itemAppend its (.mk (nlInd fmt (d + 1))
                  (cvOfValue fmt (wrapJ r V) (d + 1))))))
                = ('[' :: A) ++ renderCV (cvOfValue fmt (wrapJ r V) (d + 1)) ++ (B ++ [']']) := by
              rw [renderCV, renderArrI, hA]
              simp [List.append_assoc]
            obtain ⟨hb, heq⟩ := splice_compose hX h2 c
            rw [h3] at heq
            refine ⟨('[' :: A).length + o, ln, c, ?_, ?_, ?_⟩
            · rw [wmCV, hm2]
              simp only
              rw [h1, Option.map_some']
              simp only [Option.some.injEq, Prod.mk.injEq]
              refine ⟨?_, trivial⟩
              simp only [List.length_cons, hlen]
              omega
            · rw [show ('[' :: A).length + o + ln = A.length + 1 + o + ln from by
                simp only [List.length_cons]]
              rw [hX]
              simp only [List.length_append, List.length_cons]
              omega
            · rw [heq]
              exact hX.symm
          · rcases hs2 : surgCV fmt V val (d + 1) r with _ | nv <;> rw [hs2] at hs
            · exact absurd hs (by simp)
            · simp only [Option.map_some', Option.some.injEq] at hs
              subst hs
              obtain ⟨o, ln, c, h1, h2, h3⟩ :=
                ih val (d + 1) nv (itemFind_good its i io val hg hf) hok hs2
              obtain ⟨io2, hm2⟩ := itemFind_itemSet its i io val nv hf
              obtain ⟨A, B, hA, hlen, _⟩ := itemFind_decomp _ _ _ _ hm2
              have hX : renderCV (CV.arr (.items (itemSet its i nv)))
                  = ('[' :: A) ++ renderCV nv ++ (B ++ [']']) := by
                rw [renderCV, renderArrI, hA]
                simp [List.append_assoc]
              obtain ⟨hb, heq⟩ := splice_compose hX h2 c
              rw [h3] at heq
              refine ⟨('[' :: A).length + o, ln, c, ?_, ?_, ?_⟩
              · rw [wmCV, hm2]
                simp only
                rw [h1, Option.map_some']
                simp only [Option.some.injEq, Prod.mk.injEq]
                refine ⟨?_, trivial⟩
                simp only [List.length_cons, hlen]
                omega
              · rw [show ('[' :: A).length + o + ln = A.length + 1 + o + ln from by
                  simp only [List.length_cons]]
                rw [hX]
                simp only [List.length_append, List.length_cons]
                omega
              · rw [heq]
                exact hX.symm

theorem splice_doc {lead u trail c : Chars} {o ln : Nat} (h : o + ln ≤ u.length) :
    splice (lead ++ u ++ trail) ⟨lead.length + o, ln, c⟩
      = lead ++ (u.take o ++ c ++ u.drop (o + ln)) ++ trail := by
  have hassoc : lead ++ u ++ trail = lead ++ (u ++ trail) := List.append_assoc lead u trail
  have e1 : (lead ++ u ++ trail).take (lead.length + o) = lead ++ u.take o := by
    rw [hassoc, List.take_append, List.take_append_of_le_length (by omega)]
  have e2 : (lead ++ u ++ trail).drop (lead.length + o + ln) = u.drop (o + ln) ++ trail := by
    rw [hassoc, show lead.length + o + ln = lead.length + (o + ln) from by omega,
      List.drop_append, List.drop_append_of_le_length h]
  rw [splice]
  simp only
  rw [e1, e2]
  simp [List.append_assoc]

theorem parseDoc_stable {lead trail : Chars} {root : CV}
    (hl : TriviaOK lead) (hr : GoodV root) (ht : headBrk trail = true)
    (hsk : ∀ n, trail.length < n → skipTrivia n trail = trail.length) :
    parseDoc (lead ++ renderCV root ++ trail) = some ⟨lead, root, trail⟩ := by
  obtain ⟨c0, t0, hrr, hc0⟩ := renderCV_head hr
  have hts : triviaSplit (lead ++ renderCV root ++ trail)
      = (lead, renderCV root ++ trail) := by
    rw [List.append_assoc]
    exact triviaSplit_stable hl (show headNTS (renderCV root ++ trail) = true from by
      rw [hrr]
      exact hc0)
  have hpv := (parse_stable (sizeCV root)).1 root (le_refl _) hr
    ((lead ++ renderCV root ++ trail).length * 4 + 16) trail ht
    (by simp only [List.length_append]; omega)
  have htt : triviaSplit trail = (trail, []) := by
    rw [triviaSplit]
    rw [hsk (trail.length + 1) (by omega), List.take_length, List.drop_length]
  rw [parseDoc, hts]
  simp only
  rw [hpv]
  simp only
  rw [htt]
  simp only [List.isEmpty_nil, if_true]

/-- **C4 (amended).** Idempotence of the structural edit holds whenever the
path stays within array bounds: if `pathInBounds text P` and the first
edit pass succeeds with result `t1`, the second pass for the same `P` and
`V` returns `t1` unchanged. -/
theorem edit_idempotent_in_bounds (text : Chars) (P : List Seg) (V : JsonValue)
    (fmt : FormattingOptions) (t1 : Chars)
    (hin : pathInBounds text P = true)
    (h1 : editOnce text P V fmt = some t1) :
    editOnce t1 P V fmt = some t1 := by
  rw [pathInBounds] at hin
  rcases hd : parseDoc text with _ | d <;> rw [hd] at hin
  · simp only at hin
    exact absurd hin (by simp)
  · simp only at hin
    obtain ⟨htext, hlead, hroot, htrail, hskip⟩ := parseDoc_sound hd
    obtain ⟨o, ln, c, root', hwm, hsurg, hgood2, hbound, hsplice⟩ :=
      wm_surg fmt V P d.root 0 hroot hin
    rw [editOnce, modify, hd] at h1
    simp only [Option.some_bind] at h1
    rw [hwm, Option.map_some', Option.map_some'] at h1
    simp only [Option.some.injEq] at h1
    have ht1 : t1 = d.lead ++ renderCV root' ++ d.trail := by
      rw [← h1]
      show splice text ⟨d.lead.length + o, ln, c⟩ = _
      rw [htext, renderDoc, splice_doc hbound, hsplice]
    obtain ⟨o2, ln2, c2, hwm2, hbound2, hid2⟩ :=
      surg_wm_id fmt V P d.root 0 root' hroot hin hsurg
    have hd2 : parseDoc t1 = some ⟨d.lead, root', d.trail⟩ := by
      rw [ht1]
      exact parseDoc_stable hlead hgood2 htrail hskip
    rw [editOnce, modify, hd2]
    simp only [Option.some_bind]
    rw [hwm2, Option.map_some', Option.map_some']
    simp only [Option.some.injEq]
    show splice t1 ⟨d.lead.length + o2, ln2, c2⟩ = t1
    rw [ht1, splice_doc hbound2, hid2]

/-- Witness for the amended C4 theorem at a concrete document: editing
`{"a":1}` at path `a` to `2` yields `{"a":2}`, and the second pass leaves
it unchanged. -/
theorem edit_idempotent_in_bounds_w :
    pathInBounds "\x7b\"a\":1\x7d".data [.key "a"] = true ∧
      editOnce "\x7b\"a\":1\x7d".data [.key "a"] (.num 2) defaultFmt = some "\x7b\"a\":2\x7d".data ∧
      editOnce "\x7b\"a\":2\x7d".data [.key "a"] (.num 2) defaultFmt = some "\x7b\"a\":2\x7d".data :=
  ⟨rfl, rfl, edit_idempotent_in_bounds "\x7b\"a\":1\x7d".data [.key "a"] (.num 2) defaultFmt
    "\x7b\"a\":2\x7d".data rfl rfl⟩

end JPE
